import Mathlib

/-!
# Barnes-Hut simulation core: quadtree construction, force traversal, integration

A shallow embedding of `functions.go`, followed by the properties proved about it.

Modelling conventions.

* `float64` is modelled by an arbitrary linearly ordered field `K` (exact arithmetic, no
  rounding, no NaN); every definition is generic in `K` and runs on `ℚ`.  The one place where
  rounding changes what the program does, the midpoint comparisons that drive the recursion
  of `InsertAtLeaf`, is embedded a second time with the rounding of `float64`
  (`DetermineQuadrantRounded`, `InsertAtLeafRounded`, `roundFloat64`).
* `math.Sqrt` is a parameter `sqrt : K → K`.  Theorems that depend on what a square root is
  take the hypothesis `IsSqrt sqrt`, which `Real.sqrt` satisfies; concrete runs on `ℚ` use
  `Rat.sqrt`, which is exact on squares of rationals, and only meet such arguments.
* The constant `G` is declared outside the three source files and is a parameter.
* A `*Star` that may be `nil` is an `Option (Star K)`; a `*Node` is a `Node K`, whose
  constructor `nil` is the nil pointer.  A node whose `children` slice has length 0 is `leaf`,
  a node whose `children` slice has length 4 is `branch`, its slots indexed by `Fin 4`.
  Every node the code builds holds a star, so `n.star` is a field and never nil.
* The tree is built by in-place mutation of nodes that the construction alone owns; every star
  put into a node is a fresh copy.  Insertion is therefore a function from trees to trees.
* A nil dereference and an exhausted recursion budget are the two faults of `Except Fault`.
  The recursion of `InsertAtLeaf` has no bound in the source; the parameter `fuel` bounds its
  depth.  In exact arithmetic over an Archimedean field two bodies at distinct positions of
  the region are separated after finitely many halvings; with the rounding of `float64` they
  need not be, and the recursion then exhausts every budget.  The properties of the tree are
  therefore stated for a tree that the construction has returned.
* The two loops of `UpdateUniverse` touch slot `i` only in iteration `i`; they are maps over
  the slots.
-/

namespace BarnesHut

/-- The pair of floats used for positions, velocities, accelerations and forces. -/
structure OrderedPair (K : Type) where
  x : K
  y : K
deriving DecidableEq, Repr

/-- A body: the fields copied in `UpdateUniverse` and `InsertIntoQuadTree`. -/
structure Star (K : Type) where
  position : OrderedPair K
  velocity : OrderedPair K
  acceleration : OrderedPair K
  mass : K
  radius : K
  red : Nat
  blue : Nat
  green : Nat
deriving DecidableEq, Repr

/-- A square region: origin and side. -/
structure Quadrant (K : Type) where
  x : K
  y : K
  width : K
deriving DecidableEq, Repr

/-- A `*Node`: `nil`, a node with an empty `children` slice, or a node whose `children`
slice has four slots. -/
inductive Node (K : Type) where
  | nil : Node K
  | leaf (star : Star K) (sector : Quadrant K) : Node K
  | branch (star : Star K) (sector : Quadrant K) (children : Fin 4 → Node K) : Node K

/-- The tree handle. -/
structure QuadTree (K : Type) where
  root : Node K

/-- The body set: a slice of possibly nil star pointers and the region width. -/
structure Universe (K : Type) where
  stars : List (Option (Star K))
  width : K
deriving DecidableEq, Repr

/-- The two ways a run can fail to return. -/
inductive Fault where
  | nilDereference
  | fuelExhausted
deriving DecidableEq, Repr

section Code

variable {K : Type} [LinearOrderedField K]

/-- `AddOrderedPairs`. -/
def AddOrderedPairs (p1 p2 : OrderedPair K) : OrderedPair K :=
  { x := p1.x + p2.x, y := p1.y + p2.y }

/-- `Distance`. -/
def Distance (sqrt : K → K) (p1 p2 : OrderedPair K) : K :=
  let deltaX := p1.x - p2.x
  let deltaY := p1.y - p2.y
  sqrt (deltaX * deltaX + deltaY * deltaY)

/-- `ComputeForce`: the force of `b2` acting on `b1`. -/
def ComputeForce (G : K) (sqrt : K → K) (b1 b2 : Star K) : OrderedPair K :=
  let dist := Distance sqrt b1.position b2.position
  let F := G * b1.mass * b2.mass / (dist * dist)
  let deltaX := b2.position.x - b1.position.x
  let deltaY := b2.position.y - b1.position.y
  { x := F * (deltaX / dist), y := F * (deltaY / dist) }

/-- `UpdateVelocity`. -/
def UpdateVelocity (s : Star K) (time : K) : OrderedPair K :=
  { x := s.velocity.x + s.acceleration.x * time,
    y := s.velocity.y + s.acceleration.y * time }

/-- `UpdatePosition`. -/
def UpdatePosition (s : Star K) (time : K) : OrderedPair K :=
  { x := s.position.x + s.velocity.x * time + (1 / 2) * s.acceleration.x * time * time,
    y := s.position.y + s.velocity.y * time + (1 / 2) * s.acceleration.y * time * time }

/-- The test `n == nil`. -/
def Node.isNil : Node K → Bool
  | .nil => true
  | _ => false

/-- `IsLeaf`. -/
def IsLeaf : Node K → Bool
  | .nil => true
  | .leaf _ _ => true
  | .branch _ _ children =>
    (children 0).isNil && (children 1).isNil && (children 2).isNil && (children 3).isNil

/-- `UpdateCenterOfMass`, on the star stored in the node. -/
def UpdateCenterOfMass (a s : Star K) : Star K :=
  { a with
    position :=
      { x := (a.position.x * a.mass + s.position.x * s.mass) / (a.mass + s.mass),
        y := (a.position.y * a.mass + s.position.y * s.mass) / (a.mass + s.mass) },
    mass := a.mass + s.mass }

/-- `MergeStars`, on the star stored in the node. -/
def MergeStars (a s : Star K) : Star K :=
  { a with
    mass := a.mass + s.mass,
    velocity :=
      { x := (a.velocity.x + s.velocity.x) / 2,
        y := (a.velocity.y + s.velocity.y) / 2 } }

/-- `DetermineQuadrant`, from the node's sector and the star. -/
def DetermineQuadrant (sector : Quadrant K) (s : Star K) : Quadrant K × Fin 4 :=
  if s.position.x ≤ sector.x + sector.width / 2 then
    if s.position.y ≥ sector.y + sector.width / 2 then
      ({ x := sector.x, y := sector.y + sector.width / 2, width := sector.width / 2 }, 0)
    else
      ({ x := sector.x, y := sector.y, width := sector.width / 2 }, 2)
  else
    if s.position.y ≥ sector.y + sector.width / 2 then
      ({ x := sector.x + sector.width / 2, y := sector.y + sector.width / 2,
         width := sector.width / 2 }, 1)
    else
      ({ x := sector.x + sector.width / 2, y := sector.y, width := sector.width / 2 }, 3)

/-- The field-by-field copy `&Star{position: s.position, ...}` made at every insertion. -/
def copyStar (s : Star K) : Star K :=
  { position := s.position, velocity := s.velocity, acceleration := s.acceleration,
    mass := s.mass, radius := s.radius, red := s.red, blue := s.blue, green := s.green }

/-- The `n == nil` branch of `InsertIntoQuadTree` (lines 96-109) for a non-nil star. -/
def newLeaf (s : Star K) (quadrant : Quadrant K) : Node K :=
  .leaf (copyStar s) quadrant

/-- The slice `make([]*Node, 4)`. -/
def emptyChildren : Fin 4 → Node K := fun _ => .nil

/-- `InsertAtLeaf n s quadrant` where `nstar` is `n.star`.  Each call of `InsertIntoQuadTree`
in the body is on a child slot that is still nil, so it is the `n == nil` branch, `newLeaf`.
The recursion has no bound in the source; `fuel` bounds its depth here. -/
def InsertAtLeaf : Nat → Star K → Star K → Quadrant K → Except Fault (Node K)
  | 0, _, _, _ => .error .fuelExhausted
  | fuel + 1, nstar, s, quadrant =>
    let newStar := copyStar nstar
    let qn := DetermineQuadrant quadrant nstar
    let qs := DetermineQuadrant quadrant s
    if qn.2 ≠ qs.2 then
      let children := Function.update emptyChildren qn.2 (newLeaf nstar qn.1)
      let children := Function.update children qs.2 (newLeaf s qs.1)
      .ok (.branch (UpdateCenterOfMass newStar s) quadrant children)
    else
      let children := Function.update emptyChildren qn.2 (newLeaf nstar qn.1)
      match InsertAtLeaf fuel (copyStar nstar) s qs.1 with
      | .error e => .error e
      | .ok sub =>
        .ok (.branch (UpdateCenterOfMass newStar s) quadrant (Function.update children qs.2 sub))

/-- The leaf branch of `InsertIntoQuadTree` (lines 121-128): `n` is a leaf holding `nstar`. -/
def insertLeafCase (fuel : Nat) (nstar : Star K) (sector : Quadrant K) (s : Option (Star K)) :
    Except Fault (Node K) :=
  match s with
  | none => .error .nilDereference
  | some s =>
    if nstar.position.x = s.position.x ∧ nstar.position.y = s.position.y then
      .ok (.branch (MergeStars nstar s) sector emptyChildren)
    else
      InsertAtLeaf fuel nstar s sector

/-- `InsertIntoQuadTree`. -/
def InsertIntoQuadTree (fuel : Nat) : Node K → Option (Star K) → Quadrant K →
    Except Fault (Node K)
  | .nil, none, _ => .error .nilDereference
  | .nil, some s, quadrant => .ok (newLeaf s quadrant)
  | .leaf nstar sector, s, _ => insertLeafCase fuel nstar sector s
  | .branch nstar sector children, s, _ =>
    if IsLeaf (.branch nstar sector children) then
      insertLeafCase fuel nstar sector s
    else
      match s with
      | none => .ok (.branch nstar sector children)
      | some s =>
        if nstar.position.x = s.position.x ∧ nstar.position.y = s.position.y then
          .ok (.branch (MergeStars nstar s) sector children)
        else
          let qs := DetermineQuadrant sector s
          match InsertIntoQuadTree fuel (children qs.2) (some s) qs.1 with
          | .error e => .error e
          | .ok c =>
            .ok (.branch (UpdateCenterOfMass nstar s) sector (Function.update children qs.2 c))

/-- `InitializeStartingQuadrant`. -/
def InitializeStartingQuadrant (u : Universe K) : Quadrant K :=
  { x := 0, y := 0, width := u.width }

/-- The loop of `GenerateQuadTree` over the remaining stars, from the current root. -/
def generateLoop (fuel : Nat) (u : Universe K) :
    List (Option (Star K)) → Node K → Except Fault (Node K)
  | [], root => .ok root
  | star :: rest, root =>
    match InsertIntoQuadTree fuel root star (InitializeStartingQuadrant u) with
    | .error e => .error e
    | .ok root1 => generateLoop fuel u rest root1

/-- `GenerateQuadTree`. -/
def GenerateQuadTree (fuel : Nat) (u : Universe K) : Except Fault (QuadTree K) :=
  match generateLoop fuel u u.stars .nil with
  | .error e => .error e
  | .ok root => .ok { root := root }

/-- `CalculateNetForce`. -/
def CalculateNetForce (G : K) (sqrt : K → K) : Node K → Star K → K → OrderedPair K
  | .nil, _, _ => { x := 0, y := 0 }
  | .leaf nstar _, s, _ =>
    let netForce : OrderedPair K := { x := 0, y := 0 }
    let dist := Distance sqrt s.position nstar.position
    if dist ≠ 0 then AddOrderedPairs netForce (ComputeForce G sqrt s nstar) else netForce
  | .branch nstar sector children, s, theta =>
    let netForce : OrderedPair K := { x := 0, y := 0 }
    let dist := Distance sqrt s.position nstar.position
    if dist ≠ 0 then
      if IsLeaf (.branch nstar sector children) then
        AddOrderedPairs netForce (ComputeForce G sqrt s nstar)
      else if sector.width / dist ≤ theta then
        AddOrderedPairs netForce (ComputeForce G sqrt s nstar)
      else
        (List.finRange 4).foldl
          (fun acc i => AddOrderedPairs acc (CalculateNetForce G sqrt (children i) s theta))
          netForce
    else netForce

/-- `UpdateAcceleration`. -/
def UpdateAcceleration (G : K) (sqrt : K → K) (n : Node K) (s : Star K) (theta : K) :
    OrderedPair K :=
  let force := CalculateNetForce G sqrt n s theta
  { x := force.x / s.mass, y := force.y / s.mass }

/-- First loop of `UpdateUniverse` (lines 34-49): a nil slot stays nil, a star is copied. -/
def copyStars (stars : List (Option (Star K))) : List (Option (Star K)) :=
  stars.map fun o =>
    match o with
    | none => none
    | some st => some (copyStar st)

/-- Body of the second loop of `UpdateUniverse` (lines 56-64) on the non-nil star of one
slot: the three assignments in source order, then the boundary test. -/
def updateStar (G : K) (sqrt : K → K) (root : Node K) (width time theta : K) (st : Star K) :
    Option (Star K) :=
  let st1 := { st with acceleration := UpdateAcceleration G sqrt root st theta }
  let st2 := { st1 with velocity := UpdateVelocity st1 time }
  let position := UpdatePosition st2 time
  if position.x < 0 ∨ position.x > width ∨ position.y < 0 ∨ position.y > width then
    none
  else
    some { st2 with position := position }

/-- `UpdateUniverse`. -/
def UpdateUniverse (G : K) (sqrt : K → K) (currentUniverse : Universe K) (q : QuadTree K)
    (time theta : K) : Universe K :=
  { stars :=
      (copyStars currentUniverse.stars).map fun o =>
        match o with
        | none => none
        | some st => updateStar G sqrt q.root currentUniverse.width time theta st,
    width := currentUniverse.width }

/-- The loop of `BarnesHut` (lines 16-20) for the remaining generations, from the last
universe computed: the universes it appends, in order. -/
def timePointsFrom (G : K) (sqrt : K → K) (fuel : Nat) (time theta : K) :
    Nat → Universe K → Except Fault (List (Universe K))
  | 0, _ => .ok []
  | n + 1, previous =>
    match GenerateQuadTree fuel previous with
    | .error e => .error e
    | .ok q =>
      match timePointsFrom G sqrt fuel time theta n (UpdateUniverse G sqrt previous q time theta)
        with
      | .error e => .error e
      | .ok rest => .ok (UpdateUniverse G sqrt previous q time theta :: rest)

/-- `BarnesHut`, for `numGens >= 0`: the slice `timePoints`.  The progress line printed in
each generation is left out. -/
def BarnesHut (G : K) (sqrt : K → K) (fuel : Nat) (initialUniverse : Universe K) (numGens : Nat)
    (time theta : K) : Except Fault (List (Universe K)) :=
  match timePointsFrom G sqrt fuel time theta numGens initialUniverse with
  | .error e => .error e
  | .ok rest => .ok (initialUniverse :: rest)

/-- The value of the local variable `position` of `UpdateUniverse` (line 58) for the star of
one slot: `UpdatePosition` of the copy after its acceleration and velocity were assigned. -/
def integratedPosition (G : K) (sqrt : K → K) (root : Node K) (time theta : K) (st : Star K) :
    OrderedPair K :=
  let st1 := { st with acceleration := UpdateAcceleration G sqrt root st theta }
  let st2 := { st1 with velocity := UpdateVelocity st1 time }
  UpdatePosition st2 time

end Code

/-! ## The recursion of `InsertAtLeaf` with the rounding of `float64`

Whether `InsertAtLeaf` recurses is decided by the comparisons of `DetermineQuadrant`.  Here
the arithmetic of `DetermineQuadrant` is written out operation by operation, every result
passed through a rounding function `rnd`; with the identity for `rnd` these are the
definitions above.  The aggregate star of a node is computed after the recursive call has
returned and takes no part in the comparisons; it is left in exact arithmetic. -/

section RoundedCode

variable {K : Type} [LinearOrderedField K]

/-- `DetermineQuadrant` with rounded operations: `n.sector.width/2` is `rnd (width / 2)` and
`n.sector.x + n.sector.width/2` is `rnd (x + rnd (width / 2))`, likewise for `y`. -/
def DetermineQuadrantRounded (rnd : K → K) (sector : Quadrant K) (s : Star K) :
    Quadrant K × Fin 4 :=
  if s.position.x ≤ rnd (sector.x + rnd (sector.width / 2)) then
    if s.position.y ≥ rnd (sector.y + rnd (sector.width / 2)) then
      ({ x := sector.x, y := rnd (sector.y + rnd (sector.width / 2)),
         width := rnd (sector.width / 2) }, 0)
    else
      ({ x := sector.x, y := sector.y, width := rnd (sector.width / 2) }, 2)
  else
    if s.position.y ≥ rnd (sector.y + rnd (sector.width / 2)) then
      ({ x := rnd (sector.x + rnd (sector.width / 2)),
         y := rnd (sector.y + rnd (sector.width / 2)),
         width := rnd (sector.width / 2) }, 1)
    else
      ({ x := rnd (sector.x + rnd (sector.width / 2)), y := sector.y,
         width := rnd (sector.width / 2) }, 3)

/-- `InsertAtLeaf` over `DetermineQuadrantRounded`; otherwise as `InsertAtLeaf`. -/
def InsertAtLeafRounded (rnd : K → K) : Nat → Star K → Star K → Quadrant K →
    Except Fault (Node K)
  | 0, _, _, _ => .error .fuelExhausted
  | fuel + 1, nstar, s, quadrant =>
    let newStar := copyStar nstar
    let qn := DetermineQuadrantRounded rnd quadrant nstar
    let qs := DetermineQuadrantRounded rnd quadrant s
    if qn.2 ≠ qs.2 then
      let children := Function.update emptyChildren qn.2 (newLeaf nstar qn.1)
      let children := Function.update children qs.2 (newLeaf s qs.1)
      .ok (.branch (UpdateCenterOfMass newStar s) quadrant children)
    else
      let children := Function.update emptyChildren qn.2 (newLeaf nstar qn.1)
      match InsertAtLeafRounded rnd fuel (copyStar nstar) s qs.1 with
      | .error e => .error e
      | .ok sub =>
        .ok (.branch (UpdateCenterOfMass newStar s) quadrant (Function.update children qs.2 sub))

end RoundedCode

/-- The integer nearest to `m`, the even one of the two when `m` lies half way. -/
def roundHalfEven (m : ℚ) : ℤ :=
  if m - ⌊m⌋ < 1 / 2 then ⌊m⌋
  else if 1 / 2 < m - ⌊m⌋ then ⌊m⌋ + 1
  else if ⌊m⌋ % 2 = 0 then ⌊m⌋ else ⌊m⌋ + 1

/-- The `float64` nearest to the rational number `q` (IEEE 754 binary64, round to nearest,
ties to even): for `2^e ≤ |q| < 2^(e+1)` the nearest multiple of `2^(e-52)`, and the nearest
multiple of `2^(-1074)` below the smallest normal number `2^(-1022)`.  Overflow, which needs
a magnitude of `2^1024`, is not represented. -/
def roundFloat64 (q : ℚ) : ℚ :=
  if q = 0 then 0
  else
    (roundHalfEven (q * 2 ^ (52 - max (Int.log 2 |q|) (-1022))) : ℚ) /
      2 ^ (52 - max (Int.log 2 |q|) (-1022))

/-! ## Observations and predicates used to state the claims -/

section Observations

variable {K : Type} [LinearOrderedField K]

/-- The star stored in a node (`n.star`), none for the nil node. -/
def rootStar : Node K → Option (Star K)
  | .nil => none
  | .leaf st _ => some st
  | .branch st _ _ => some st

/-- The bodies held in the leaves of a subtree (a leaf is a non-nil node with `IsLeaf`), in
slot order. -/
def leafStars : Node K → List (Star K)
  | .nil => []
  | .leaf st _ => [st]
  | .branch st sec children =>
    if IsLeaf (.branch st sec children) then [st]
    else leafStars (children 0) ++ leafStars (children 1) ++ leafStars (children 2) ++
      leafStars (children 3)

/-- Sum of the masses of a list of bodies. -/
def massSum (l : List (Star K)) : K := (l.map fun b => b.mass).sum

/-- Sum of `m_i * x_i` over a list of bodies. -/
def momentX (l : List (Star K)) : K := (l.map fun b => b.mass * b.position.x).sum

/-- Sum of `m_i * y_i` over a list of bodies. -/
def momentY (l : List (Star K)) : K := (l.map fun b => b.mass * b.position.y).sum

/-- The mass-weighted centroid `(sum of m_i * p_i) / (sum of m_i)` of a list of bodies. -/
def centroid (l : List (Star K)) : OrderedPair K :=
  { x := momentX l / massSum l, y := momentY l / massSum l }

/-- The point lies in the closed square of the region. -/
def InRegion (q : Quadrant K) (p : OrderedPair K) : Prop :=
  q.x ≤ p.x ∧ p.x ≤ q.x + q.width ∧ q.y ≤ p.y ∧ p.y ≤ q.y + q.width

/-- The sub-region of a region with quadrant index `i` (NW=0, NE=1, SW=2, SE=3), as built in
the four branches of `DetermineQuadrant`. -/
def subQuadrant (sector : Quadrant K) (i : Fin 4) : Quadrant K :=
  match i with
  | 0 => { x := sector.x, y := sector.y + sector.width / 2, width := sector.width / 2 }
  | 1 => { x := sector.x + sector.width / 2, y := sector.y + sector.width / 2,
           width := sector.width / 2 }
  | 2 => { x := sector.x, y := sector.y, width := sector.width / 2 }
  | 3 => { x := sector.x + sector.width / 2, y := sector.y, width := sector.width / 2 }

/-- The shape every tree built by insertion has: each node carries the region it was created
for, a child in slot `i` carries the sub-region `i` of its parent, and a leaf's body lies in
the leaf's region. -/
def WellPlaced : Node K → Quadrant K → Prop
  | .nil, _ => True
  | .leaf st sector, q => sector = q ∧ InRegion q st.position
  | .branch st sector children, q =>
    sector = q ∧
    (IsLeaf (.branch st sector children) = true → InRegion q st.position) ∧
    ∀ i, WellPlaced (children i) (subQuadrant q i)

/-- What a square root function is: the non-negative root of every non-negative number. -/
def IsSqrt (sqrt : K → K) : Prop :=
  ∀ x : K, 0 ≤ x → 0 ≤ sqrt x ∧ sqrt x * sqrt x = x

/-- All non-nil nodes of a subtree, the root first. -/
def subtrees {K : Type} : Node K → List (Node K)
  | .nil => []
  | .leaf st sector => [.leaf st sector]
  | .branch st sector children =>
    .branch st sector children ::
      (subtrees (children 0) ++ subtrees (children 1) ++ subtrees (children 2) ++
        subtrees (children 3))

/-- The aggregate invariant at one node: if the node is Internal, the mass of its star is the
sum of the masses of the bodies held in the leaves of its subtree and the position of its
star is their mass-weighted centroid. -/
def AggregateAt {K : Type} [LinearOrderedField K] (n : Node K) : Prop :=
  IsLeaf n = false → ∀ a, rootStar n = some a →
    a.mass = massSum (leafStars n) ∧ a.position = centroid (leafStars n)

/-- The aggregate invariant at every node of a subtree. -/
def AggregateInvariant {K : Type} [LinearOrderedField K] : Node K → Prop
  | .nil => True
  | .leaf _ _ => True
  | .branch st sector children =>
    AggregateAt (.branch st sector children) ∧ ∀ i, AggregateInvariant (children i)

/-- The sum of `ComputeForce s b` over a list of bodies `b`, accumulated with
`AddOrderedPairs` from the zero vector. -/
def sumForces {K : Type} [LinearOrderedField K] (G : K) (sqrt : K → K) (s : Star K)
    (L : List (Star K)) : OrderedPair K :=
  L.foldl (fun acc b => AddOrderedPairs acc (ComputeForce G sqrt s b)) { x := 0, y := 0 }

/-- Direct pairwise summation, in the spec's words: the sum of `ComputeForce s b` over all
other bodies `b` of the universe, `s` being the body of slot `i`. -/
def pairwiseForce {K : Type} [LinearOrderedField K] (G : K) (sqrt : K → K)
    (bodies : List (Star K)) (i : Nat) (s : Star K) : OrderedPair K :=
  sumForces G sqrt s (bodies.eraseIdx i)

/-- The bodies of a list that are not at the position of `s`. -/
def otherBodies {K : Type} [LinearOrderedField K] (s : Star K) (L : List (Star K)) :
    List (Star K) :=
  L.filter fun b => decide (b.position ≠ s.position)

/-- The target `s` is at non-zero distance from the aggregate position of every Internal node
of the tree. -/
def FarFromAggregates {K : Type} [LinearOrderedField K] (sqrt : K → K) (s : Star K)
    (t : Node K) : Bool :=
  (subtrees t).all fun n =>
    IsLeaf n ||
      match rootStar n with
      | none => true
      | some a => decide (Distance sqrt s.position a.position ≠ 0)

/-- The number of nodes on the longest path from a node down to a leaf; 0 for the nil node. -/
def depth {K : Type} : Node K → Nat
  | .nil => 0
  | .leaf _ _ => 1
  | .branch _ _ children =>
    1 + max (max (depth (children 0)) (depth (children 1)))
      (max (depth (children 2)) (depth (children 3)))

/-- The shape of the result of splitting the leaf of `a` over the region `q` for the body `s`:
a chain of nodes over the successive quadrants of the two bodies, each holding the aggregate
of `a` and `s` and one occupied slot, the slot `DetermineQuadrant` gives both bodies, down to
a deepest node in which `DetermineQuadrant` gives the bodies two different slots; that node
holds `a` and `s` as leaves, each in the slot and over the quadrant `DetermineQuadrant` gives
it, and every other slot is nil. -/
inductive SplitChain {K : Type} [LinearOrderedField K] (a s : Star K) :
    Quadrant K → Node K → Prop
  | split {q : Quadrant K} {children : Fin 4 → Node K} :
      (DetermineQuadrant q a).2 ≠ (DetermineQuadrant q s).2 →
      children (DetermineQuadrant q a).2 = .leaf a (DetermineQuadrant q a).1 →
      children (DetermineQuadrant q s).2 = .leaf s (DetermineQuadrant q s).1 →
      (∀ k, k ≠ (DetermineQuadrant q a).2 → k ≠ (DetermineQuadrant q s).2 →
        children k = .nil) →
      SplitChain a s q (.branch (UpdateCenterOfMass a s) q children)
  | deeper {q : Quadrant K} {children : Fin 4 → Node K} :
      (DetermineQuadrant q a).2 = (DetermineQuadrant q s).2 →
      SplitChain a s (DetermineQuadrant q s).1 (children (DetermineQuadrant q s).2) →
      (∀ k, k ≠ (DetermineQuadrant q s).2 → children k = .nil) →
      SplitChain a s q (.branch (UpdateCenterOfMass a s) q children)

end Observations

/-! ## Vocabulary of the proofs -/

section Vocabulary

variable {K : Type} [LinearOrderedField K]

/-- The node `t` is a leaf holding `a` over the region `sector`: its `children` slice is
empty, or has four nil slots. -/
def HoldsLeaf (t : Node K) (a : Star K) (sector : Quadrant K) : Prop :=
  t = .leaf a sector ∨
    ∃ children, t = .branch a sector children ∧ IsLeaf (.branch a sector children) = true

/-- The five ways `InsertIntoQuadTree` inserts a non-nil star, one constructor per path
through the function body. -/
inductive Ins (fuel : Nat) : Node K → Star K → Quadrant K → Node K → Prop
  | empty (s : Star K) (q : Quadrant K) : Ins fuel .nil s q (newLeaf s q)
  | leafMerge {t : Node K} {a : Star K} {sector : Quadrant K} (s : Star K) (q : Quadrant K) :
      HoldsLeaf t a sector → a.position = s.position →
      Ins fuel t s q (.branch (MergeStars a s) sector emptyChildren)
  | leafSplit {t : Node K} {a : Star K} {sector : Quadrant K} {t' : Node K} (s : Star K)
      (q : Quadrant K) :
      HoldsLeaf t a sector → a.position ≠ s.position → InsertAtLeaf fuel a s sector = .ok t' →
      Ins fuel t s q t'
  | aggregateMerge {a : Star K} {sector : Quadrant K} {children : Fin 4 → Node K} (s : Star K)
      (q : Quadrant K) :
      IsLeaf (.branch a sector children) = false → a.position = s.position →
      Ins fuel (.branch a sector children) s q (.branch (MergeStars a s) sector children)
  | descend {a : Star K} {sector : Quadrant K} {children : Fin 4 → Node K} {c : Node K}
      (s : Star K) (q : Quadrant K) :
      IsLeaf (.branch a sector children) = false → a.position ≠ s.position →
      Ins fuel (children (DetermineQuadrant sector s).2) s (DetermineQuadrant sector s).1 c →
      Ins fuel (.branch a sector children) s q
        (.branch (UpdateCenterOfMass a s) sector
          (Function.update children (DetermineQuadrant sector s).2 c))

/-- The root of the tree built from the bodies `L`: nil for no body, else a node whose star has
the total mass of `L` and, in product form, the mass-weighted centroid of `L`. -/
def RootAggregate (t : Node K) (L : List (Star K)) : Prop :=
  (t = .nil ∧ L = []) ∨
  ∃ a, rootStar t = some a ∧ L ≠ [] ∧ 0 < a.mass ∧ a.mass = massSum L ∧
    a.position.x * massSum L = momentX L ∧ a.position.y * massSum L = momentY L

/-- The leaves below the four slots of a node, in slot order. -/
def childLeaves {K : Type} (children : Fin 4 → Node K) : List (Star K) :=
  leafStars (children 0) ++ leafStars (children 1) ++ leafStars (children 2) ++
    leafStars (children 3)

/-- The inserted body became a leaf of its own, or was merged into the body of a leaf at the
same position. -/
def Absorbed (s : Star K) (L L' : List (Star K)) : Prop :=
  L'.Perm (s :: L) ∨
    ∃ l rest, L.Perm (l :: rest) ∧ l.position = s.position ∧ L'.Perm (MergeStars l s :: rest)

/-- The regions through which `InsertAtLeafRounded roundFloat64` takes the bodies
`closeBodyLow` and `closeBodyHigh` from the region of width 3: after `k` levels the
north-west quadrant of side `3 / 2^k`, whose lower edge is at `3 - 3 / 2^k` while that is a
`float64` (up to level 51), at `3 - 2^-50` on level 52, and from then on at `3 - 2^-51`, the
height of the lower body. -/
def roundedSector (k : Nat) : Quadrant ℚ :=
  { x := 0,
    y := if k ≤ 51 then 3 - 3 / 2 ^ k else if k = 52 then 3 - 1 / 2 ^ 50 else 3 - 1 / 2 ^ 51,
    width := 3 / 2 ^ k }

end Vocabulary

/-! ## Concrete inputs -/

section Inputs

/-- A star at `(x, y)` with mass `m`, velocity `v`, acceleration `a` and no display data. -/
def mkStar {K : Type} [LinearOrderedField K] (x y m : K) (v a : OrderedPair K) : Star K :=
  { position := { x := x, y := y }, velocity := v, acceleration := a, mass := m,
    radius := 0, red := 0, blue := 0, green := 0 }

/-- A star at rest at `(x, y)` with mass `m`. -/
def restStar {K : Type} [LinearOrderedField K] (x y m : K) : Star K :=
  mkStar x y m { x := 0, y := 0 } { x := 0, y := 0 }

/-- The integration scenario: position `(0,0)`, velocity `(0,0)`, acceleration `(2,0)`. -/
def scenarioStar : Star ℚ :=
  mkStar 0 0 1 { x := 0, y := 0 } { x := 2, y := 0 }

/-- The gravitational constant of the force scenario, `6.674e-11`. -/
def scenarioG {K : Type} [LinearOrderedField K] : K := 6674 / 10 ^ 14

/-- First body of the force scenario: mass `5e24` at `(0,0)`. -/
def scenarioBody1 {K : Type} [LinearOrderedField K] : Star K :=
  restStar 0 0 (5 * 10 ^ 24)

/-- Second body of the force scenario: mass `5e24` at `(1e6,0)`. -/
def scenarioBody2 {K : Type} [LinearOrderedField K] : Star K :=
  restStar (10 ^ 6) 0 (5 * 10 ^ 24)

/-- The tree of two unit masses at `(1,1)` and `(3,1)` in a universe of width 4: an Internal
root over the SW and SE leaves. -/
def twoBodyTree {K : Type} [LinearOrderedField K] : Node K :=
  .branch (UpdateCenterOfMass (restStar 1 1 1) (restStar 3 1 1)) { x := 0, y := 0, width := 4 }
    (Function.update
      (Function.update emptyChildren 2 (newLeaf (restStar 1 1 1) { x := 0, y := 0, width := 2 }))
      3 (newLeaf (restStar 3 1 1) { x := 2, y := 0, width := 2 }))

/-- A coloured body of radius 7 at `(1,2)` with velocity `(1,0)` and acceleration `(5,5)`. -/
def paintedStar : Star ℚ :=
  { position := { x := 1, y := 2 }, velocity := { x := 1, y := 0 },
    acceleration := { x := 5, y := 5 }, mass := 3, radius := 7, red := 10, blue := 30,
    green := 20 }

/-- A body at `(1,1)` moving with velocity `(-2,0)`: one step of `dt = 1` takes it out of
the region. -/
def departingStar : Star ℚ :=
  mkStar 1 1 1 { x := -2, y := 0 } { x := 0, y := 0 }

/-- A body at `(0, 3 - 2^-51)`, the `float64` just below 3. -/
def closeBodyLow : Star ℚ := restStar 0 (3 - 1 / 2 ^ 51) 1

/-- A body at `(0, 3)`. -/
def closeBodyHigh : Star ℚ := restStar 0 3 1

end Inputs

/-! ## Basic facts -/

theorem copyStar_eq {K : Type} (s : Star K) : copyStar s = s := rfl

section Basic

variable {K : Type} [LinearOrderedField K]

theorem isSqrt_real : IsSqrt Real.sqrt := fun x hx =>
  ⟨Real.sqrt_nonneg x, Real.mul_self_sqrt hx⟩

theorem IsSqrt.sqrt_mul_self {sqrt : K → K} (h : IsSqrt sqrt) {a : K} (ha : 0 ≤ a) :
    sqrt (a * a) = a := by
  obtain ⟨h0, h1⟩ := h (a * a) (mul_self_nonneg a)
  exact (mul_self_inj_of_nonneg h0 ha).1 h1

theorem IsSqrt.sqrt_zero {sqrt : K → K} (h : IsSqrt sqrt) : sqrt 0 = 0 := by
  simpa using h.sqrt_mul_self (le_refl (0 : K))

theorem IsSqrt.eq_zero_iff {sqrt : K → K} (h : IsSqrt sqrt) {a : K} (ha : 0 ≤ a) :
    sqrt a = 0 ↔ a = 0 := by
  constructor
  · intro h0
    have := (h a ha).2
    rw [h0] at this
    simpa using this.symm
  · rintro rfl
    exact h.sqrt_zero

theorem sq_sum_nonneg (a b : K) : 0 ≤ a * a + b * b :=
  add_nonneg (mul_self_nonneg a) (mul_self_nonneg b)

theorem sq_sum_eq_zero_iff (a b : K) : a * a + b * b = 0 ↔ a = 0 ∧ b = 0 := by
  constructor
  · intro h
    have ha : a * a = 0 := by nlinarith [mul_self_nonneg a, mul_self_nonneg b]
    have hb : b * b = 0 := by nlinarith [mul_self_nonneg a, mul_self_nonneg b]
    exact ⟨mul_self_eq_zero.1 ha, mul_self_eq_zero.1 hb⟩
  · rintro ⟨rfl, rfl⟩
    simp

theorem Distance_nonneg {sqrt : K → K} (h : IsSqrt sqrt) (p1 p2 : OrderedPair K) :
    0 ≤ Distance sqrt p1 p2 :=
  (h _ (sq_sum_nonneg _ _)).1

theorem Distance_mul_self {sqrt : K → K} (h : IsSqrt sqrt) (p1 p2 : OrderedPair K) :
    Distance sqrt p1 p2 * Distance sqrt p1 p2 =
      (p1.x - p2.x) * (p1.x - p2.x) + (p1.y - p2.y) * (p1.y - p2.y) :=
  (h _ (sq_sum_nonneg _ _)).2

theorem Distance_eq_zero_iff {sqrt : K → K} (h : IsSqrt sqrt) (p1 p2 : OrderedPair K) :
    Distance sqrt p1 p2 = 0 ↔ p1 = p2 := by
  unfold Distance
  simp only
  rw [h.eq_zero_iff (sq_sum_nonneg _ _), sq_sum_eq_zero_iff, sub_eq_zero, sub_eq_zero]
  cases p1; cases p2; simp

theorem Distance_pos {sqrt : K → K} (h : IsSqrt sqrt) {p1 p2 : OrderedPair K} (hne : p1 ≠ p2) :
    0 < Distance sqrt p1 p2 :=
  lt_of_le_of_ne (Distance_nonneg h p1 p2) fun h0 =>
    hne ((Distance_eq_zero_iff h p1 p2).1 h0.symm)

/-- The new universe's slots are the old slots mapped one by one. -/
theorem UpdateUniverse_stars (G : K) (sqrt : K → K) (u : Universe K) (q : QuadTree K)
    (time theta : K) :
    (UpdateUniverse G sqrt u q time theta).stars =
      u.stars.map fun o =>
        match o with
        | none => none
        | some st => updateStar G sqrt q.root u.width time theta st := by
  simp only [UpdateUniverse, copyStars, List.map_map]
  apply List.map_congr_left
  intro o _
  cases o <;> simp [copyStar_eq]

theorem UpdateUniverse_getElem? (G : K) (sqrt : K → K) (u : Universe K) (q : QuadTree K)
    (time theta : K) (i : Nat) :
    (UpdateUniverse G sqrt u q time theta).stars[i]? =
      (u.stars[i]?).map fun o =>
        match o with
        | none => none
        | some st => updateStar G sqrt q.root u.width time theta st := by
  rw [UpdateUniverse_stars, List.getElem?_map]

theorem updateStar_eq_some {G : K} {sqrt : K → K} {root : Node K} {width time theta : K}
    {st st' : Star K} (h : updateStar G sqrt root width time theta st = some st') :
    st' =
      { st with
        acceleration := UpdateAcceleration G sqrt root st theta,
        velocity :=
          UpdateVelocity { st with acceleration := UpdateAcceleration G sqrt root st theta } time,
        position := integratedPosition G sqrt root time theta st } := by
  unfold updateStar at h
  simp only at h
  split at h
  · exact absurd h (by simp)
  · exact (Option.some.inj h).symm

theorem updateStar_isSome_iff (G : K) (sqrt : K → K) (root : Node K) (width time theta : K)
    (st : Star K) :
    (∃ st', updateStar G sqrt root width time theta st = some st') ↔
      (0 ≤ (integratedPosition G sqrt root time theta st).x ∧
        (integratedPosition G sqrt root time theta st).x ≤ width ∧
        0 ≤ (integratedPosition G sqrt root time theta st).y ∧
        (integratedPosition G sqrt root time theta st).y ≤ width) := by
  unfold updateStar integratedPosition
  simp only
  split
  · rename_i hc
    constructor
    · rintro ⟨_, h⟩
      exact absurd h (by simp)
    · rintro ⟨h1, h2, h3, h4⟩
      rcases hc with hc | hc | hc | hc
      · exact absurd h1 (not_le.2 hc)
      · exact absurd h2 (not_le.2 hc)
      · exact absurd h3 (not_le.2 hc)
      · exact absurd h4 (not_le.2 hc)
  · rename_i hc
    simp only [not_or, not_lt] at hc
    exact ⟨fun _ => hc, fun _ => ⟨_, rfl⟩⟩

end Basic

/-! ## Quadrants -/

section Quadrants

variable {K : Type} [LinearOrderedField K]

theorem DetermineQuadrant_fst (sector : Quadrant K) (s : Star K) :
    (DetermineQuadrant sector s).1 = subQuadrant sector (DetermineQuadrant sector s).2 := by
  unfold DetermineQuadrant
  split <;> split <;> rfl

theorem subQuadrant_width (sector : Quadrant K) (i : Fin 4) :
    (subQuadrant sector i).width = sector.width / 2 := by
  fin_cases i <;> rfl

theorem DetermineQuadrant_inRegion (sector : Quadrant K) (s : Star K)
    (h : InRegion sector s.position) :
    InRegion (DetermineQuadrant sector s).1 s.position := by
  obtain ⟨h1, h2, h3, h4⟩ := h
  unfold DetermineQuadrant
  split <;> split <;> rename_i hx hy <;> simp only [InRegion, ge_iff_le] at * <;>
    refine ⟨?_, ?_, ?_, ?_⟩ <;> linarith

/-- Two points of one closed square are no further apart than its side, in each coordinate. -/
theorem InRegion.abs_sub_le {q : Quadrant K} {p1 p2 : OrderedPair K} (h1 : InRegion q p1)
    (h2 : InRegion q p2) : |p1.x - p2.x| ≤ q.width ∧ |p1.y - p2.y| ≤ q.width := by
  obtain ⟨a1, a2, a3, a4⟩ := h1
  obtain ⟨b1, b2, b3, b4⟩ := h2
  constructor <;> rw [abs_le] <;> constructor <;> linarith

end Quadrants

/-! ## Insertion at a leaf -/

theorem Node.isNil_newLeaf {K : Type} (s : Star K) (q : Quadrant K) :
    (newLeaf s q).isNil = false := rfl

theorem IsLeaf_branch_of_child {K : Type} {st : Star K} {sector : Quadrant K}
    {children : Fin 4 → Node K} (i : Fin 4) (h : (children i).isNil = false) :
    IsLeaf (.branch st sector children) = false := by
  simp only [IsLeaf]
  fin_cases i <;> simp_all

theorem IsLeaf_branch_empty {K : Type} (st : Star K) (sector : Quadrant K) :
    IsLeaf (.branch st sector emptyChildren) = true := rfl

section AtLeaf

variable {K : Type} [LinearOrderedField K]

/-- One unfolding of `InsertAtLeaf`. -/
theorem InsertAtLeaf_succ (fuel : Nat) (a s : Star K) (q : Quadrant K) :
    InsertAtLeaf (fuel + 1) a s q =
      if (DetermineQuadrant q a).2 ≠ (DetermineQuadrant q s).2 then
        .ok (.branch (UpdateCenterOfMass a s) q
          (Function.update
            (Function.update emptyChildren (DetermineQuadrant q a).2
              (newLeaf a (DetermineQuadrant q a).1))
            (DetermineQuadrant q s).2 (newLeaf s (DetermineQuadrant q s).1)))
      else
        (InsertAtLeaf fuel a s (DetermineQuadrant q s).1).map fun sub =>
          .branch (UpdateCenterOfMass a s) q
            (Function.update
              (Function.update emptyChildren (DetermineQuadrant q a).2
                (newLeaf a (DetermineQuadrant q a).1))
              (DetermineQuadrant q s).2 sub) := by
  rw [InsertAtLeaf]
  simp only [copyStar_eq]
  split
  · rfl
  · cases InsertAtLeaf fuel a s (DetermineQuadrant q s).1 <;> rfl

/-- The result of `InsertAtLeaf` is a node with four slots, not a leaf, over the region it
was called with and with the updated aggregate. -/
theorem InsertAtLeaf_shape {fuel : Nat} {a s : Star K} {q : Quadrant K} {t : Node K}
    (h : InsertAtLeaf fuel a s q = .ok t) :
    ∃ children, t = .branch (UpdateCenterOfMass a s) q children ∧
      IsLeaf (.branch (UpdateCenterOfMass a s) q children) = false := by
  cases fuel with
  | zero => simp [InsertAtLeaf] at h
  | succ fuel =>
    rw [InsertAtLeaf_succ] at h
    split at h
    · refine ⟨_, (Except.ok.inj h).symm, ?_⟩
      exact IsLeaf_branch_of_child (DetermineQuadrant q s).2 (by simp [Node.isNil_newLeaf])
    · cases hsub : InsertAtLeaf fuel a s (DetermineQuadrant q s).1 with
      | error e => rw [hsub] at h; simp [Except.map] at h
      | ok sub =>
        rw [hsub] at h
        simp only [Except.map] at h
        refine ⟨_, (Except.ok.inj h).symm, ?_⟩
        refine IsLeaf_branch_of_child (DetermineQuadrant q s).2 ?_
        simp only [Function.update_same]
        cases fuel with
        | zero => simp [InsertAtLeaf] at hsub
        | succ fuel =>
          rw [InsertAtLeaf_succ] at hsub
          split at hsub
          · rw [← Except.ok.inj hsub]; rfl
          · cases h2 : InsertAtLeaf fuel a s (DetermineQuadrant (DetermineQuadrant q s).1 s).1
              with
            | error e => rw [h2] at hsub; simp [Except.map] at hsub
            | ok sub2 =>
              rw [h2] at hsub
              simp only [Except.map] at hsub
              rw [← Except.ok.inj hsub]; rfl

/-- More fuel does not change a result of `InsertAtLeaf`. -/
theorem InsertAtLeaf_mono {fuel : Nat} {a s : Star K} {q : Quadrant K} {t : Node K}
    (h : InsertAtLeaf fuel a s q = .ok t) {fuel' : Nat} (hle : fuel ≤ fuel') :
    InsertAtLeaf fuel' a s q = .ok t := by
  induction fuel generalizing q t fuel' with
  | zero => simp [InsertAtLeaf] at h
  | succ fuel ih =>
    obtain ⟨f, rfl⟩ : ∃ f, fuel' = f + 1 := ⟨fuel' - 1, by omega⟩
    rw [InsertAtLeaf_succ] at h ⊢
    split
    · rename_i hne
      rwa [if_pos hne] at h
    · rename_i hne
      rw [if_neg hne] at h
      cases hsub : InsertAtLeaf fuel a s (DetermineQuadrant q s).1 with
      | error e => rw [hsub] at h; simp [Except.map] at h
      | ok sub =>
        rw [hsub] at h
        rw [ih hsub (by omega)]
        exact h

end AtLeaf

/-! ## Insertion as a relation -/

theorem position_eq_iff {K : Type} (p1 p2 : OrderedPair K) :
    (p1.x = p2.x ∧ p1.y = p2.y) ↔ p1 = p2 := by
  cases p1; cases p2; simp

section Relation

variable {K : Type} [LinearOrderedField K]

theorem insertLeafCase_some (fuel : Nat) (a : Star K) (sector : Quadrant K) (s : Star K) :
    insertLeafCase fuel a sector (some s) =
      if a.position = s.position then .ok (.branch (MergeStars a s) sector emptyChildren)
      else InsertAtLeaf fuel a s sector := by
  simp only [insertLeafCase, position_eq_iff]

/-- One unfolding of `InsertIntoQuadTree` at a node that is not a leaf. -/
theorem InsertIntoQuadTree_internal (fuel : Nat) (a : Star K) (sector : Quadrant K)
    (children : Fin 4 → Node K) (s : Star K) (q : Quadrant K)
    (h : IsLeaf (.branch a sector children) = false) :
    InsertIntoQuadTree fuel (.branch a sector children) (some s) q =
      if a.position = s.position then .ok (.branch (MergeStars a s) sector children)
      else
        (InsertIntoQuadTree fuel (children (DetermineQuadrant sector s).2) (some s)
            (DetermineQuadrant sector s).1).map fun c =>
          .branch (UpdateCenterOfMass a s) sector
            (Function.update children (DetermineQuadrant sector s).2 c) := by
  rw [InsertIntoQuadTree]
  simp only [h, Bool.false_eq_true, if_false, position_eq_iff]
  split
  · rfl
  · cases InsertIntoQuadTree fuel (children (DetermineQuadrant sector s).2) (some s)
      (DetermineQuadrant sector s).1 <;> rfl

/-- Every successful insertion follows one of the five paths. -/
theorem Ins_of_insert {fuel : Nat} {t : Node K} {s : Star K} {q : Quadrant K} {t' : Node K}
    (h : InsertIntoQuadTree fuel t (some s) q = .ok t') : Ins fuel t s q t' := by
  induction t generalizing q t' with
  | nil =>
    simp only [InsertIntoQuadTree] at h
    rw [← Except.ok.inj h]
    exact Ins.empty s q
  | leaf a sector =>
    simp only [InsertIntoQuadTree] at h
    rw [insertLeafCase_some] at h
    split at h
    · rename_i heq
      rw [← Except.ok.inj h]
      exact Ins.leafMerge s q (Or.inl rfl) heq
    · rename_i hne
      exact Ins.leafSplit s q (Or.inl rfl) hne h
  | branch a sector children ih =>
    cases hl : IsLeaf (.branch a sector children) with
    | true =>
      rw [InsertIntoQuadTree] at h
      simp only [hl, if_true] at h
      rw [insertLeafCase_some] at h
      split at h
      · rename_i heq
        rw [← Except.ok.inj h]
        exact Ins.leafMerge s q (Or.inr ⟨children, rfl, hl⟩) heq
      · rename_i hne
        exact Ins.leafSplit s q (Or.inr ⟨children, rfl, hl⟩) hne h
    | false =>
      rw [InsertIntoQuadTree_internal _ _ _ _ _ _ hl] at h
      split at h
      · rename_i heq
        rw [← Except.ok.inj h]
        exact Ins.aggregateMerge s q hl heq
      · rename_i hne
        cases hc : InsertIntoQuadTree fuel (children (DetermineQuadrant sector s).2) (some s)
            (DetermineQuadrant sector s).1 with
        | error e => rw [hc] at h; simp [Except.map] at h
        | ok c =>
          rw [hc] at h
          simp only [Except.map] at h
          rw [← Except.ok.inj h]
          exact Ins.descend s q hl hne (ih _ hc)

/-- Each of the five paths is a run of `InsertIntoQuadTree`. -/
theorem insert_of_Ins {fuel : Nat} {t : Node K} {s : Star K} {q : Quadrant K} {t' : Node K}
    (h : Ins fuel t s q t') : InsertIntoQuadTree fuel t (some s) q = .ok t' := by
  induction h with
  | empty s q => rfl
  | leafMerge s q hl heq =>
    rcases hl with rfl | ⟨children, rfl, hl⟩
    · simp only [InsertIntoQuadTree]
      rw [insertLeafCase_some, if_pos heq]
    · rw [InsertIntoQuadTree]
      simp only [hl, if_true]
      rw [insertLeafCase_some, if_pos heq]
  | leafSplit s q hl hne hat =>
    rcases hl with rfl | ⟨children, rfl, hl⟩
    · simp only [InsertIntoQuadTree]
      rw [insertLeafCase_some, if_neg hne, hat]
    · rw [InsertIntoQuadTree]
      simp only [hl, if_true]
      rw [insertLeafCase_some, if_neg hne, hat]
  | aggregateMerge s q hl heq =>
    rw [InsertIntoQuadTree_internal _ _ _ _ _ _ hl, if_pos heq]
  | descend s q hl hne _ ih =>
    rw [InsertIntoQuadTree_internal _ _ _ _ _ _ hl, if_neg hne, ih]
    rfl

/-- More fuel does not change the path. -/
theorem Ins.mono {fuel : Nat} {t : Node K} {s : Star K} {q : Quadrant K} {t' : Node K}
    (h : Ins fuel t s q t') {fuel' : Nat} (hle : fuel ≤ fuel') : Ins fuel' t s q t' := by
  induction h with
  | empty s q => exact Ins.empty s q
  | leafMerge s q hl heq => exact Ins.leafMerge s q hl heq
  | leafSplit s q hl hne hat => exact Ins.leafSplit s q hl hne (InsertAtLeaf_mono hat hle)
  | aggregateMerge s q hl heq => exact Ins.aggregateMerge s q hl heq
  | descend s q hl hne _ ih => exact Ins.descend s q hl hne ih

theorem InsertIntoQuadTree_mono {fuel : Nat} {t : Node K} {s : Star K} {q : Quadrant K}
    {t' : Node K} (h : InsertIntoQuadTree fuel t (some s) q = .ok t') {fuel' : Nat}
    (hle : fuel ≤ fuel') : InsertIntoQuadTree fuel' t (some s) q = .ok t' :=
  insert_of_Ins ((Ins_of_insert h).mono hle)

/-- The result of an insertion is never the nil node. -/
theorem Ins.isNil_eq_false {fuel : Nat} {t : Node K} {s : Star K} {q : Quadrant K}
    {t' : Node K} (h : Ins fuel t s q t') : t'.isNil = false := by
  cases h with
  | empty s q => rfl
  | leafMerge s q hl heq => rfl
  | leafSplit s q hl hne hat =>
    obtain ⟨children, rfl, _⟩ := InsertAtLeaf_shape hat
    rfl
  | aggregateMerge s q hl heq => rfl
  | descend s q hl hne _ => rfl

end Relation

/-! ## Placement, and termination in exact arithmetic -/

theorem HoldsLeaf.leafStars_eq {K : Type} {t : Node K} {a : Star K} {sector : Quadrant K}
    (h : HoldsLeaf t a sector) : leafStars t = [a] := by
  rcases h with rfl | ⟨children, rfl, hl⟩
  · rfl
  · simp only [leafStars, hl, if_true]

theorem HoldsLeaf.rootStar_eq {K : Type} {t : Node K} {a : Star K} {sector : Quadrant K}
    (h : HoldsLeaf t a sector) : rootStar t = some a := by
  rcases h with rfl | ⟨children, rfl, _⟩ <;> rfl

section Placement

variable {K : Type} [LinearOrderedField K]

theorem HoldsLeaf.sector_eq_of_wellPlaced {t : Node K} {a : Star K} {sector : Quadrant K}
    (h : HoldsLeaf t a sector) {q : Quadrant K} (hw : WellPlaced t q) :
    sector = q ∧ InRegion q a.position := by
  rcases h with rfl | ⟨children, rfl, hl⟩
  · exact hw
  · exact ⟨hw.1, hw.2.1 hl⟩

theorem wellPlaced_newLeaf (s : Star K) (q : Quadrant K) (h : InRegion q s.position) :
    WellPlaced (newLeaf s q) q := ⟨rfl, h⟩

theorem InsertAtLeaf_wellPlaced {fuel : Nat} {a s : Star K} {q : Quadrant K} {t : Node K}
    (ha : InRegion q a.position) (hs : InRegion q s.position)
    (h : InsertAtLeaf fuel a s q = .ok t) : WellPlaced t q := by
  induction fuel generalizing q t with
  | zero => simp [InsertAtLeaf] at h
  | succ fuel ih =>
    have hqa := DetermineQuadrant_inRegion q a ha
    have hqs := DetermineQuadrant_inRegion q s hs
    rw [InsertAtLeaf_succ] at h
    split at h
    · rw [← Except.ok.inj h]
      refine ⟨rfl, fun hl => ?_, fun i => ?_⟩
      · rw [IsLeaf_branch_of_child (DetermineQuadrant q s).2 (by simp [Node.isNil_newLeaf])] at hl
        exact absurd hl (by simp)
      · rw [Function.update_apply]
        split
        · rename_i hi
          rw [hi, ← DetermineQuadrant_fst]
          exact wellPlaced_newLeaf s _ hqs
        · rw [Function.update_apply]
          split
          · rename_i hi
            rw [hi, ← DetermineQuadrant_fst]
            exact wellPlaced_newLeaf a _ hqa
          · trivial
    · rename_i heq
      simp only [ne_eq, not_not] at heq
      cases hsub : InsertAtLeaf fuel a s (DetermineQuadrant q s).1 with
      | error e => rw [hsub] at h; simp [Except.map] at h
      | ok sub =>
        rw [hsub] at h
        simp only [Except.map] at h
        rw [← Except.ok.inj h]
        have hqa' : InRegion (DetermineQuadrant q s).1 a.position := by
          rw [DetermineQuadrant_fst, ← heq, ← DetermineQuadrant_fst]
          exact hqa
        have hsubw := ih hqa' hqs hsub
        obtain ⟨children, rfl, hl'⟩ := InsertAtLeaf_shape hsub
        refine ⟨rfl, fun hl => ?_, fun i => ?_⟩
        · rw [IsLeaf_branch_of_child (DetermineQuadrant q s).2 (by simp [Node.isNil])] at hl
          exact absurd hl (by simp)
        · rw [Function.update_apply]
          split
          · rename_i hi
            rw [hi, ← DetermineQuadrant_fst]
            exact hsubw
          · rw [Function.update_apply]
            split
            · rename_i hi
              rw [hi, ← DetermineQuadrant_fst]
              exact wellPlaced_newLeaf a _ hqa
            · trivial

/-- In exact arithmetic two distinct bodies of one closed square are separated after finitely
many halvings: `InsertAtLeaf` returns once the side is below their larger coordinate
difference.  With the rounding of `float64` this fails (`InsertAtLeafRounded_close`). -/
theorem InsertAtLeaf_terminates_of_width (k : Nat) {a s : Star K} {q : Quadrant K}
    (ha : InRegion q a.position) (hs : InRegion q s.position)
    (hk : q.width < 2 ^ k * max |a.position.x - s.position.x| |a.position.y - s.position.y|) :
    ∃ t, InsertAtLeaf (k + 1) a s q = .ok t := by
  induction k generalizing q with
  | zero =>
    exfalso
    obtain ⟨hx, hy⟩ := ha.abs_sub_le hs
    have := max_le hx hy
    simp only [pow_zero, one_mul] at hk
    exact absurd hk (not_lt.2 this)
  | succ k ih =>
    rw [InsertAtLeaf_succ]
    split
    · exact ⟨_, rfl⟩
    · rename_i heq
      simp only [ne_eq, not_not] at heq
      have hqa := DetermineQuadrant_inRegion q a ha
      have hqs := DetermineQuadrant_inRegion q s hs
      have hqa' : InRegion (DetermineQuadrant q s).1 a.position := by
        rw [DetermineQuadrant_fst, ← heq, ← DetermineQuadrant_fst]
        exact hqa
      have hw : (DetermineQuadrant q s).1.width <
          2 ^ k * max |a.position.x - s.position.x| |a.position.y - s.position.y| := by
        rw [DetermineQuadrant_fst, subQuadrant_width]
        rw [pow_succ] at hk
        linarith
      obtain ⟨t, ht⟩ := ih hqa' hqs hw
      exact ⟨_, by rw [ht]; rfl⟩

/-- In exact arithmetic over an Archimedean field `InsertAtLeaf` returns for two distinct
bodies of the region. -/
theorem InsertAtLeaf_terminates [Archimedean K] {a s : Star K} {q : Quadrant K}
    (ha : InRegion q a.position) (hs : InRegion q s.position)
    (hne : a.position ≠ s.position) : ∃ fuel t, InsertAtLeaf fuel a s q = .ok t := by
  have hpos : 0 < max |a.position.x - s.position.x| |a.position.y - s.position.y| := by
    by_contra hcon
    have hle := not_lt.1 hcon
    have hx : |a.position.x - s.position.x| ≤ 0 := le_trans (le_max_left _ _) hle
    have hy : |a.position.y - s.position.y| ≤ 0 := le_trans (le_max_right _ _) hle
    have hx0 := sub_eq_zero.1 (abs_eq_zero.1 (le_antisymm hx (abs_nonneg _)))
    have hy0 := sub_eq_zero.1 (abs_eq_zero.1 (le_antisymm hy (abs_nonneg _)))
    exact hne ((position_eq_iff _ _).1 ⟨hx0, hy0⟩)
  obtain ⟨k, hk⟩ := pow_unbounded_of_one_lt
    (q.width / max |a.position.x - s.position.x| |a.position.y - s.position.y|)
    (one_lt_two : (1 : K) < 2)
  rw [div_lt_iff₀ hpos] at hk
  obtain ⟨t, ht⟩ := InsertAtLeaf_terminates_of_width k ha hs hk
  exact ⟨k + 1, t, ht⟩

theorem Ins.wellPlaced {fuel : Nat} {t : Node K} {s : Star K} {q : Quadrant K} {t' : Node K}
    (h : Ins fuel t s q t') (hw : WellPlaced t q) (hs : InRegion q s.position) :
    WellPlaced t' q := by
  induction h with
  | empty s q => exact wellPlaced_newLeaf s q hs
  | leafMerge s q hl heq =>
    obtain ⟨rfl, ha⟩ := hl.sector_eq_of_wellPlaced hw
    exact ⟨rfl, fun _ => ha, fun _ => trivial⟩
  | leafSplit s q hl hne hat =>
    obtain ⟨rfl, ha⟩ := hl.sector_eq_of_wellPlaced hw
    exact InsertAtLeaf_wellPlaced ha hs hat
  | @aggregateMerge a sector children s q hl heq =>
    obtain ⟨rfl, _, hch⟩ := hw
    refine ⟨rfl, fun hl' => ?_, hch⟩
    have : IsLeaf (Node.branch (MergeStars a s) sector children) = false := hl
    rw [this] at hl'
    exact absurd hl' (by simp)
  | descend s q hl hne hc ih =>
    obtain ⟨rfl, _, hch⟩ := hw
    refine ⟨rfl, fun hl' => ?_, fun i => ?_⟩
    · rw [IsLeaf_branch_of_child (DetermineQuadrant _ s).2
        (by rw [Function.update_same]; exact hc.isNil_eq_false)] at hl'
      exact absurd hl' (by simp)
    · rw [Function.update_apply]
      split
      · rename_i hi
        rw [hi]
        have := ih (by rw [DetermineQuadrant_fst]; exact hch _)
          (DetermineQuadrant_inRegion _ s hs)
        rwa [DetermineQuadrant_fst] at this
      · exact hch i

/-- In exact arithmetic over an Archimedean field, insertion of a body lying in the region of
a well placed tree returns. -/
theorem Ins.total [Archimedean K] {t : Node K} {s : Star K} {q : Quadrant K}
    (hw : WellPlaced t q) (hs : InRegion q s.position) : ∃ fuel t', Ins fuel t s q t' := by
  induction t generalizing q with
  | nil => exact ⟨0, _, Ins.empty s q⟩
  | leaf a sector =>
    obtain ⟨rfl, ha⟩ := hw
    by_cases heq : a.position = s.position
    · exact ⟨0, _, Ins.leafMerge s _ (Or.inl rfl) heq⟩
    · obtain ⟨fuel, t', ht⟩ := InsertAtLeaf_terminates ha hs heq
      exact ⟨fuel, t', Ins.leafSplit s _ (Or.inl rfl) heq ht⟩
  | branch a sector children ih =>
    obtain ⟨rfl, ha, hch⟩ := hw
    cases hl : IsLeaf (.branch a sector children) with
    | true =>
      by_cases heq : a.position = s.position
      · exact ⟨0, _, Ins.leafMerge s _ (Or.inr ⟨children, rfl, hl⟩) heq⟩
      · obtain ⟨fuel, t', ht⟩ := InsertAtLeaf_terminates (ha hl) hs heq
        exact ⟨fuel, t', Ins.leafSplit s _ (Or.inr ⟨children, rfl, hl⟩) heq ht⟩
    | false =>
      by_cases heq : a.position = s.position
      · exact ⟨0, _, Ins.aggregateMerge s _ hl heq⟩
      · obtain ⟨fuel, c, hc⟩ := ih (DetermineQuadrant sector s).2
          (q := (DetermineQuadrant sector s).1)
          (by rw [DetermineQuadrant_fst]; exact hch _) (DetermineQuadrant_inRegion _ s hs)
        exact ⟨fuel, _, Ins.descend s _ hl heq hc⟩

end Placement

/-! ## The loop of `GenerateQuadTree` -/

section Loop

variable {K : Type} [LinearOrderedField K]

theorem generateLoop_mono {fuel : Nat} {u : Universe K} {bodies : List (Star K)}
    {root root' : Node K} (h : generateLoop fuel u (bodies.map some) root = .ok root')
    {fuel' : Nat} (hle : fuel ≤ fuel') :
    generateLoop fuel' u (bodies.map some) root = .ok root' := by
  induction bodies generalizing root with
  | nil => exact h
  | cons b rest ih =>
    simp only [List.map_cons, generateLoop] at h ⊢
    cases h1 : InsertIntoQuadTree fuel root (some b) (InitializeStartingQuadrant u) with
    | error e => rw [h1] at h; simp at h
    | ok root1 =>
      rw [h1] at h
      rw [InsertIntoQuadTree_mono h1 hle]
      exact ih h

/-- Induction along the loop: a property of the tree and of the bodies inserted so far that
every insertion of a further body preserves holds when the loop returns. -/
theorem generateLoop_invariant (P : Node K → List (Star K) → Prop) (Q : Star K → Prop)
    {fuel : Nat} {u : Universe K}
    (hstep : ∀ t L s t', P t L → Q s → Ins fuel t s (InitializeStartingQuadrant u) t' →
      P t' (L ++ [s]))
    {bodies : List (Star K)} (hQ : ∀ b ∈ bodies, Q b) {r r' : Node K} {L : List (Star K)}
    (hP : P r L) (h : generateLoop fuel u (bodies.map some) r = .ok r') :
    P r' (L ++ bodies) := by
  induction bodies generalizing r L with
  | nil =>
    simp only [List.map_nil, generateLoop] at h
    rw [← Except.ok.inj h, List.append_nil]
    exact hP
  | cons b rest ih =>
    simp only [List.map_cons, generateLoop] at h
    cases h1 : InsertIntoQuadTree fuel r (some b) (InitializeStartingQuadrant u) with
    | error e => rw [h1] at h; simp at h
    | ok r1 =>
      rw [h1] at h
      have hP1 := hstep _ _ _ _ hP (hQ b (List.mem_cons_self _ _)) (Ins_of_insert h1)
      have := ih (fun b hb => hQ b (List.mem_cons_of_mem _ hb)) hP1 h
      rwa [List.append_assoc, List.singleton_append] at this

theorem generateLoop_wellPlaced {fuel : Nat} {u : Universe K} {bodies : List (Star K)}
    (hin : ∀ b ∈ bodies, InRegion (InitializeStartingQuadrant u) b.position)
    {r r' : Node K} (hw : WellPlaced r (InitializeStartingQuadrant u))
    (h : generateLoop fuel u (bodies.map some) r = .ok r') :
    WellPlaced r' (InitializeStartingQuadrant u) :=
  generateLoop_invariant (fun t _ => WellPlaced t (InitializeStartingQuadrant u))
    (fun s => InRegion (InitializeStartingQuadrant u) s.position)
    (fun _ _ _ _ hP hQ hI => hI.wellPlaced hP hQ) hin (L := []) hw h

/-- In exact arithmetic over an Archimedean field the loop returns for bodies of the region,
given enough fuel. -/
theorem generateLoop_total [Archimedean K] {u : Universe K} {bodies : List (Star K)}
    (hin : ∀ b ∈ bodies, InRegion (InitializeStartingQuadrant u) b.position)
    {r : Node K} (hw : WellPlaced r (InitializeStartingQuadrant u)) :
    ∃ fuel r', generateLoop fuel u (bodies.map some) r = .ok r' := by
  induction bodies generalizing r with
  | nil => exact ⟨0, r, rfl⟩
  | cons b rest ih =>
    obtain ⟨f1, r1, h1⟩ := Ins.total hw (hin b (List.mem_cons_self _ _))
    have hw1 := h1.wellPlaced hw (hin b (List.mem_cons_self _ _))
    obtain ⟨f2, r', h2⟩ := ih (fun b hb => hin b (List.mem_cons_of_mem _ hb)) hw1
    refine ⟨max f1 f2, r', ?_⟩
    simp only [List.map_cons, generateLoop]
    rw [insert_of_Ins (h1.mono (le_max_left f1 f2))]
    exact generateLoop_mono h2 (le_max_right f1 f2)

theorem GenerateQuadTree_eq_ok_iff {fuel : Nat} {u : Universe K} {q : QuadTree K} :
    GenerateQuadTree fuel u = .ok q ↔ generateLoop fuel u u.stars .nil = .ok q.root := by
  unfold GenerateQuadTree
  cases generateLoop fuel u u.stars .nil with
  | error e => simp
  | ok root =>
    cases q
    simp

/-- In exact arithmetic over an Archimedean field: the tree of a universe of present bodies
of the region, one tree for all large fuel. -/
theorem GenerateQuadTree_total [Archimedean K] (width : K) (bodies : List (Star K))
    (hin : ∀ b ∈ bodies, 0 ≤ b.position.x ∧ b.position.x ≤ width ∧
      0 ≤ b.position.y ∧ b.position.y ≤ width) :
    ∃ (N : Nat) (q : QuadTree K), ∀ fuel, N ≤ fuel →
      GenerateQuadTree fuel { stars := bodies.map some, width := width } = .ok q := by
  have hin' : ∀ b ∈ bodies, InRegion
      (InitializeStartingQuadrant { stars := bodies.map some, width := width }) b.position := by
    intro b hb
    obtain ⟨h1, h2, h3, h4⟩ := hin b hb
    simp only [InRegion, InitializeStartingQuadrant, zero_add]
    exact ⟨h1, h2, h3, h4⟩
  obtain ⟨N, root', h⟩ := generateLoop_total hin'
    (r := .nil) (u := { stars := bodies.map some, width := width }) trivial
  refine ⟨N, { root := root' }, fun fuel hle => ?_⟩
  rw [GenerateQuadTree_eq_ok_iff]
  exact generateLoop_mono h hle

end Loop

/-! ## The aggregate stored at the root -/

section RootAggregate

variable {K : Type} [LinearOrderedField K]

theorem massSum_append (l1 l2 : List (Star K)) :
    massSum (l1 ++ l2) = massSum l1 + massSum l2 := by
  simp [massSum]

theorem momentX_append (l1 l2 : List (Star K)) :
    momentX (l1 ++ l2) = momentX l1 + momentX l2 := by
  simp [momentX]

theorem momentY_append (l1 l2 : List (Star K)) :
    momentY (l1 ++ l2) = momentY l1 + momentY l2 := by
  simp [momentY]

theorem massSum_perm {l1 l2 : List (Star K)} (h : l1.Perm l2) : massSum l1 = massSum l2 :=
  (h.map _).sum_eq

theorem momentX_perm {l1 l2 : List (Star K)} (h : l1.Perm l2) : momentX l1 = momentX l2 :=
  (h.map _).sum_eq

theorem momentY_perm {l1 l2 : List (Star K)} (h : l1.Perm l2) : momentY l1 = momentY l2 :=
  (h.map _).sum_eq

theorem centroid_perm {l1 l2 : List (Star K)} (h : l1.Perm l2) : centroid l1 = centroid l2 := by
  simp only [centroid, massSum_perm h, momentX_perm h, momentY_perm h]

theorem massSum_pos {l : List (Star K)} (hne : l ≠ []) (h : ∀ b ∈ l, 0 < b.mass) :
    0 < massSum l := by
  induction l with
  | nil => exact absurd rfl hne
  | cons b rest ih =>
    have hb := h b (List.mem_cons_self _ _)
    by_cases hr : rest = []
    · subst hr
      simpa [massSum] using hb
    · have := ih hr (fun c hc => h c (List.mem_cons_of_mem _ hc))
      simp only [massSum, List.map_cons, List.sum_cons] at this ⊢
      linarith

/-- How one insertion changes the star stored at the root. -/
theorem Ins.rootStar_cases {fuel : Nat} {t : Node K} {s : Star K} {q : Quadrant K}
    {t' : Node K} (h : Ins fuel t s q t') :
    (t = .nil ∧ rootStar t' = some s) ∨
    ∃ a a', rootStar t = some a ∧ rootStar t' = some a' ∧ a'.mass = a.mass + s.mass ∧
      ((a.position = s.position ∧ a'.position = a.position) ∨
        a'.position = (UpdateCenterOfMass a s).position) := by
  cases h with
  | empty s q => exact Or.inl ⟨rfl, rfl⟩
  | leafMerge s q hl heq =>
    exact Or.inr ⟨_, _, hl.rootStar_eq, rfl, rfl, Or.inl ⟨heq, rfl⟩⟩
  | leafSplit s q hl hne hat =>
    obtain ⟨children, rfl, _⟩ := InsertAtLeaf_shape hat
    exact Or.inr ⟨_, _, hl.rootStar_eq, rfl, rfl, Or.inr rfl⟩
  | aggregateMerge s q hl heq =>
    exact Or.inr ⟨_, _, rfl, rfl, rfl, Or.inl ⟨heq, rfl⟩⟩
  | descend s q hl hne hc =>
    exact Or.inr ⟨_, _, rfl, rfl, rfl, Or.inr rfl⟩

theorem RootAggregate.step {fuel : Nat} {t : Node K} {s : Star K} {q : Quadrant K}
    {t' : Node K} {L : List (Star K)} (hP : RootAggregate t L) (hs : 0 < s.mass)
    (h : Ins fuel t s q t') : RootAggregate t' (L ++ [s]) := by
  have hne : L ++ [s] ≠ [] := by simp
  have hm1 : massSum [s] = s.mass := by simp [massSum]
  have hx1 : momentX [s] = s.mass * s.position.x := by simp [momentX]
  have hy1 : momentY [s] = s.mass * s.position.y := by simp [momentY]
  rcases hP with ⟨rfl, rfl⟩ | ⟨a, hra, hL, hapos, hmass, hx, hy⟩
  · rcases h.rootStar_cases with ⟨_, hr⟩ | ⟨a, a', hra, _⟩
    · refine Or.inr ⟨s, hr, hne, hs, ?_, ?_, ?_⟩
      · simp [massSum]
      · simp [massSum, momentX, mul_comm]
      · simp [massSum, momentY, mul_comm]
    · simp [rootStar] at hra
  · rcases h.rootStar_cases with ⟨rfl, _⟩ | ⟨b, a', hrb, hra', hm', hpos'⟩
    · simp [rootStar] at hra
    · rw [hra] at hrb
      obtain rfl := Option.some.inj hrb
      have hsum : a.mass + s.mass ≠ 0 := by linarith
      refine Or.inr ⟨a', hra', hne, by linarith, ?_, ?_, ?_⟩
      · rw [massSum_append, hm1, hm', hmass]
      · rw [massSum_append, momentX_append, hm1, hx1, ← hmass, ← hx, ← hmass]
        rcases hpos' with ⟨heq, hp⟩ | hp
        · rw [hp, ← heq]; ring
        · rw [hp]
          simp only [UpdateCenterOfMass]
          field_simp
          ring
      · rw [massSum_append, momentY_append, hm1, hy1, ← hmass, ← hy, ← hmass]
        rcases hpos' with ⟨heq, hp⟩ | hp
        · rw [hp, ← heq]; ring
        · rw [hp]
          simp only [UpdateCenterOfMass]
          field_simp
          ring

/-- The root aggregate of the tree of present, positive-mass bodies. -/
theorem GenerateQuadTree_rootAggregate {fuel : Nat} {width : K} {bodies : List (Star K)}
    {q : QuadTree K} (hmass : ∀ b ∈ bodies, 0 < b.mass)
    (h : GenerateQuadTree fuel { stars := bodies.map some, width := width } = .ok q) :
    RootAggregate q.root bodies := by
  rw [GenerateQuadTree_eq_ok_iff] at h
  have := generateLoop_invariant RootAggregate (fun s => 0 < s.mass)
    (fun _ _ _ _ hP hQ hI => hP.step hQ hI) hmass (L := []) (Or.inl ⟨rfl, rfl⟩) h
  simpa using this

end RootAggregate

/-! ## The bodies held in the leaves -/

theorem leafStars_internal {K : Type} {a : Star K} {sector : Quadrant K}
    {children : Fin 4 → Node K} (h : IsLeaf (.branch a sector children) = false) :
    leafStars (.branch a sector children) = childLeaves children := by
  simp only [leafStars, h, childLeaves]
  rfl

theorem childLeaves_empty {K : Type} : childLeaves (emptyChildren (K := K)) = [] := rfl

section Leaves

variable {K : Type} [LinearOrderedField K]

/-- Replacing the node in one slot replaces its leaves and keeps the leaves of the other
slots. -/
theorem childLeaves_update (children : Fin 4 → Node K) (i : Fin 4) :
    ∃ R : List (Star K), (childLeaves children).Perm (leafStars (children i) ++ R) ∧
      ∀ c, (childLeaves (Function.update children i c)).Perm (leafStars c ++ R) := by
  fin_cases i
  · refine ⟨leafStars (children 1) ++ leafStars (children 2) ++ leafStars (children 3), ?_, ?_⟩
    · simp [childLeaves]
    · intro c
      simp [childLeaves, Function.update]
  · refine ⟨leafStars (children 0) ++ leafStars (children 2) ++ leafStars (children 3), ?_, ?_⟩
    · simp only [childLeaves, List.perm_iff_count, List.count_append]
      intro x; simp only [Fin.isValue, Fin.mk_one]; omega
    · intro c
      simp only [childLeaves, Function.update, List.perm_iff_count, List.count_append]
      intro x; simp; omega
  · refine ⟨leafStars (children 0) ++ leafStars (children 1) ++ leafStars (children 3), ?_, ?_⟩
    · simp only [childLeaves, List.perm_iff_count, List.count_append]
      intro x; simp only [Fin.isValue, Fin.reduceFinMk]; omega
    · intro c
      simp only [childLeaves, Function.update, List.perm_iff_count, List.count_append]
      intro x; simp; omega
  · refine ⟨leafStars (children 0) ++ leafStars (children 1) ++ leafStars (children 2), ?_, ?_⟩
    · simp only [childLeaves, List.perm_iff_count, List.count_append]
      intro x; simp only [Fin.isValue, Fin.reduceFinMk]; omega
    · intro c
      simp only [childLeaves, Function.update, List.perm_iff_count, List.count_append]
      intro x; simp; omega

theorem childLeaves_update_empty (i : Fin 4) (c : Node K) :
    (childLeaves (Function.update emptyChildren i c)).Perm (leafStars c) := by
  obtain ⟨R, h1, h2⟩ := childLeaves_update (emptyChildren (K := K)) i
  have hR : R = [] := by
    have : ([] : List (Star K)).Perm R := by simpa [childLeaves_empty, emptyChildren, leafStars] using h1
    exact this.symm.eq_nil
  subst hR
  simpa using h2 c

theorem Absorbed.lift {s : Star K} {L L' L0 L0' R : List (Star K)} (h : Absorbed s L L')
    (h0 : L0.Perm (L ++ R)) (h0' : L0'.Perm (L' ++ R)) : Absorbed s L0 L0' := by
  rcases h with h | ⟨l, rest, hl, hp, hl'⟩
  · left
    exact h0'.trans (((h.append_right R).trans (by simp)).trans (h0.symm.cons s))
  · right
    refine ⟨l, rest ++ R, h0.trans (by simpa using hl.append_right R), hp, ?_⟩
    exact h0'.trans (by simpa using hl'.append_right R)

theorem Absorbed.massSum_eq {s : Star K} {L L' : List (Star K)} (h : Absorbed s L L') :
    massSum L' = massSum L + s.mass := by
  rcases h with h | ⟨l, rest, hl, _, hl'⟩
  · rw [massSum_perm h]
    simp [massSum, add_comm]
  · rw [massSum_perm hl', massSum_perm hl]
    simp [massSum, MergeStars]
    ring

theorem Absorbed.momentX_eq {s : Star K} {L L' : List (Star K)} (h : Absorbed s L L') :
    momentX L' = momentX L + s.mass * s.position.x := by
  rcases h with h | ⟨l, rest, hl, hp, hl'⟩
  · rw [momentX_perm h]
    simp [momentX, add_comm]
  · rw [momentX_perm hl', momentX_perm hl]
    simp [momentX, MergeStars, hp]
    ring

theorem Absorbed.momentY_eq {s : Star K} {L L' : List (Star K)} (h : Absorbed s L L') :
    momentY L' = momentY L + s.mass * s.position.y := by
  rcases h with h | ⟨l, rest, hl, hp, hl'⟩
  · rw [momentY_perm h]
    simp [momentY, add_comm]
  · rw [momentY_perm hl', momentY_perm hl]
    simp [momentY, MergeStars, hp]
    ring

theorem Absorbed.mass_pos {s : Star K} {L L' : List (Star K)} (h : Absorbed s L L')
    (hs : 0 < s.mass) (hL : ∀ b ∈ L, 0 < b.mass) : ∀ b ∈ L', 0 < b.mass := by
  intro b hb
  rcases h with h | ⟨l, rest, hl, _, hl'⟩
  · rcases List.mem_cons.1 (h.mem_iff.1 hb) with rfl | hb
    · exact hs
    · exact hL b hb
  · rcases List.mem_cons.1 (hl'.mem_iff.1 hb) with rfl | hb
    · have := hL l (hl.mem_iff.2 (List.mem_cons_self _ _))
      simp only [MergeStars]
      linarith
    · exact hL b (hl.mem_iff.2 (List.mem_cons_of_mem _ hb))

/-- The leaves of the result of `InsertAtLeaf` are the two bodies. -/
theorem InsertAtLeaf_leafStars {fuel : Nat} {a s : Star K} {q : Quadrant K} {t : Node K}
    (h : InsertAtLeaf fuel a s q = .ok t) : (leafStars t).Perm [a, s] := by
  induction fuel generalizing q t with
  | zero => simp [InsertAtLeaf] at h
  | succ fuel ih =>
    obtain ⟨children, rfl, hl⟩ := InsertAtLeaf_shape h
    rw [leafStars_internal hl]
    rw [InsertAtLeaf_succ] at h
    split at h
    · rename_i hne
      have hch := (Node.branch.inj (Except.ok.inj h)).2.2
      rw [← hch]
      obtain ⟨R, h1, h2⟩ := childLeaves_update
        (Function.update emptyChildren (DetermineQuadrant q a).2
          (newLeaf a (DetermineQuadrant q a).1)) (DetermineQuadrant q s).2
      rw [Function.update_noteq (Ne.symm hne)] at h1
      have hR : R.Perm [a] := by
        have h3 := childLeaves_update_empty (DetermineQuadrant q a).2
          (newLeaf a (DetermineQuadrant q a).1)
        have : (leafStars (emptyChildren (K := K) (DetermineQuadrant q s).2) ++ R) = R := rfl
        rw [this] at h1
        exact h1.symm.trans h3
      refine (h2 _).trans ?_
      have : leafStars (newLeaf s (DetermineQuadrant q s).1) = [s] := rfl
      rw [this]
      exact ((hR.append_left [s]).trans (List.Perm.swap a s []))
    · cases hsub : InsertAtLeaf fuel a s (DetermineQuadrant q s).1 with
      | error e => rw [hsub] at h; simp [Except.map] at h
      | ok sub =>
        rename_i heq
        simp only [ne_eq, not_not] at heq
        rw [hsub] at h
        simp only [Except.map] at h
        have hch := (Node.branch.inj (Except.ok.inj h)).2.2
        rw [← hch, heq, Function.update_idem]
        exact (childLeaves_update_empty _ sub).trans (ih hsub)

/-- How one insertion changes the bodies held in the leaves: the body is absorbed by the
leaves, or (merge into an aggregate) the leaves are unchanged. -/
theorem Ins.leafChange {fuel : Nat} {t : Node K} {s : Star K} {q : Quadrant K} {t' : Node K}
    (h : Ins fuel t s q t') :
    Absorbed s (leafStars t) (leafStars t') ∨ (leafStars t').Perm (leafStars t) := by
  induction h with
  | empty s q => exact Or.inl (Or.inl (List.Perm.refl _))
  | @leafMerge t a sector s q hl heq =>
    left; right
    refine ⟨a, [], by rw [hl.leafStars_eq], heq, ?_⟩
    simp only [leafStars, IsLeaf_branch_empty, if_true]
    exact List.Perm.refl _
  | leafSplit s q hl hne hat =>
    left; left
    rw [hl.leafStars_eq]
    exact (InsertAtLeaf_leafStars hat).trans (List.Perm.swap _ _ _)
  | @aggregateMerge a sector children s q hl heq =>
    right
    have hl' : IsLeaf (Node.branch (MergeStars a s) sector children) = false := hl
    rw [leafStars_internal hl, leafStars_internal hl']
  | @descend a sector children c s q hl hne hc ih =>
    have hl' : IsLeaf (Node.branch (UpdateCenterOfMass a s) sector
        (Function.update children (DetermineQuadrant sector s).2 c)) = false :=
      IsLeaf_branch_of_child (DetermineQuadrant sector s).2
        (by rw [Function.update_same]; exact hc.isNil_eq_false)
    rw [leafStars_internal hl, leafStars_internal hl']
    obtain ⟨R, h1, h2⟩ := childLeaves_update children (DetermineQuadrant sector s).2
    rcases ih with hab | hsame
    · exact Or.inl (hab.lift h1 (h2 c))
    · exact Or.inr ((h2 c).trans ((hsame.append_right R).trans h1.symm))

end Leaves

/-! ## The aggregate invariant -/

section Aggregate

variable {K : Type} [LinearOrderedField K]

theorem AggregateInvariant.subtrees {t : Node K} (h : AggregateInvariant t) :
    ∀ n ∈ subtrees t, AggregateAt n := by
  induction t with
  | nil => intro n hn; simp [BarnesHut.subtrees] at hn
  | leaf st sector =>
    intro n hn
    simp only [BarnesHut.subtrees, List.mem_singleton] at hn
    subst hn
    intro hl
    simp [IsLeaf] at hl
  | branch st sector children ih =>
    obtain ⟨h0, hch⟩ := h
    intro n hn
    simp only [BarnesHut.subtrees, List.mem_cons, List.mem_append] at hn
    rcases hn with rfl | ((hn | hn) | hn) | hn
    · exact h0
    · exact ih 0 (hch 0) n hn
    · exact ih 1 (hch 1) n hn
    · exact ih 2 (hch 2) n hn
    · exact ih 3 (hch 3) n hn

theorem leafStars_ne_nil {K : Type} {t : Node K} (h : t.isNil = false) :
    leafStars t ≠ [] := by
  induction t with
  | nil => simp [Node.isNil] at h
  | leaf st sector => simp [leafStars]
  | branch st sector children ih =>
    cases hl : IsLeaf (.branch st sector children) with
    | true => simp [leafStars, hl]
    | false =>
      rw [leafStars_internal hl]
      intro hnil
      simp only [childLeaves, List.append_eq_nil] at hnil
      obtain ⟨⟨⟨h0, h1⟩, h2⟩, h3⟩ := hnil
      have e : ∀ i, (children i).isNil = true := by
        intro i
        by_contra hc
        have hc' : (children i).isNil = false := by simpa using hc
        have := ih i hc'
        fin_cases i
        · exact this h0
        · exact this h1
        · exact this h2
        · exact this h3
      simp [IsLeaf, e] at hl

theorem InsertAtLeaf_aggregateInvariant {fuel : Nat} {a s : Star K} {q : Quadrant K}
    {t : Node K} (h : InsertAtLeaf fuel a s q = .ok t) : AggregateInvariant t := by
  induction fuel generalizing q t with
  | zero => simp [InsertAtLeaf] at h
  | succ fuel ih =>
    have hperm := InsertAtLeaf_leafStars h
    obtain ⟨children, rfl, hl⟩ := InsertAtLeaf_shape h
    refine ⟨?_, ?_⟩
    · intro _ a' ha'
      obtain rfl : UpdateCenterOfMass a s = a' := Option.some.inj ha'
      rw [massSum_perm hperm, centroid_perm hperm]
      refine ⟨?_, ?_⟩
      · simp [UpdateCenterOfMass, massSum]
      · rw [← position_eq_iff]
        simp only [UpdateCenterOfMass, centroid, momentX, momentY, massSum, List.map_cons,
          List.map_nil, List.sum_cons, List.sum_nil, add_zero]
        constructor <;> ring
    · rw [InsertAtLeaf_succ] at h
      split at h
      · have hch := (Node.branch.inj (Except.ok.inj h)).2.2
        rw [← hch]
        intro i
        rw [Function.update_apply]
        split
        · trivial
        · rw [Function.update_apply]
          split <;> trivial
      · cases hsub : InsertAtLeaf fuel a s (DetermineQuadrant q s).1 with
        | error e => rw [hsub] at h; simp [Except.map] at h
        | ok sub =>
          rw [hsub] at h
          simp only [Except.map] at h
          have hch := (Node.branch.inj (Except.ok.inj h)).2.2
          rw [← hch]
          intro i
          rw [Function.update_apply]
          split
          · exact ih hsub
          · rw [Function.update_apply]
            split <;> trivial

/-- An insertion that the leaves absorb keeps the aggregate invariant. -/
theorem Ins.aggregateInvariant {fuel : Nat} {t : Node K} {s : Star K} {q : Quadrant K}
    {t' : Node K} (h : Ins fuel t s q t') (hs : 0 < s.mass)
    (hpos : ∀ b ∈ leafStars t, 0 < b.mass) (hagg : AggregateInvariant t)
    (hm : massSum (leafStars t') = massSum (leafStars t) + s.mass) :
    AggregateInvariant t' := by
  induction h with
  | empty s q => trivial
  | leafMerge s q hl heq =>
    refine ⟨fun hl' => ?_, fun _ => trivial⟩
    rw [IsLeaf_branch_empty] at hl'
    exact absurd hl' (by simp)
  | leafSplit s q hl hne hat => exact InsertAtLeaf_aggregateInvariant hat
  | @aggregateMerge a sector children s q hl heq =>
    exfalso
    have hl' : IsLeaf (Node.branch (MergeStars a s) sector children) = false := hl
    rw [leafStars_internal hl, leafStars_internal hl'] at hm
    linarith
  | @descend a sector children c s q hl hne hc ih =>
    have hl' : IsLeaf (Node.branch (UpdateCenterOfMass a s) sector
        (Function.update children (DetermineQuadrant sector s).2 c)) = false :=
      IsLeaf_branch_of_child (DetermineQuadrant sector s).2
        (by rw [Function.update_same]; exact hc.isNil_eq_false)
    obtain ⟨h0, hch⟩ := hagg
    obtain ⟨hmass, hcen⟩ := h0 hl a rfl
    rw [leafStars_internal hl] at hpos hmass hcen hm
    rw [leafStars_internal hl'] at hm
    obtain ⟨R, h1, h2⟩ := childLeaves_update children (DetermineQuadrant sector s).2
    have hmc : massSum (leafStars c) =
        massSum (leafStars (children (DetermineQuadrant sector s).2)) + s.mass := by
      rw [massSum_perm (h2 c), massSum_perm h1, massSum_append, massSum_append] at hm
      linarith
    have hposc : ∀ b ∈ leafStars (children (DetermineQuadrant sector s).2), 0 < b.mass :=
      fun b hb => hpos b (h1.mem_iff.2 (List.mem_append_left _ hb))
    have haggc := ih hs hposc (hch _) hmc
    have hab : Absorbed s (childLeaves children)
        (childLeaves (Function.update children (DetermineQuadrant sector s).2 c)) := by
      rcases hc.leafChange with hab | hsame
      · exact hab.lift h1 (h2 c)
      · rw [massSum_perm hsame] at hmc
        linarith
    have hne0 : childLeaves children ≠ [] := by
      rw [← leafStars_internal hl]
      exact leafStars_ne_nil rfl
    have hM : 0 < massSum (childLeaves children) := massSum_pos hne0 hpos
    refine ⟨?_, ?_⟩
    · intro _ a' ha'
      obtain rfl : UpdateCenterOfMass a s = a' := Option.some.inj ha'
      rw [leafStars_internal hl']
      have hx : a.position.x * a.mass = momentX (childLeaves children) := by
        rw [hcen, hmass]
        simp only [centroid]
        exact div_mul_cancel₀ _ hM.ne'
      have hy : a.position.y * a.mass = momentY (childLeaves children) := by
        rw [hcen, hmass]
        simp only [centroid]
        exact div_mul_cancel₀ _ hM.ne'
      refine ⟨?_, ?_⟩
      · rw [hab.massSum_eq, ← hmass]
        rfl
      · rw [← position_eq_iff]
        simp only [UpdateCenterOfMass, centroid]
        rw [hab.massSum_eq, hab.momentX_eq, hab.momentY_eq, hx, hy, hmass]
        constructor <;> ring
    · intro i
      rw [Function.update_apply]
      split
      · exact haggc
      · exact hch i

/-- Along the loop: the leaves hold positive masses, never more than the mass inserted, and
when they hold all of it the aggregate invariant holds at every node. -/
theorem GenerateQuadTree_aggregateInvariant {fuel : Nat} {width : K} {bodies : List (Star K)}
    {q : QuadTree K} (hmass : ∀ b ∈ bodies, 0 < b.mass)
    (h : GenerateQuadTree fuel { stars := bodies.map some, width := width } = .ok q) :
    (∀ b ∈ leafStars q.root, 0 < b.mass) ∧
    massSum (leafStars q.root) ≤ massSum bodies ∧
    (massSum (leafStars q.root) = massSum bodies → AggregateInvariant q.root) := by
  rw [GenerateQuadTree_eq_ok_iff] at h
  have := generateLoop_invariant
    (fun t L => (∀ b ∈ leafStars t, 0 < b.mass) ∧ massSum (leafStars t) ≤ massSum L ∧
      (massSum (leafStars t) = massSum L → AggregateInvariant t))
    (fun s => 0 < s.mass)
    (fun t L s t' hP hQ hI => by
      obtain ⟨hpos, hle, himp⟩ := hP
      have hm1 : massSum (L ++ [s]) = massSum L + s.mass := by
        rw [massSum_append]; simp [massSum]
      rcases hI.leafChange with hab | hsame
      · refine ⟨hab.mass_pos hQ hpos, ?_, ?_⟩
        · rw [hab.massSum_eq, hm1]; linarith
        · intro heq
          rw [hab.massSum_eq, hm1] at heq
          exact hI.aggregateInvariant hQ hpos (himp (by linarith)) hab.massSum_eq
      · refine ⟨fun b hb => hpos b (hsame.mem_iff.1 hb), ?_, ?_⟩
        · rw [massSum_perm hsame, hm1]; linarith
        · intro heq
          rw [massSum_perm hsame, hm1] at heq
          linarith)
    hmass (L := []) (r := .nil)
    ⟨fun b hb => by simp [leafStars] at hb, by simp [leafStars, massSum], fun _ => trivial⟩ h
  simpa using this

theorem exists_ok_of_toOption_map {α β ε : Type} {x : Except ε α} {f : α → β} {b : β}
    (h : x.toOption.map f = some b) : ∃ a, x = .ok a ∧ f a = b := by
  cases x with
  | error e => simp [Except.toOption] at h
  | ok a => exact ⟨a, rfl, by simpa [Except.toOption] using h⟩

end Aggregate

/-! ## Traversal with `theta = 0` -/

section Traversal

variable {K : Type} [LinearOrderedField K]

theorem foldl_add_x {α : Type} (f : α → OrderedPair K) (L : List α) (init : OrderedPair K) :
    (L.foldl (fun acc b => AddOrderedPairs acc (f b)) init).x =
      init.x + (L.map fun b => (f b).x).sum := by
  induction L generalizing init with
  | nil => simp
  | cons b rest ih =>
    simp only [List.foldl_cons, List.map_cons, List.sum_cons]
    rw [ih]
    simp only [AddOrderedPairs]
    ring

theorem foldl_add_y {α : Type} (f : α → OrderedPair K) (L : List α) (init : OrderedPair K) :
    (L.foldl (fun acc b => AddOrderedPairs acc (f b)) init).y =
      init.y + (L.map fun b => (f b).y).sum := by
  induction L generalizing init with
  | nil => simp
  | cons b rest ih =>
    simp only [List.foldl_cons, List.map_cons, List.sum_cons]
    rw [ih]
    simp only [AddOrderedPairs]
    ring

theorem sumForces_x (G : K) (sqrt : K → K) (s : Star K) (L : List (Star K)) :
    (sumForces G sqrt s L).x = (L.map fun b => (ComputeForce G sqrt s b).x).sum := by
  simp only [sumForces, foldl_add_x, zero_add]

theorem sumForces_y (G : K) (sqrt : K → K) (s : Star K) (L : List (Star K)) :
    (sumForces G sqrt s L).y = (L.map fun b => (ComputeForce G sqrt s b).y).sum := by
  simp only [sumForces, foldl_add_y, zero_add]

theorem sumForces_perm (G : K) (sqrt : K → K) (s : Star K) {L1 L2 : List (Star K)}
    (h : L1.Perm L2) : sumForces G sqrt s L1 = sumForces G sqrt s L2 := by
  rw [← position_eq_iff, sumForces_x, sumForces_x, sumForces_y, sumForces_y]
  exact ⟨(h.map _).sum_eq, (h.map _).sum_eq⟩

theorem sumForces_nil (G : K) (sqrt : K → K) (s : Star K) :
    sumForces G sqrt s [] = ({ x := 0, y := 0 } : OrderedPair K) := rfl

theorem sumForces_singleton (G : K) (sqrt : K → K) (s b : Star K) :
    sumForces G sqrt s [b] =
      AddOrderedPairs ({ x := 0, y := 0 } : OrderedPair K) (ComputeForce G sqrt s b) := rfl

theorem otherBodies_append (s : Star K) (L1 L2 : List (Star K)) :
    otherBodies s (L1 ++ L2) = otherBodies s L1 ++ otherBodies s L2 := by
  simp [otherBodies]

/-- The four recursive calls of the loop of `CalculateNetForce` add up the sums of the four
slots. -/
theorem sumForces_children (G : K) (sqrt : K → K) (s : Star K) (children : Fin 4 → Node K)
    (f : Fin 4 → OrderedPair K)
    (hf : ∀ i, f i = sumForces G sqrt s (otherBodies s (leafStars (children i)))) :
    (List.finRange 4).foldl (fun acc i => AddOrderedPairs acc (f i))
        ({ x := 0, y := 0 } : OrderedPair K) =
      sumForces G sqrt s (otherBodies s (childLeaves children)) := by
  have h4 : List.finRange 4 = [0, 1, 2, 3] := by decide
  rw [h4, ← position_eq_iff]
  simp only [List.foldl_cons, List.foldl_nil, hf, childLeaves, otherBodies_append, sumForces_x,
    sumForces_y, List.map_append, List.sum_append, AddOrderedPairs]
  constructor <;> ring

theorem FarFromAggregates_child {sqrt : K → K} {s : Star K} {a : Star K} {sector : Quadrant K}
    {children : Fin 4 → Node K}
    (h : FarFromAggregates sqrt s (.branch a sector children) = true) (i : Fin 4) :
    FarFromAggregates sqrt s (children i) = true := by
  simp only [FarFromAggregates, subtrees, List.all_cons, List.all_append, Bool.and_eq_true] at h
  obtain ⟨_, ⟨⟨h0, h1⟩, h2⟩, h3⟩ := h
  fin_cases i
  · exact h0
  · exact h1
  · exact h2
  · exact h3

theorem FarFromAggregates_root {sqrt : K → K} {s : Star K} {a : Star K} {sector : Quadrant K}
    {children : Fin 4 → Node K}
    (h : FarFromAggregates sqrt s (.branch a sector children) = true)
    (hl : IsLeaf (.branch a sector children) = false) :
    Distance sqrt s.position a.position ≠ 0 := by
  simp only [FarFromAggregates, subtrees, List.all_cons, Bool.and_eq_true, hl, rootStar,
    Bool.false_or, decide_eq_true_eq] at h
  exact h.1

theorem leaf_force {G : K} {sqrt : K → K} (hs : IsSqrt sqrt) (s a : Star K) :
    (if Distance sqrt s.position a.position ≠ 0 then
        AddOrderedPairs ({ x := 0, y := 0 } : OrderedPair K) (ComputeForce G sqrt s a)
      else ({ x := 0, y := 0 } : OrderedPair K)) =
      sumForces G sqrt s (otherBodies s [a]) := by
  by_cases h : Distance sqrt s.position a.position = 0
  · have hp : a.position = s.position := ((Distance_eq_zero_iff hs _ _).1 h).symm
    rw [if_neg (not_not.2 h)]
    have : otherBodies s [a] = [] := by simp [otherBodies, hp]
    rw [this, sumForces_nil]
  · have hp : a.position ≠ s.position := fun hp =>
      h ((Distance_eq_zero_iff hs _ _).2 hp.symm)
    rw [if_pos h]
    have : otherBodies s [a] = [a] := by simp [otherBodies, hp]
    rw [this, sumForces_singleton]

/-- With `theta = 0` the traversal opens every Internal node it is at non-zero distance from
and so adds up the forces of all leaf bodies that are not at the target's position. -/
theorem CalculateNetForce_theta_zero {G : K} {sqrt : K → K} (hs : IsSqrt sqrt) (s : Star K)
    {t : Node K} {q : Quadrant K} (hw : WellPlaced t q) (hq : 0 < q.width)
    (hfar : FarFromAggregates sqrt s t = true) :
    CalculateNetForce G sqrt t s 0 = sumForces G sqrt s (otherBodies s (leafStars t)) := by
  induction t generalizing q with
  | nil => rfl
  | leaf a sector =>
    simp only [CalculateNetForce, leafStars]
    exact leaf_force hs s a
  | branch a sector children ih =>
    obtain ⟨rfl, _, hch⟩ := hw
    cases hl : IsLeaf (.branch a sector children) with
    | true =>
      rw [CalculateNetForce]
      simp only [hl, if_true, leafStars]
      exact leaf_force hs s a
    | false =>
      have hd := FarFromAggregates_root hfar hl
      have hdpos : 0 < Distance sqrt s.position a.position :=
        lt_of_le_of_ne (Distance_nonneg hs _ _) (Ne.symm hd)
      have hratio : ¬ sector.width / Distance sqrt s.position a.position ≤ 0 :=
        not_le.2 (div_pos hq hdpos)
      rw [CalculateNetForce]
      simp only [hl, hd, ne_eq, not_false_eq_true, if_true, Bool.false_eq_true, if_false, hratio]
      rw [leafStars_internal hl]
      apply sumForces_children
      intro i
      exact ih i (hch i) (by rw [subQuadrant_width]; linarith) (FarFromAggregates_child hfar i)

/-- With pairwise distinct positions, the bodies not at the position of the body of slot `i`
are the bodies of the other slots. -/
theorem otherBodies_eq_eraseIdx {bodies : List (Star K)}
    (hd : (bodies.map fun b => b.position).Nodup) {i : Nat} {s : Star K}
    (hi : bodies[i]? = some s) : otherBodies s bodies = bodies.eraseIdx i := by
  induction bodies generalizing i with
  | nil => simp at hi
  | cons b rest ih =>
    simp only [List.map_cons, List.nodup_cons, List.mem_map, not_exists, not_and] at hd
    obtain ⟨hb, hrest⟩ := hd
    cases i with
    | zero =>
      simp only [List.getElem?_cons_zero, Option.some.injEq] at hi
      subst hi
      simp only [otherBodies, List.eraseIdx_cons_zero, ne_eq, not_true_eq_false, decide_False,
        Bool.false_eq_true, not_false_eq_true, List.filter_cons_of_neg]
      rw [List.filter_eq_self]
      intro c hc
      simpa using hb c hc
    | succ j =>
      simp only [List.getElem?_cons_succ] at hi
      have hs : s ∈ rest := List.getElem?_mem hi
      have hne : b.position ≠ s.position := fun h => hb s hs h.symm
      simp only [otherBodies, List.eraseIdx_cons_succ, ne_eq, hne, not_false_eq_true,
        decide_True, List.filter_cons_of_pos]
      congr 1
      exact ih hrest hi

/-- A tree with as many leaves as bodies were inserted holds exactly these bodies. -/
theorem GenerateQuadTree_leafStars {fuel : Nat} {width : K} {bodies : List (Star K)}
    {q : QuadTree K}
    (h : GenerateQuadTree fuel { stars := bodies.map some, width := width } = .ok q) :
    (leafStars q.root).length ≤ bodies.length ∧
    ((leafStars q.root).length = bodies.length → (leafStars q.root).Perm bodies) := by
  rw [GenerateQuadTree_eq_ok_iff] at h
  have := generateLoop_invariant
    (fun t L => (leafStars t).length ≤ L.length ∧
      ((leafStars t).length = L.length → (leafStars t).Perm L))
    (fun _ => True)
    (fun t L s t' hP _ hI => by
      obtain ⟨hle, himp⟩ := hP
      rcases hI.leafChange with (hadd | ⟨l, rest, hl, _, hl'⟩) | hsame
      · have hlen := hadd.length_eq
        simp only [List.length_cons] at hlen
        refine ⟨by simp; omega, fun heq => ?_⟩
        have heq' : (leafStars t).length = L.length := by simp at heq; omega
        exact hadd.trans (((himp heq').cons s).trans (List.perm_append_singleton s L).symm)
      · have h1 := hl.length_eq
        have h2 := hl'.length_eq
        simp only [List.length_cons] at h1 h2
        refine ⟨by simp; omega, fun heq => ?_⟩
        simp at heq; omega
      · have h1 := hsame.length_eq
        refine ⟨by simp; omega, fun heq => ?_⟩
        simp at heq; omega)
    (fun _ _ => trivial) (L := []) (r := .nil)
    ⟨by simp [leafStars], fun _ => by simp [leafStars]⟩ h
  simpa using this

end Traversal

/-! ## The tree of two bodies -/

section TwoBodies

variable {K : Type} [LinearOrderedField K]

theorem twoBody_generate :
    GenerateQuadTree 1
      { stars := ([restStar 1 1 1, restStar 3 1 1] : List (Star K)).map some, width := 4 } =
      .ok { root := twoBodyTree } := by
  have hA : DetermineQuadrant ({ x := 0, y := 0, width := 4 } : Quadrant K) (restStar 1 1 1) =
      ({ x := 0, y := 0, width := 2 }, 2) := by
    simp only [DetermineQuadrant, restStar, mkStar]
    norm_num
  have hB : DetermineQuadrant ({ x := 0, y := 0, width := 4 } : Quadrant K) (restStar 3 1 1) =
      ({ x := 2, y := 0, width := 2 }, 3) := by
    simp only [DetermineQuadrant, restStar, mkStar]
    norm_num
  have hne : (restStar (1 : K) 1 1).position ≠ (restStar (3 : K) 1 1).position := by
    simp [restStar, mkStar]
  rw [GenerateQuadTree_eq_ok_iff]
  simp only [List.map_cons, List.map_nil, generateLoop, InsertIntoQuadTree,
    InitializeStartingQuadrant, newLeaf, copyStar_eq]
  rw [insertLeafCase_some, if_neg hne, InsertAtLeaf_succ, hA, hB]
  simp [twoBodyTree, newLeaf, copyStar_eq]

theorem twoBody_far :
    FarFromAggregates Real.sqrt (restStar (1 : ℝ) 1 1) twoBodyTree = true := by
  have hd : Distance Real.sqrt (restStar (1 : ℝ) 1 1).position
      (UpdateCenterOfMass (restStar (1 : ℝ) 1 1) (restStar 3 1 1)).position ≠ 0 := by
    rw [Ne, Distance_eq_zero_iff isSqrt_real]
    simp [restStar, mkStar, UpdateCenterOfMass]
    norm_num
  simp only [FarFromAggregates, twoBodyTree, subtrees, List.all_cons, List.all_append]
  simp [IsLeaf, Node.isNil, newLeaf, rootStar, hd, emptyChildren, subtrees, Function.update]

theorem twoBody_leaves : (leafStars (twoBodyTree (K := K))).length = 2 := by
  have hl : IsLeaf (twoBodyTree (K := K)) = false :=
    IsLeaf_branch_of_child 3 (by simp [Node.isNil, newLeaf])
  unfold twoBodyTree at hl ⊢
  rw [leafStars_internal hl]
  simp [childLeaves, Function.update, emptyChildren, leafStars, newLeaf]

end TwoBodies

/-! ## The force scenario -/

section Scenario

variable {K : Type} [LinearOrderedField K]

theorem scenario_distance {sqrt : K → K} (hs : IsSqrt sqrt) :
    Distance sqrt (scenarioBody1 (K := K)).position scenarioBody2.position = 10 ^ 6 ∧
    Distance sqrt (scenarioBody2 (K := K)).position scenarioBody1.position = 10 ^ 6 := by
  have h6 : (0 : K) ≤ 10 ^ 6 := by positivity
  constructor
  · have : Distance sqrt (scenarioBody1 (K := K)).position scenarioBody2.position =
        sqrt (10 ^ 6 * 10 ^ 6) := by
      simp [Distance, scenarioBody1, scenarioBody2, restStar, mkStar]
    rw [this, hs.sqrt_mul_self h6]
  · have : Distance sqrt (scenarioBody2 (K := K)).position scenarioBody1.position =
        sqrt (10 ^ 6 * 10 ^ 6) := by
      simp [Distance, scenarioBody1, scenarioBody2, restStar, mkStar]
    rw [this, hs.sqrt_mul_self h6]

/-- The two forces of the scenario, in exact arithmetic: `±1.6685e27` along the x-axis. -/
theorem scenario_force {sqrt : K → K} (hs : IsSqrt sqrt) :
    ComputeForce scenarioG sqrt (scenarioBody1 (K := K)) scenarioBody2 =
      { x := 16685 * 10 ^ 23, y := 0 } ∧
    ComputeForce scenarioG sqrt (scenarioBody2 (K := K)) scenarioBody1 =
      { x := -(16685 * 10 ^ 23), y := 0 } := by
  obtain ⟨h12, h21⟩ := scenario_distance (K := K) hs
  constructor
  · unfold ComputeForce
    simp only [h12]
    simp only [scenarioG, scenarioBody1, scenarioBody2, restStar, mkStar]
    congr 1 <;> norm_num
  · unfold ComputeForce
    simp only [h21]
    simp only [scenarioG, scenarioBody1, scenarioBody2, restStar, mkStar]
    congr 1 <;> norm_num

end Scenario

/-! ## Depth and shape of a split -/

theorem depth_branch_le {K : Type} {st : Star K} {q : Quadrant K} {children : Fin 4 → Node K}
    {m : Nat} (h : ∀ k, depth (children k) ≤ m) : depth (.branch st q children) ≤ 1 + m := by
  simp only [depth]
  have h0 := h 0
  have h1 := h 1
  have h2 := h 2
  have h3 := h 3
  omega

theorem depth_branch_single {K : Type} (st : Star K) (q : Quadrant K) (i : Fin 4)
    (c : Node K) :
    depth (.branch st q (Function.update emptyChildren i c)) = 1 + depth c := by
  fin_cases i <;> simp [depth, Function.update, emptyChildren]

section Split

variable {K : Type} [LinearOrderedField K]

/-- Every level of the chain uses one unit of fuel. -/
theorem InsertAtLeaf_depth_le {fuel : Nat} {a s : Star K} {q : Quadrant K} {t : Node K}
    (h : InsertAtLeaf fuel a s q = .ok t) : depth t ≤ fuel + 1 := by
  induction fuel generalizing q t with
  | zero => simp [InsertAtLeaf] at h
  | succ fuel ih =>
    rw [InsertAtLeaf_succ] at h
    split at h
    · rw [← Except.ok.inj h]
      have : ∀ k, depth (Function.update
          (Function.update emptyChildren (DetermineQuadrant q a).2
            (newLeaf a (DetermineQuadrant q a).1))
          (DetermineQuadrant q s).2 (newLeaf s (DetermineQuadrant q s).1) k) ≤ 1 := by
        intro k
        rw [Function.update_apply]
        split
        · simp [newLeaf, depth]
        · rw [Function.update_apply]
          split <;> simp [newLeaf, depth, emptyChildren]
      have := @depth_branch_le K (UpdateCenterOfMass a s) q _ 1 this
      omega
    · rename_i heq
      simp only [ne_eq, not_not] at heq
      cases hsub : InsertAtLeaf fuel a s (DetermineQuadrant q s).1 with
      | error e => rw [hsub] at h; simp [Except.map] at h
      | ok sub =>
        rw [hsub] at h
        simp only [Except.map] at h
        rw [← Except.ok.inj h, heq, Function.update_idem, depth_branch_single]
        have := ih hsub
        omega

/-- The result of `InsertAtLeaf` is a chain down to a node holding the two bodies as leaves in
different slots, every slot being the one `DetermineQuadrant` gives. -/
theorem InsertAtLeaf_splitChain {fuel : Nat} {a s : Star K} {q : Quadrant K} {t : Node K}
    (h : InsertAtLeaf fuel a s q = .ok t) : SplitChain a s q t := by
  induction fuel generalizing q t with
  | zero => simp [InsertAtLeaf] at h
  | succ fuel ih =>
    rw [InsertAtLeaf_succ] at h
    split at h
    · rename_i hne
      rw [← Except.ok.inj h]
      refine SplitChain.split hne ?_ ?_ ?_
      · rw [Function.update_noteq hne, Function.update_same]
        rfl
      · rw [Function.update_same]
        rfl
      · intro k hk1 hk2
        rw [Function.update_noteq hk2, Function.update_noteq hk1]
        rfl
    · rename_i heq
      simp only [ne_eq, not_not] at heq
      cases hsub : InsertAtLeaf fuel a s (DetermineQuadrant q s).1 with
      | error e => rw [hsub] at h; simp [Except.map] at h
      | ok sub =>
        rw [hsub] at h
        simp only [Except.map] at h
        rw [← Except.ok.inj h]
        refine SplitChain.deeper heq ?_ ?_
        · rw [Function.update_same]
          exact ih hsub
        · intro k hk
          rw [Function.update_noteq hk, Function.update_noteq (by rw [heq]; exact hk)]
          rfl

/-- Two bodies on the lower edge of the region at the origin of width `w`, `w / 2^n` apart, are
separated after exactly `n` halvings: the tree of the split has depth `n + 2`. -/
theorem InsertAtLeaf_close (n : Nat) (w : K) (hw : 0 < w) :
    ∃ t, InsertAtLeaf (n + 1) (restStar 0 0 1) (restStar (w / 2 ^ n) 0 1)
        { x := 0, y := 0, width := w } = .ok t ∧ depth t = n + 2 := by
  induction n generalizing w with
  | zero =>
    have hA : DetermineQuadrant ({ x := 0, y := 0, width := w } : Quadrant K)
        (restStar 0 0 1) = ({ x := 0, y := 0, width := w / 2 }, 2) := by
      simp only [DetermineQuadrant, restStar, mkStar, zero_add]
      rw [if_pos (by linarith), if_neg (by simp only [ge_iff_le, not_le]; linarith)]
    have hB : DetermineQuadrant ({ x := 0, y := 0, width := w } : Quadrant K)
        (restStar (w / 2 ^ 0) 0 1) = ({ x := 0 + w / 2, y := 0, width := w / 2 }, 3) := by
      simp only [DetermineQuadrant, restStar, mkStar, pow_zero, div_one]
      rw [if_neg (by simp only [not_le]; linarith),
        if_neg (by simp only [ge_iff_le, not_le]; linarith)]
    rw [InsertAtLeaf_succ, hA, hB]
    refine ⟨_, rfl, ?_⟩
    simp [depth, Function.update, emptyChildren, newLeaf]
  | succ n ih =>
    have hA : DetermineQuadrant ({ x := 0, y := 0, width := w } : Quadrant K)
        (restStar 0 0 1) = ({ x := 0, y := 0, width := w / 2 }, 2) := by
      simp only [DetermineQuadrant, restStar, mkStar, zero_add]
      rw [if_pos (by linarith), if_neg (by simp only [ge_iff_le, not_le]; linarith)]
    have hle : w / 2 ^ (n + 1) ≤ w / 2 := by
      apply div_le_div_of_nonneg_left hw.le (by norm_num)
      calc (2 : K) = 2 ^ 1 := (pow_one 2).symm
        _ ≤ 2 ^ (n + 1) := pow_le_pow_right₀ (by norm_num) (by omega)
    have hB : DetermineQuadrant ({ x := 0, y := 0, width := w } : Quadrant K)
        (restStar (w / 2 ^ (n + 1)) 0 1) = ({ x := 0, y := 0, width := w / 2 }, 2) := by
      simp only [DetermineQuadrant, restStar, mkStar, zero_add]
      rw [if_pos hle, if_neg (by simp only [ge_iff_le, not_le]; linarith)]
    have hx : w / 2 ^ (n + 1) = w / 2 / 2 ^ n := by
      rw [pow_succ, div_div, mul_comm]
    obtain ⟨t, ht, hd⟩ := ih (w / 2) (by linarith)
    rw [InsertAtLeaf_succ, hA, hB]
    simp only [ne_eq, not_true_eq_false, if_false]
    rw [hx, ht]
    refine ⟨_, rfl, ?_⟩
    simp only [Except.map]
    rw [Function.update_idem, depth_branch_single, hd]
    omega

end Split

/-! ## The trajectory -/

section Trajectory

variable {K : Type} [LinearOrderedField K]

/-- When the loop of `BarnesHut` returns, it appended one universe per generation, each the
update of the one before it against the tree built from the one before it. -/
theorem timePointsFrom_ok {G : K} {sqrt : K → K} {fuel : Nat} {time theta : K} {n : Nat}
    {u : Universe K} {l : List (Universe K)}
    (h : timePointsFrom G sqrt fuel time theta n u = .ok l) :
    l.length = n ∧
    ∀ i, i < n → ∃ q, GenerateQuadTree fuel ((u :: l).getD i u) = .ok q ∧
      (u :: l).getD (i + 1) u = UpdateUniverse G sqrt ((u :: l).getD i u) q time theta := by
  induction n generalizing u l with
  | zero =>
    simp only [timePointsFrom] at h
    rw [← Except.ok.inj h]
    exact ⟨rfl, fun i hi => absurd hi (by omega)⟩
  | succ n ih =>
    rw [timePointsFrom] at h
    cases hq : GenerateQuadTree fuel u with
    | error e => rw [hq] at h; simp at h
    | ok q =>
      rw [hq] at h
      simp only at h
      cases hr : timePointsFrom G sqrt fuel time theta n (UpdateUniverse G sqrt u q time theta)
        with
      | error e => rw [hr] at h; simp at h
      | ok rest =>
        rw [hr] at h
        simp only at h
        rw [← Except.ok.inj h]
        obtain ⟨hlen, hstep⟩ := ih hr
        refine ⟨by simp [hlen], fun i hi => ?_⟩
        cases i with
        | zero => exact ⟨q, by simpa using hq, by simp⟩
        | succ j =>
          obtain ⟨q', hq', hu'⟩ := hstep j (by omega)
          refine ⟨q', ?_, ?_⟩
          · have : (u :: UpdateUniverse G sqrt u q time theta :: rest).getD (j + 1) u =
                (UpdateUniverse G sqrt u q time theta :: rest).getD j
                  (UpdateUniverse G sqrt u q time theta) := by
              cases j with
              | zero => simp
              | succ j' =>
                simp only [List.getD_cons_succ]
                rw [List.getD_eq_getElem _ _ (by omega), List.getD_eq_getElem _ _ (by omega)]
            rw [this]
            exact hq'
          · have e1 : (u :: UpdateUniverse G sqrt u q time theta :: rest).getD (j + 1 + 1) u =
                (UpdateUniverse G sqrt u q time theta :: rest).getD (j + 1)
                  (UpdateUniverse G sqrt u q time theta) := by
              simp only [List.getD_cons_succ]
              rw [List.getD_eq_getElem _ _ (by omega), List.getD_eq_getElem _ _ (by omega)]
            have e2 : (u :: UpdateUniverse G sqrt u q time theta :: rest).getD (j + 1) u =
                (UpdateUniverse G sqrt u q time theta :: rest).getD j
                  (UpdateUniverse G sqrt u q time theta) := by
              cases j with
              | zero => simp
              | succ j' =>
                simp only [List.getD_cons_succ]
                rw [List.getD_eq_getElem _ _ (by omega), List.getD_eq_getElem _ _ (by omega)]
            rw [e1, e2]
            exact hu'

end Trajectory

/-! ## Symmetry of the pairwise force -/

section Symmetry

variable {K : Type} [LinearOrderedField K]

/-- The distance does not depend on the order of the two points, for any `sqrt`: the squared
differences are the same number. -/
theorem Distance_comm (sqrt : K → K) (p1 p2 : OrderedPair K) :
    Distance sqrt p1 p2 = Distance sqrt p2 p1 := by
  unfold Distance
  simp only
  congr 1
  ring

end Symmetry

/-! ## The recursion with the rounding of `float64` -/

section RoundedId

variable {K : Type} [LinearOrderedField K]

/-- Without rounding `DetermineQuadrantRounded` is `DetermineQuadrant`. -/
theorem DetermineQuadrantRounded_id (q : Quadrant K) (s : Star K) :
    DetermineQuadrantRounded id q s = DetermineQuadrant q s := rfl

/-- Without rounding `InsertAtLeafRounded` is `InsertAtLeaf`. -/
theorem InsertAtLeafRounded_id (fuel : Nat) (a s : Star K) (q : Quadrant K) :
    InsertAtLeafRounded id fuel a s q = InsertAtLeaf fuel a s q := by
  induction fuel generalizing a q with
  | zero => rfl
  | succ fuel ih =>
    rw [InsertAtLeafRounded, InsertAtLeaf, ih]
    rfl

/-- One unfolding of `InsertAtLeafRounded`. -/
theorem InsertAtLeafRounded_succ (rnd : K → K) (fuel : Nat) (a s : Star K) (q : Quadrant K) :
    InsertAtLeafRounded rnd (fuel + 1) a s q =
      if (DetermineQuadrantRounded rnd q a).2 ≠ (DetermineQuadrantRounded rnd q s).2 then
        .ok (.branch (UpdateCenterOfMass a s) q
          (Function.update
            (Function.update emptyChildren (DetermineQuadrantRounded rnd q a).2
              (newLeaf a (DetermineQuadrantRounded rnd q a).1))
            (DetermineQuadrantRounded rnd q s).2
            (newLeaf s (DetermineQuadrantRounded rnd q s).1)))
      else
        (InsertAtLeafRounded rnd fuel a s (DetermineQuadrantRounded rnd q s).1).map fun sub =>
          .branch (UpdateCenterOfMass a s) q
            (Function.update
              (Function.update emptyChildren (DetermineQuadrantRounded rnd q a).2
                (newLeaf a (DetermineQuadrantRounded rnd q a).1))
              (DetermineQuadrantRounded rnd q s).2 sub) := by
  rw [InsertAtLeafRounded]
  simp only [copyStar_eq]
  split
  · rfl
  · cases InsertAtLeafRounded rnd fuel a s (DetermineQuadrantRounded rnd q s).1 <;> rfl

end RoundedId

theorem roundHalfEven_low (N : ℤ) (d : ℚ) (h0 : 0 ≤ d) (h1 : d < 1 / 2) :
    roundHalfEven (N + d) = N := by
  have hf : ⌊(N : ℚ) + d⌋ = N := by
    rw [Int.floor_eq_iff]
    constructor <;> linarith
  unfold roundHalfEven
  rw [hf, if_pos (by linarith)]

theorem roundHalfEven_high (N : ℤ) (d : ℚ) (h0 : 1 / 2 < d) (h1 : d < 1) :
    roundHalfEven (N + d) = N + 1 := by
  have hf : ⌊(N : ℚ) + d⌋ = N := by
    rw [Int.floor_eq_iff]
    constructor <;> linarith
  unfold roundHalfEven
  rw [hf, if_neg (by linarith), if_pos (by linarith)]

theorem roundHalfEven_tie (N : ℤ) (h : N % 2 = 0) :
    roundHalfEven (N + 1 / 2) = N := by
  have hf : ⌊(N : ℚ) + 1 / 2⌋ = N := by
    rw [Int.floor_eq_iff]
    constructor <;> linarith
  unfold roundHalfEven
  rw [hf, if_neg (by linarith), if_neg (by linarith), if_pos h]

theorem roundHalfEven_nonneg (m : ℚ) (h : 0 ≤ m) : 0 ≤ roundHalfEven m := by
  have hf : 0 ≤ ⌊m⌋ := Int.floor_nonneg.2 h
  unfold roundHalfEven
  split
  · exact hf
  · split
    · omega
    · split <;> omega

theorem roundHalfEven_le (m : ℚ) (N : ℤ) (h : m ≤ N) : roundHalfEven m ≤ N := by
  have hf : ⌊m⌋ ≤ N := Int.floor_le_iff.2 (by linarith)
  rcases lt_or_eq_of_le hf with hlt | heq
  · unfold roundHalfEven
    split
    · exact hf
    · split
      · omega
      · split <;> omega
  · have hm : m = N := le_antisymm h (by rw [← heq]; exact Int.floor_le m)
    have := roundHalfEven_low N 0 le_rfl (by norm_num)
    rw [add_zero] at this
    rw [hm, this]

/-- In the binade `[2^e, 2^(e+1))` of a normal number the spacing is `2^(e-52)`. -/
theorem roundFloat64_binade (e : ℤ) (he : -1022 ≤ e) (q : ℚ) (h0 : (2 : ℚ) ^ e ≤ q)
    (h1 : q < 2 ^ (e + 1)) :
    roundFloat64 q = (roundHalfEven (q * 2 ^ (52 - e)) : ℚ) / 2 ^ (52 - e) := by
  have hpos : 0 < q := lt_of_lt_of_le (by positivity) h0
  have hlog : max (Int.log 2 |q|) (-1022) = e := by
    rw [abs_of_pos hpos]
    have a1 : e ≤ Int.log 2 q :=
      (Int.zpow_le_iff_le_log (by norm_num) hpos).1 (by exact_mod_cast h0)
    have a2 : Int.log 2 q < e + 1 :=
      (Int.lt_zpow_iff_log_lt (by norm_num) hpos).1 (by exact_mod_cast h1)
    omega
  unfold roundFloat64
  rw [if_neg hpos.ne', hlog]

/-- A value `m * 2^z` with `0 < m < 2^53` and `-1074 ≤ z` is a float: it is left as it is. -/
theorem roundFloat64_representable (m : ℕ) (z : ℤ) (hm0 : 0 < m) (hm : m < 2 ^ 53)
    (hz : -1074 ≤ z) : roundFloat64 ((m : ℚ) * 2 ^ z) = (m : ℚ) * 2 ^ z := by
  have hpos : (0 : ℚ) < (m : ℚ) * 2 ^ z := by positivity
  have hle : max (Int.log 2 |(m : ℚ) * 2 ^ z|) (-1022) ≤ 52 + z := by
    rw [abs_of_pos hpos]
    have : Int.log 2 ((m : ℚ) * 2 ^ z) < 53 + z := by
      rw [← Int.lt_zpow_iff_log_lt (by norm_num) hpos]
      have h2 : (m : ℚ) < 2 ^ (53 : ℕ) := by exact_mod_cast hm
      rw [zpow_add₀ (by norm_num)]
      push_cast
      have hz : (0 : ℚ) < 2 ^ z := by positivity
      have : (2 : ℚ) ^ (53 : ℤ) = 2 ^ (53 : ℕ) := by norm_cast
      rw [this]
      exact mul_lt_mul_of_pos_right h2 hz
    omega
  obtain ⟨n, hn⟩ : ∃ n : ℕ, 52 - max (Int.log 2 |(m : ℚ) * 2 ^ z|) (-1022) = n - z := by
    refine ⟨(52 + z - max (Int.log 2 |(m : ℚ) * 2 ^ z|) (-1022)).toNat, ?_⟩
    rw [Int.toNat_of_nonneg (by omega)]
    ring
  unfold roundFloat64
  rw [if_neg hpos.ne', hn]
  have hz : (2 : ℚ) ^ z ≠ 0 := by positivity
  have e1 : (m : ℚ) * 2 ^ z * 2 ^ ((n : ℤ) - z) = ((m * 2 ^ n : ℤ) : ℚ) + 0 := by
    rw [zpow_sub₀ (by norm_num)]
    push_cast
    field_simp
    ring
  rw [e1, roundHalfEven_low _ 0 le_rfl (by norm_num), zpow_sub₀ (by norm_num)]
  push_cast
  field_simp
  ring

theorem roundFloat64_nonneg (q : ℚ) (h : 0 ≤ q) : 0 ≤ roundFloat64 q := by
  unfold roundFloat64
  split
  · exact le_rfl
  · apply div_nonneg _ (by positivity)
    exact_mod_cast roundHalfEven_nonneg _ (by positivity)

/-- Rounding does not take a value from below `2^-53` to above it. -/
theorem roundFloat64_le_small (q : ℚ) (h0 : 0 ≤ q) (h1 : q ≤ 1 / 2 ^ 53) :
    roundFloat64 q ≤ 1 / 2 ^ 53 := by
  rcases eq_or_lt_of_le h0 with h | hpos
  · rw [← h]
    simp [roundFloat64]
  have hlog : max (Int.log 2 |q|) (-1022) ≤ -53 := by
    rw [abs_of_pos hpos]
    have : Int.log 2 q < -53 + 1 := by
      rw [← Int.lt_zpow_iff_log_lt (by norm_num) hpos]
      calc q ≤ 1 / 2 ^ 53 := h1
        _ < ((2 : ℕ) : ℚ) ^ ((-53 : ℤ) + 1) := by norm_num
    omega
  obtain ⟨n, hn⟩ : ∃ n : ℕ, 52 - max (Int.log 2 |q|) (-1022) = n + 53 := by
    refine ⟨(52 - max (Int.log 2 |q|) (-1022) - 53).toNat, ?_⟩
    rw [Int.toNat_of_nonneg (by omega)]
    ring
  unfold roundFloat64
  rw [if_neg hpos.ne', hn]
  have hp : (2 : ℚ) ^ ((n : ℤ) + 53) = 2 ^ n * 2 ^ 53 := by
    rw [zpow_add₀ (by norm_num), zpow_natCast]
    norm_cast
  have hm : q * 2 ^ ((n : ℤ) + 53) ≤ ((2 ^ n : ℤ) : ℚ) := by
    rw [hp]
    push_cast
    have h2 : (0 : ℚ) < 2 ^ n := by positivity
    calc q * (2 ^ n * 2 ^ 53) ≤ 1 / 2 ^ 53 * (2 ^ n * 2 ^ 53) :=
          mul_le_mul_of_nonneg_right h1 (by positivity)
      _ = 2 ^ n := by field_simp
  have hr := roundHalfEven_le _ _ hm
  have hr' : ((roundHalfEven (q * 2 ^ ((n : ℤ) + 53)) : ℤ) : ℚ) ≤ 2 ^ n := by
    exact_mod_cast hr
  have hden : (0 : ℚ) < 2 ^ ((n : ℤ) + 53) := by positivity
  rw [div_le_iff₀ hden]
  calc ((roundHalfEven (q * 2 ^ ((n : ℤ) + 53)) : ℤ) : ℚ) ≤ 2 ^ n := hr'
    _ = 1 / 2 ^ 53 * 2 ^ ((n : ℤ) + 53) := by
      rw [hp]
      field_simp

theorem roundFloat64_width (k : Nat) (hk : k ≤ 1074) : roundFloat64 (3 / 2 ^ k) = 3 / 2 ^ k := by
  have h : (3 : ℚ) / 2 ^ k = ((3 : ℕ) : ℚ) * 2 ^ (-(k : ℤ)) := by
    rw [zpow_neg, zpow_natCast]
    push_cast
    rfl
  rw [h, roundFloat64_representable 3 _ (by norm_num) (by norm_num) (by omega)]

theorem roundFloat64_half_width (k : Nat) (hk : k ≤ 1073) :
    roundFloat64 (3 / 2 ^ k / 2) = 3 / 2 ^ (k + 1) := by
  have h : (3 : ℚ) / 2 ^ k / 2 = 3 / 2 ^ (k + 1) := by
    rw [pow_succ, div_div]
  rw [h, roundFloat64_width _ (by omega)]

/-- While the midpoint is a float: levels up to 50. -/
theorem roundFloat64_mid_exact (k : Nat) (hk : k ≤ 50) :
    roundFloat64 (3 - 3 / 2 ^ k + 3 / 2 ^ (k + 1)) = 3 - 3 / 2 ^ (k + 1) := by
  have hP1 : 1 ≤ 2 ^ (k + 1) := Nat.one_le_two_pow
  have hP2 : 2 ^ (k + 1) ≤ 2 ^ 51 := Nat.pow_le_pow_right (by norm_num) (by omega)
  have h3 : 3 ≤ 3 * 2 ^ (k + 1) := by omega
  have hval : (3 : ℚ) - 3 / 2 ^ k + 3 / 2 ^ (k + 1) =
      ((3 * 2 ^ (k + 1) - 3 : ℕ) : ℚ) * 2 ^ (-((k + 1 : ℕ) : ℤ)) := by
    rw [zpow_neg, zpow_natCast, Nat.cast_sub h3]
    push_cast
    rw [pow_succ]
    field_simp
    ring
  have hres : (3 : ℚ) - 3 / 2 ^ (k + 1) =
      ((3 * 2 ^ (k + 1) - 3 : ℕ) : ℚ) * 2 ^ (-((k + 1 : ℕ) : ℤ)) := by
    rw [zpow_neg, zpow_natCast, Nat.cast_sub h3]
    push_cast
    field_simp
  rw [hres, hval]
  apply roundFloat64_representable
  · have : 2 ≤ 2 ^ (k + 1) := by
      calc 2 = 2 ^ 1 := rfl
        _ ≤ 2 ^ (k + 1) := Nat.pow_le_pow_right (by norm_num) (by omega)
    omega
  · norm_num at hP2 ⊢
    omega
  · push_cast
    omega

/-- Level 51: the midpoint lies half way between two floats and goes to the even one. -/
theorem roundFloat64_mid_tie :
    roundFloat64 (3 - 3 / 2 ^ 51 + 3 / 2 ^ 52) = 3 - 1 / 2 ^ 50 := by
  rw [roundFloat64_binade 1 (by norm_num) _ (by norm_num) (by norm_num)]
  have h : ((3 : ℚ) - 3 / 2 ^ 51 + 3 / 2 ^ 52) * 2 ^ ((52 : ℤ) - 1) =
      ((3 * 2 ^ 51 - 2 : ℤ) : ℚ) + 1 / 2 := by norm_num
  rw [h, roundHalfEven_tie _ (by norm_num)]
  norm_num

/-- Level 52: the midpoint rounds up onto the lower body. -/
theorem roundFloat64_mid_up :
    roundFloat64 (3 - 1 / 2 ^ 50 + 3 / 2 ^ 53) = 3 - 1 / 2 ^ 51 := by
  rw [roundFloat64_binade 1 (by norm_num) _ (by norm_num) (by norm_num)]
  have h : ((3 : ℚ) - 1 / 2 ^ 50 + 3 / 2 ^ 53) * 2 ^ ((52 : ℤ) - 1) =
      ((3 * 2 ^ 51 - 2 : ℤ) : ℚ) + 3 / 4 := by norm_num
  rw [h, roundHalfEven_high _ _ (by norm_num) (by norm_num)]
  norm_num

/-- Half a side below half a unit in the last place of the lower body is absorbed: the
midpoint rounds down onto the lower body. -/
theorem roundFloat64_mid_absorbed (h : ℚ) (h0 : 0 ≤ h) (h1 : h ≤ 3 / 2 ^ 54) :
    roundFloat64 (3 - 1 / 2 ^ 51 + h) = 3 - 1 / 2 ^ 51 := by
  rw [roundFloat64_binade 1 (by norm_num) _ (by norm_num at h1 ⊢; linarith)
    (by norm_num at h1 ⊢; linarith)]
  have e : ((3 : ℚ) - 1 / 2 ^ 51 + h) * 2 ^ ((52 : ℤ) - 1) =
      ((3 * 2 ^ 51 - 1 : ℤ) : ℚ) + h * 2 ^ 51 := by
    norm_num
    ring
  rw [e, roundHalfEven_low _ _ (by positivity) (by norm_num at h1 ⊢; linarith)]
  norm_num

theorem roundedSector_mid (k : Nat) (hk : k ≤ 53) :
    roundFloat64 ((roundedSector k).y + roundFloat64 ((roundedSector k).width / 2)) =
      (roundedSector (k + 1)).y := by
  simp only [roundedSector, roundFloat64_half_width k (by omega)]
  rcases Nat.lt_or_ge k 51 with h | h
  · rw [if_pos (by omega), if_pos (by omega)]
    exact roundFloat64_mid_exact k (by omega)
  · rcases Nat.eq_or_lt_of_le h with h | h
    · subst h
      have := roundFloat64_mid_tie
      norm_num at this ⊢
      exact this
    · rcases Nat.eq_or_lt_of_le h with h | h
      · subst h
        have := roundFloat64_mid_up
        norm_num at this ⊢
        exact this
      · have hk53 : k = 53 := by omega
        subst hk53
        rw [if_neg (by omega), if_neg (by omega), if_neg (by omega), if_neg (by omega)]
        exact roundFloat64_mid_absorbed _ (by positivity) le_rfl

theorem roundedSector_y_le (k : Nat) : (roundedSector (k + 1)).y ≤ 3 - 1 / 2 ^ 51 := by
  simp only [roundedSector]
  split
  · rename_i h
    have : (1 : ℚ) / 2 ^ 51 ≤ 3 / 2 ^ (k + 1) := by
      have h1 : (1 : ℚ) / 2 ^ 51 ≤ 1 / 2 ^ (k + 1) := by
        apply div_le_div_of_nonneg_left (by norm_num) (by positivity)
        exact pow_le_pow_right₀ (by norm_num) h
      have h2 : (1 : ℚ) / 2 ^ (k + 1) ≤ 3 / 2 ^ (k + 1) := by
        apply div_le_div_of_nonneg_right (by norm_num) (by positivity)
      linarith
    linarith
  · split
    · norm_num
    · exact le_rfl

theorem roundedSector_zero : roundedSector 0 = { x := 0, y := 0, width := 3 } := by
  simp [roundedSector]

/-- One of the first 54 levels: both bodies are sent to the north-west quadrant. -/
theorem DetermineQuadrantRounded_close (k : Nat) (hk : k ≤ 53) :
    DetermineQuadrantRounded roundFloat64 (roundedSector k) closeBodyLow =
        (roundedSector (k + 1), 0) ∧
      DetermineQuadrantRounded roundFloat64 (roundedSector k) closeBodyHigh =
        (roundedSector (k + 1), 0) := by
  have hx : roundFloat64 ((roundedSector k).x + roundFloat64 ((roundedSector k).width / 2)) =
      3 / 2 ^ (k + 1) := by
    simp only [roundedSector, roundFloat64_half_width k (by omega), zero_add,
      roundFloat64_width (k + 1) (by omega)]
  have hw : roundFloat64 ((roundedSector k).width / 2) = (roundedSector (k + 1)).width := by
    simp only [roundedSector, roundFloat64_half_width k (by omega)]
  have hy := roundedSector_mid k hk
  have hle := roundedSector_y_le k
  have hpos : (0 : ℚ) ≤ 3 / 2 ^ (k + 1) := by positivity
  constructor
  · unfold DetermineQuadrantRounded
    rw [hx, hy, hw, if_pos (by simpa [closeBodyLow, restStar, mkStar] using hpos),
      if_pos (by simpa [closeBodyLow, restStar, mkStar] using hle)]
    rfl
  · unfold DetermineQuadrantRounded
    rw [hx, hy, hw, if_pos (by simpa [closeBodyHigh, restStar, mkStar] using hpos),
      if_pos (by
        have : (3 : ℚ) - 1 / 2 ^ 51 ≤ 3 := by norm_num
        simpa [closeBodyHigh, restStar, mkStar] using hle.trans this)]
    rfl

/-- Any later level, whatever the side has become: both bodies are sent to the north-west
quadrant, whose origin is again the lower body. -/
theorem DetermineQuadrantRounded_absorbed (w : ℚ) (h0 : 0 ≤ w) (h1 : w ≤ 1 / 2 ^ 52) :
    0 ≤ roundFloat64 (w / 2) ∧ roundFloat64 (w / 2) ≤ 1 / 2 ^ 52 ∧
      DetermineQuadrantRounded roundFloat64 { x := 0, y := 3 - 1 / 2 ^ 51, width := w }
          closeBodyLow =
        ({ x := 0, y := 3 - 1 / 2 ^ 51, width := roundFloat64 (w / 2) }, 0) ∧
      DetermineQuadrantRounded roundFloat64 { x := 0, y := 3 - 1 / 2 ^ 51, width := w }
          closeBodyHigh =
        ({ x := 0, y := 3 - 1 / 2 ^ 51, width := roundFloat64 (w / 2) }, 0) := by
  have hh0 : 0 ≤ roundFloat64 (w / 2) := roundFloat64_nonneg _ (by linarith)
  have hh1 : roundFloat64 (w / 2) ≤ 1 / 2 ^ 53 :=
    roundFloat64_le_small _ (by linarith) (by norm_num at h1 ⊢; linarith)
  have hx : 0 ≤ roundFloat64 (0 + roundFloat64 (w / 2)) :=
    roundFloat64_nonneg _ (by linarith)
  have hy : roundFloat64 (3 - 1 / 2 ^ 51 + roundFloat64 (w / 2)) = 3 - 1 / 2 ^ 51 :=
    roundFloat64_mid_absorbed _ hh0 (by norm_num at hh1 ⊢; linarith)
  refine ⟨hh0, by norm_num at hh1 ⊢; linarith, ?_, ?_⟩
  · unfold DetermineQuadrantRounded
    simp only [hy]
    rw [if_pos (by simpa [closeBodyLow, restStar, mkStar] using hx),
      if_pos (by simp [closeBodyLow, restStar, mkStar])]
  · unfold DetermineQuadrantRounded
    simp only [hy]
    rw [if_pos (by simpa [closeBodyHigh, restStar, mkStar] using hx),
      if_pos (by norm_num [closeBodyHigh, restStar, mkStar])]

/-- Once the midpoint is absorbed the recursion runs out of every budget. -/
theorem InsertAtLeafRounded_absorbed (fuel : Nat) (w : ℚ) (h0 : 0 ≤ w) (h1 : w ≤ 1 / 2 ^ 52) :
    InsertAtLeafRounded roundFloat64 fuel closeBodyLow closeBodyHigh
      { x := 0, y := 3 - 1 / 2 ^ 51, width := w } = .error .fuelExhausted := by
  induction fuel generalizing w with
  | zero => rfl
  | succ fuel ih =>
    obtain ⟨hh0, hh1, hA, hB⟩ := DetermineQuadrantRounded_absorbed w h0 h1
    rw [InsertAtLeafRounded]
    simp only [hA, hB, ne_eq, not_true_eq_false, if_false]
    have := ih _ hh0 hh1
    simp only [copyStar] at this ⊢
    rw [this]

/-- The recursion never returns: it runs out of every budget. -/
theorem InsertAtLeafRounded_close (n fuel k : Nat) (hk : k + n = 54) :
    InsertAtLeafRounded roundFloat64 fuel closeBodyLow closeBodyHigh (roundedSector k) =
      .error .fuelExhausted := by
  induction n generalizing fuel k with
  | zero =>
    have hk54 : k = 54 := by omega
    subst hk54
    have : roundedSector 54 = { x := 0, y := 3 - 1 / 2 ^ 51, width := 3 / 2 ^ 54 } := by
      simp [roundedSector]
    rw [this]
    exact InsertAtLeafRounded_absorbed fuel _ (by positivity) (by norm_num)
  | succ n ih =>
    cases fuel with
    | zero => rfl
    | succ fuel =>
      obtain ⟨hA, hB⟩ := DetermineQuadrantRounded_close k (by omega)
      rw [InsertAtLeafRounded]
      simp only [hA, hB, ne_eq, not_true_eq_false, if_false]
      have := ih fuel (k + 1) (by omega)
      simp only [copyStar] at this ⊢
      rw [this]

theorem roundFloat64_inv_pow (k : Nat) (hk : k ≤ 1074) :
    roundFloat64 (1 / 2 ^ k) = 1 / 2 ^ k := by
  have h : (1 : ℚ) / 2 ^ k = ((1 : ℕ) : ℚ) * 2 ^ (-(k : ℤ)) := by
    rw [zpow_neg, zpow_natCast]
    push_cast
    rw [one_mul, one_div]
  rw [h, roundFloat64_representable 1 _ (by norm_num) (by norm_num) (by omega)]

/-- The coordinates of the two close bodies and of the region of width 3 are values of
`float64`. -/
theorem roundFloat64_closeBodies :
    roundFloat64 0 = 0 ∧ roundFloat64 3 = 3 ∧ roundFloat64 (3 - 1 / 2 ^ 51) = 3 - 1 / 2 ^ 51 := by
  refine ⟨by simp [roundFloat64], ?_, ?_⟩
  · have := roundFloat64_width 0 (by norm_num)
    simpa using this
  · have := roundFloat64_mid_absorbed 0 le_rfl (by norm_num)
    simpa using this

/-- A level of the region `[0, 1/2^j]^2` for a body on its lower edge: with `float64` rounding
the midpoint `1/2^(j+1)` is exact. -/
theorem DetermineQuadrantRounded_dyadic (j : Nat) (hj : j ≤ 1000) (x : ℚ) :
    DetermineQuadrantRounded roundFloat64 { x := 0, y := 0, width := 1 / 2 ^ j }
        (restStar x 0 1) =
      if x ≤ 1 / 2 ^ (j + 1) then ({ x := 0, y := 0, width := 1 / 2 ^ (j + 1) }, 2)
      else ({ x := 1 / 2 ^ (j + 1), y := 0, width := 1 / 2 ^ (j + 1) }, 3) := by
  have hhalf : roundFloat64 (1 / 2 ^ j / 2) = 1 / 2 ^ (j + 1) := by
    have : (1 : ℚ) / 2 ^ j / 2 = 1 / 2 ^ (j + 1) := by rw [pow_succ, div_div]
    rw [this, roundFloat64_inv_pow _ (by omega)]
  have hmid : roundFloat64 (0 + 1 / 2 ^ (j + 1)) = 1 / 2 ^ (j + 1) := by
    rw [zero_add, roundFloat64_inv_pow _ (by omega)]
  have hpos : (0 : ℚ) < 1 / 2 ^ (j + 1) := by positivity
  have hy : ¬ (0 : ℚ) ≥ 1 / 2 ^ (j + 1) := not_le.2 hpos
  simp only [DetermineQuadrantRounded, restStar, mkStar, hhalf, hmid]
  rw [if_neg hy, if_neg hy]

/-- With `float64` rounding, as in exact arithmetic, two bodies on the lower edge of the
region `[0, 1/2^j]^2`, at 0 and at `1/2^(j+n)`, are separated after exactly `n` halvings, as
long as the powers of two involved are values of `float64`: the tree has depth `n + 2`. -/
theorem InsertAtLeafRounded_dyadic (n j : Nat) (h : j + n ≤ 1000) :
    ∃ t, InsertAtLeafRounded roundFloat64 (n + 1) (restStar 0 0 1)
        (restStar (1 / 2 ^ (j + n)) 0 1) { x := 0, y := 0, width := 1 / 2 ^ j } = .ok t ∧
      depth t = n + 2 := by
  induction n generalizing j with
  | zero =>
    have hpos : (0 : ℚ) < 1 / 2 ^ (j + 1) := by positivity
    have hlt : ¬ (1 : ℚ) / 2 ^ (j + 0) ≤ 1 / 2 ^ (j + 1) := by
      rw [not_le, add_zero, pow_succ]
      apply div_lt_div_of_pos_left (by norm_num) (by positivity)
      linarith [show (0 : ℚ) < 2 ^ j by positivity]
    rw [InsertAtLeafRounded_succ, DetermineQuadrantRounded_dyadic j (by omega),
      DetermineQuadrantRounded_dyadic j (by omega), if_pos hpos.le, if_neg hlt]
    refine ⟨_, rfl, ?_⟩
    simp [depth, Function.update, emptyChildren, newLeaf]
  | succ n ih =>
    have hpos : (0 : ℚ) < 1 / 2 ^ (j + 1) := by positivity
    have hle : (1 : ℚ) / 2 ^ (j + (n + 1)) ≤ 1 / 2 ^ (j + 1) := by
      apply div_le_div_of_nonneg_left (by norm_num) (by positivity)
      exact pow_le_pow_right₀ (by norm_num) (by omega)
    obtain ⟨t, ht, hd⟩ := ih (j + 1) (by omega)
    have hj : j + 1 + n = j + (n + 1) := by omega
    rw [hj] at ht
    rw [InsertAtLeafRounded_succ, DetermineQuadrantRounded_dyadic j (by omega),
      DetermineQuadrantRounded_dyadic j (by omega), if_pos hpos.le, if_pos hle]
    simp only [ne_eq, not_true_eq_false, if_false]
    rw [ht]
    refine ⟨_, rfl, ?_⟩
    simp only [Except.map]
    rw [Function.update_idem, depth_branch_single, hd]
    omega

/-- In exact arithmetic the two close bodies are separated by the midpoint of level 52. -/
theorem InsertAtLeaf_closeBodies :
    ∃ t, InsertAtLeaf 54 closeBodyLow closeBodyHigh { x := 0, y := 0, width := 3 } = .ok t :=
  InsertAtLeaf_terminates_of_width 53 (by unfold InRegion; decide!)
    (by unfold InRegion; decide!) (by decide!)

/-! ## Claims -/

section Claims

variable {K : Type} [LinearOrderedField K]

/-- C1: for a universe of width > 0 whose bodies are all present, have positive mass and lie
in `[0,width]x[0,width]`, and for every order of insertion of these bodies, the mass stored at
the root of the tree that `GenerateQuadTree` returns is the sum of the masses of all bodies;
with no body the root is nil. Coincident bodies and bodies merged into an aggregate are not
excluded. -/
theorem C1_mass_conservation (width : K) (bodies : List (Star K))
    (_hw : 0 < width) (hmass : ∀ b ∈ bodies, 0 < b.mass)
    (_hin : ∀ b ∈ bodies, 0 ≤ b.position.x ∧ b.position.x ≤ width ∧
      0 ≤ b.position.y ∧ b.position.y ≤ width)
    (order : List (Star K)) (hperm : order.Perm bodies) (fuel : Nat) (q : QuadTree K)
    (hq : GenerateQuadTree fuel { stars := order.map some, width := width } = .ok q) :
    (bodies = [] ∧ q.root = .nil) ∨
      ∃ a, rootStar q.root = some a ∧ a.mass = massSum bodies := by
  have hmass' : ∀ b ∈ order, 0 < b.mass := fun b hb => hmass b (hperm.mem_iff.1 hb)
  rcases GenerateQuadTree_rootAggregate hmass' hq with ⟨hnil, ho⟩ | ⟨a, hr, _, _, hm, _⟩
  · subst ho
    exact Or.inl ⟨hperm.symm.eq_nil, hnil⟩
  · exact Or.inr ⟨a, hr, by rw [hm, massSum_perm hperm]⟩

/-- Witness of C1: three bodies of masses 2, 3, 2, two of them coincident, inserted in a
permuted order; the tree is returned and its root holds the mass 7. -/
theorem C1_mass_conservation_witness :
    ∃ q : QuadTree ℚ,
      GenerateQuadTree 3
        { stars := ([restStar 5 1 3, restStar 5 1 2, restStar 4 1 2] : List (Star ℚ)).map some,
          width := 8 } = .ok q ∧
      (leafStars q.root).length = 2 ∧
      ((([restStar 5 1 2, restStar 5 1 3, restStar 4 1 2] : List (Star ℚ)) = [] ∧
          q.root = .nil) ∨
        ∃ a, rootStar q.root = some a ∧
          a.mass = massSum [restStar 5 1 2, restStar 5 1 3, restStar 4 1 2]) := by
  obtain ⟨q, hq, hl⟩ := exists_ok_of_toOption_map
    (x := GenerateQuadTree 3
      { stars := ([restStar 5 1 3, restStar 5 1 2, restStar 4 1 2] : List (Star ℚ)).map some,
        width := 8 })
    (f := fun q => (leafStars q.root).length) (b := 2) (by decide!)
  exact ⟨q, hq, hl, C1_mass_conservation (8 : ℚ) [restStar 5 1 2, restStar 5 1 3, restStar 4 1 2]
    (by norm_num) (by decide!) (by decide!)
    [restStar 5 1 3, restStar 5 1 2, restStar 4 1 2] (List.Perm.swap _ _ _) 3 q hq⟩

/-- C2: for a non-empty universe of width > 0 whose bodies are all present, have positive mass
and lie in `[0,width]x[0,width]`, and for every order of insertion, the position stored at
the root of the tree that `GenerateQuadTree` returns is the mass-weighted centroid of all
bodies; for two bodies of equal mass it is the midpoint of their positions. -/
theorem C2_centroid (width : K) (bodies : List (Star K))
    (hne : bodies ≠ []) (_hw : 0 < width) (hmass : ∀ b ∈ bodies, 0 < b.mass)
    (_hin : ∀ b ∈ bodies, 0 ≤ b.position.x ∧ b.position.x ≤ width ∧
      0 ≤ b.position.y ∧ b.position.y ≤ width)
    (order : List (Star K)) (hperm : order.Perm bodies) (fuel : Nat) (q : QuadTree K)
    (hq : GenerateQuadTree fuel { stars := order.map some, width := width } = .ok q) :
    ∃ a : Star K,
      rootStar q.root = some a ∧
      a.position = centroid bodies ∧
      (∀ b1 b2, bodies = [b1, b2] → b1.mass = b2.mass →
        a.position =
          { x := (b1.position.x + b2.position.x) / 2,
            y := (b1.position.y + b2.position.y) / 2 }) := by
  have hmass' : ∀ b ∈ order, 0 < b.mass := fun b hb => hmass b (hperm.mem_iff.1 hb)
  rcases GenerateQuadTree_rootAggregate hmass' hq with
    ⟨_, ho⟩ | ⟨a, hr, _, _, _, hx, hy⟩
  · subst ho
    exact absurd hperm.symm.eq_nil hne
  · have hM : 0 < massSum bodies := massSum_pos hne hmass
    rw [massSum_perm hperm, momentX_perm hperm] at hx
    rw [massSum_perm hperm, momentY_perm hperm] at hy
    have hc : a.position = centroid bodies := by
      rw [← position_eq_iff]
      exact ⟨eq_div_of_mul_eq hM.ne' hx, eq_div_of_mul_eq hM.ne' hy⟩
    refine ⟨a, hr, hc, ?_⟩
    intro b1 b2 hb hm
    have h2 : 0 < b2.mass := hmass b2 (by rw [hb]; simp)
    rw [hc, hb]
    simp only [centroid, momentX, momentY, massSum, List.map_cons, List.map_nil, List.sum_cons,
      List.sum_nil, add_zero, hm]
    rw [← position_eq_iff]
    constructor <;> field_simp <;> ring

/-- Witness of C2: masses 2 and 2 at `(1,1)` and `(3,5)`, inserted in the swapped order; the
tree is returned and its root holds the position `(2,3)`. -/
theorem C2_centroid_witness :
    ∃ q : QuadTree ℚ,
      GenerateQuadTree 3
        { stars := ([restStar 3 5 2, restStar 1 1 2] : List (Star ℚ)).map some,
          width := 8 } = .ok q ∧
      (rootStar q.root).map (fun a => a.position) = some { x := 2, y := 3 } ∧
      ∃ a : Star ℚ,
        rootStar q.root = some a ∧
        a.position = centroid [restStar 1 1 2, restStar 3 5 2] ∧
        (∀ b1 b2 : Star ℚ, [restStar 1 1 2, restStar 3 5 2] = [b1, b2] → b1.mass = b2.mass →
          a.position =
            { x := (b1.position.x + b2.position.x) / 2,
              y := (b1.position.y + b2.position.y) / 2 }) := by
  obtain ⟨q, hq, hl⟩ := exists_ok_of_toOption_map
    (x := GenerateQuadTree 3
      { stars := ([restStar 3 5 2, restStar 1 1 2] : List (Star ℚ)).map some, width := 8 })
    (f := fun q => (rootStar q.root).map (fun a => a.position))
    (b := some { x := 2, y := 3 }) (by decide!)
  exact ⟨q, hq, hl, C2_centroid (8 : ℚ) [restStar 1 1 2, restStar 3 5 2] (by simp) (by norm_num)
    (by decide!) (by decide!) [restStar 3 5 2, restStar 1 1 2] (List.Perm.swap _ _ _) 3 q hq⟩

/-- C3 (as stated, refuted), on two universes of width 8 with pairwise distinct positions
and `G = 1`.  First: unit masses at `(1,1)`, `(7,1)`, `(4,1)`; the third body sits on the
aggregate position of the root and is merged into it, the tree has two leaves, and the
traversal for the first body returns `(1/36, 0)`, the force of the second body alone, while the
direct pairwise sum is `(5/36, 0)`.  Second: masses 2, 2, 1 at `(5,1)`, `(4,1)`, `(7,1)`, one
leaf each; the aggregate position of the root is `(5,1)`, the position of the first body, so
the traversal for that body stops at the root with the zero vector, while the direct pairwise
sum is `(-7/2, 0)`. -/
theorem C3_theta_zero_counterexample :
    ((GenerateQuadTree 3
        { stars := ([restStar 1 1 1, restStar 7 1 1, restStar 4 1 1] : List (Star ℚ)).map some,
          width := 8 }).toOption.map
      (fun q => (CalculateNetForce 1 Rat.sqrt q.root (restStar 1 1 1) 0,
        (leafStars q.root).length)) =
      some ({ x := 1 / 36, y := 0 }, 2) ∧
    pairwiseForce 1 Rat.sqrt [restStar 1 1 1, restStar 7 1 1, restStar 4 1 1] 0
        (restStar 1 1 1) =
      { x := 5 / 36, y := 0 }) ∧
    ((GenerateQuadTree 3
        { stars := ([restStar 5 1 2, restStar 4 1 2, restStar 7 1 1] : List (Star ℚ)).map some,
          width := 8 }).toOption.map
      (fun q => (CalculateNetForce 1 Rat.sqrt q.root (restStar 5 1 2) 0,
        (leafStars q.root).length)) =
      some ({ x := 0, y := 0 }, 3) ∧
    pairwiseForce 1 Rat.sqrt [restStar 5 1 2, restStar 4 1 2, restStar 7 1 1] 0
        (restStar 5 1 2) =
      { x := -7 / 2, y := 0 }) := by
  refine ⟨⟨?_, ?_⟩, ⟨?_, ?_⟩⟩ <;> decide!

/-- C3 (amended): for a universe of width > 0 of present bodies with positive masses and
pairwise distinct positions inside the region, a tree returned by `GenerateQuadTree` that has
one leaf per body (no body was merged into an aggregate), and a body `s` of the universe that
is at non-zero distance from the aggregate position of every Internal node of that tree,
`CalculateNetForce(root, s, 0)` is the direct pairwise sum of `ComputeForce(s, b)` over all
other bodies `b`. -/
theorem C3_theta_zero_equivalence (G : K) (sqrt : K → K) (hs : IsSqrt sqrt) (width : K)
    (bodies : List (Star K)) (hw : 0 < width) (_hmass : ∀ b ∈ bodies, 0 < b.mass)
    (hdistinct : (bodies.map fun b => b.position).Nodup)
    (hin : ∀ b ∈ bodies, 0 ≤ b.position.x ∧ b.position.x ≤ width ∧
      0 ≤ b.position.y ∧ b.position.y ≤ width)
    (fuel : Nat) (q : QuadTree K)
    (hq : GenerateQuadTree fuel { stars := bodies.map some, width := width } = .ok q)
    (i : Nat) (s : Star K) (hi : bodies[i]? = some s)
    (hleaves : (leafStars q.root).length = bodies.length)
    (hfar : FarFromAggregates sqrt s q.root = true) :
    CalculateNetForce G sqrt q.root s 0 = pairwiseForce G sqrt bodies i s := by
  have hin' : ∀ b ∈ bodies, InRegion
      (InitializeStartingQuadrant { stars := bodies.map some, width := width }) b.position := by
    intro b hb
    obtain ⟨h1, h2, h3, h4⟩ := hin b hb
    simp only [InRegion, InitializeStartingQuadrant, zero_add]
    exact ⟨h1, h2, h3, h4⟩
  have hwp : WellPlaced q.root
      (InitializeStartingQuadrant { stars := bodies.map some, width := width }) :=
    generateLoop_wellPlaced hin' (r := .nil) trivial (GenerateQuadTree_eq_ok_iff.1 hq)
  have hperm := (GenerateQuadTree_leafStars hq).2 hleaves
  rw [CalculateNetForce_theta_zero hs s hwp hw hfar, pairwiseForce,
    ← otherBodies_eq_eraseIdx hdistinct hi]
  exact sumForces_perm G sqrt s (hperm.filter _)

/-- Witness of C3 (amended): two unit masses at `(1,1)` and `(3,1)` over the reals; the
aggregate of the root is at `(2,1)`, away from the first body. -/
theorem C3_theta_zero_equivalence_witness :
    CalculateNetForce 1 Real.sqrt twoBodyTree (restStar (1 : ℝ) 1 1) 0 =
      pairwiseForce 1 Real.sqrt [restStar 1 1 1, restStar 3 1 1] 0 (restStar 1 1 1) :=
  C3_theta_zero_equivalence 1 Real.sqrt isSqrt_real 4 [restStar 1 1 1, restStar 3 1 1]
    (by norm_num) (by simp [restStar, mkStar]) (by simp [restStar, mkStar])
    (by simp [restStar, mkStar]; norm_num) 1 { root := twoBodyTree } twoBody_generate
    0 (restStar 1 1 1) rfl twoBody_leaves twoBody_far

/-- C4 (as stated, refuted): a star at `(0,0)` with velocity `(0,0)` and acceleration `(2,0)`,
alone in a universe of width 10 and stepped with `dt = 1` against the tree built from that
universe, is retained at position `(0,0)`, whereas
old position + old velocity*dt + 0.5*old acceleration*dt^2 is `(1,0)`. -/
theorem C4_position_uses_old_values_counterexample :
    GenerateQuadTree 1 { stars := [some scenarioStar], width := (10 : ℚ) } =
        .ok { root := .leaf scenarioStar { x := 0, y := 0, width := 10 } } ∧
    ∃ st, (UpdateUniverse 1 Rat.sqrt { stars := [some scenarioStar], width := (10 : ℚ) }
          { root := .leaf scenarioStar { x := 0, y := 0, width := 10 } } 1 (1 / 2)).stars =
            [some st] ∧
      st.position = { x := 0, y := 0 } ∧
      st.position ≠
        { x := scenarioStar.position.x + scenarioStar.velocity.x * 1 +
            (1 / 2) * scenarioStar.acceleration.x * 1 ^ 2,
          y := scenarioStar.position.y + scenarioStar.velocity.y * 1 +
            (1 / 2) * scenarioStar.acceleration.y * 1 ^ 2 } := by
  refine ⟨rfl, mkStar 0 0 1 { x := 0, y := 0 } { x := 0, y := 0 }, ?_, rfl, ?_⟩
  · decide!
  · decide!

/-- C4 (amended): a present body retained by `UpdateUniverse` gets the position
old position + new velocity*dt + 0.5*new acceleration*dt^2, where the new acceleration is the
net force of this step divided by the mass and the new velocity is
old velocity + new acceleration*dt. -/
theorem C4_position_update (G : K) (sqrt : K → K) (u : Universe K) (q : QuadTree K)
    (dt theta : K) (i : Nat) (st st' : Star K)
    (hin : u.stars[i]? = some (some st))
    (hout : (UpdateUniverse G sqrt u q dt theta).stars[i]? = some (some st')) :
    st'.position.x =
        st.position.x
          + (st.velocity.x + (CalculateNetForce G sqrt q.root st theta).x / st.mass * dt) * dt
          + (1 / 2) * ((CalculateNetForce G sqrt q.root st theta).x / st.mass) * dt * dt ∧
    st'.position.y =
        st.position.y
          + (st.velocity.y + (CalculateNetForce G sqrt q.root st theta).y / st.mass * dt) * dt
          + (1 / 2) * ((CalculateNetForce G sqrt q.root st theta).y / st.mass) * dt * dt := by
  rw [UpdateUniverse_getElem?, hin] at hout
  have h := updateStar_eq_some (Option.some.inj hout)
  subst h
  exact ⟨rfl, rfl⟩

/-- Witness of C4 (amended) on the integration scenario. -/
theorem C4_position_update_witness :
    (mkStar (0 : ℚ) 0 1 { x := 0, y := 0 } { x := 0, y := 0 }).position.x =
      scenarioStar.position.x
        + (scenarioStar.velocity.x
            + (CalculateNetForce 1 Rat.sqrt (.leaf scenarioStar { x := 0, y := 0, width := 10 })
                scenarioStar (1 / 2)).x / scenarioStar.mass * 1) * 1
        + (1 / 2) * ((CalculateNetForce 1 Rat.sqrt
            (.leaf scenarioStar { x := 0, y := 0, width := 10 })
              scenarioStar (1 / 2)).x / scenarioStar.mass) * 1 * 1 :=
  (C4_position_update 1 Rat.sqrt { stars := [some scenarioStar], width := (10 : ℚ) }
    { root := .leaf scenarioStar { x := 0, y := 0, width := 10 } } 1 (1 / 2) 0 scenarioStar
    (mkStar 0 0 1 { x := 0, y := 0 } { x := 0, y := 0 }) rfl (by decide!)).1

/-- C5: a present body retained by `UpdateUniverse` gets the acceleration
`CalculateNetForce(tree.root, b, theta) / mass` and the velocity
old velocity + new acceleration*dt. -/
theorem C5_acceleration_velocity_update (G : K) (sqrt : K → K) (u : Universe K)
    (q : QuadTree K) (dt theta : K) (i : Nat) (st st' : Star K)
    (hin : u.stars[i]? = some (some st))
    (hout : (UpdateUniverse G sqrt u q dt theta).stars[i]? = some (some st')) :
    st'.acceleration =
        { x := (CalculateNetForce G sqrt q.root st theta).x / st.mass,
          y := (CalculateNetForce G sqrt q.root st theta).y / st.mass } ∧
    st'.velocity =
        { x := st.velocity.x + st'.acceleration.x * dt,
          y := st.velocity.y + st'.acceleration.y * dt } := by
  rw [UpdateUniverse_getElem?, hin] at hout
  have h := updateStar_eq_some (Option.some.inj hout)
  subst h
  exact ⟨rfl, rfl⟩

/-- Witness of C5: two bodies on a line, the first stepped against the leaf of the second. -/
theorem C5_acceleration_velocity_update_witness :
    (mkStar (11 / 8 : ℚ) 1 2 { x := 1 / 2, y := 0 } { x := 1, y := 0 }).acceleration =
      { x := (CalculateNetForce 1 Rat.sqrt
            (.leaf (restStar 3 1 4) { x := 0, y := 0, width := 4 })
              (restStar 1 1 2) 0).x / (restStar (1 : ℚ) 1 2).mass,
        y := (CalculateNetForce 1 Rat.sqrt
            (.leaf (restStar 3 1 4) { x := 0, y := 0, width := 4 })
              (restStar 1 1 2) 0).y / (restStar (1 : ℚ) 1 2).mass } :=
  (C5_acceleration_velocity_update 1 Rat.sqrt
    { stars := [some (restStar 1 1 2)], width := (4 : ℚ) }
    { root := .leaf (restStar 3 1 4) { x := 0, y := 0, width := 4 } } (1 / 2) 0 0
    (restStar 1 1 2) (mkStar (11 / 8) 1 2 { x := 1 / 2, y := 0 } { x := 1, y := 0 })
    rfl (by decide!)).1

/-- C6: `UpdateUniverse` keeps the width and the number of slots; a result slot is present
exactly when the input slot is present and its integrated position has both coordinates in
`[0, width]`; an absent slot stays absent; and a result slot is determined by the input slot
(with the width, the tree, `dt` and `theta`), whatever the other slots hold. -/
theorem C6_boundary_removal_stable_indices (G : K) (sqrt : K → K) (u : Universe K)
    (q : QuadTree K) (dt theta : K) :
    (UpdateUniverse G sqrt u q dt theta).width = u.width ∧
    (UpdateUniverse G sqrt u q dt theta).stars.length = u.stars.length ∧
    (∀ i : Nat, (∃ st', (UpdateUniverse G sqrt u q dt theta).stars[i]? = some (some st')) ↔
      ∃ st, u.stars[i]? = some (some st) ∧
        0 ≤ (integratedPosition G sqrt q.root dt theta st).x ∧
        (integratedPosition G sqrt q.root dt theta st).x ≤ u.width ∧
        0 ≤ (integratedPosition G sqrt q.root dt theta st).y ∧
        (integratedPosition G sqrt q.root dt theta st).y ≤ u.width) ∧
    (∀ i : Nat, u.stars[i]? = some none →
      (UpdateUniverse G sqrt u q dt theta).stars[i]? = some none) ∧
    (∀ (u2 : Universe K) (i : Nat), u2.width = u.width → u2.stars[i]? = u.stars[i]? →
      (UpdateUniverse G sqrt u2 q dt theta).stars[i]? =
        (UpdateUniverse G sqrt u q dt theta).stars[i]?) := by
  refine ⟨rfl, ?_, ?_, ?_, ?_⟩
  · rw [UpdateUniverse_stars, List.length_map]
  · intro i
    rw [UpdateUniverse_getElem?]
    constructor
    · rintro ⟨st', h⟩
      cases hi : u.stars[i]? with
      | none => rw [hi] at h; exact absurd h (by simp)
      | some o =>
        rw [hi] at h
        cases o with
        | none => exact absurd h (by simp)
        | some st =>
          refine ⟨st, rfl, ?_⟩
          have h2 : updateStar G sqrt q.root u.width dt theta st = some st' := by
            simpa using h
          exact (updateStar_isSome_iff G sqrt q.root u.width dt theta st).1 ⟨st', h2⟩
    · rintro ⟨st, hi, hb⟩
      obtain ⟨st', h2⟩ := (updateStar_isSome_iff G sqrt q.root u.width dt theta st).2 hb
      exact ⟨st', by rw [hi]; simpa using h2⟩
  · intro i hi
    rw [UpdateUniverse_getElem?, hi]
    rfl
  · intro u2 i hw hi
    rw [UpdateUniverse_getElem?, UpdateUniverse_getElem?, hi, hw]

/-- C7: for two bodies at distinct positions, at distance `d`, `ComputeForce b1 b2` is
`(G*m1*m2/d^2) * (p2 - p1)/d` componentwise; for non-negative `G` and masses its Euclidean
magnitude is `G*m1*m2/d^2`, and it is a non-negative multiple of `p2 - p1`. -/
theorem C7_force_law (G : K) (sqrt : K → K) (hs : IsSqrt sqrt) (b1 b2 : Star K)
    (hne : b1.position ≠ b2.position) (hG : 0 ≤ G) (hm1 : 0 ≤ b1.mass) (hm2 : 0 ≤ b2.mass) :
    0 < Distance sqrt b1.position b2.position ∧
    Distance sqrt b1.position b2.position ^ 2 =
      (b2.position.x - b1.position.x) ^ 2 + (b2.position.y - b1.position.y) ^ 2 ∧
    (ComputeForce G sqrt b1 b2).x =
      G * b1.mass * b2.mass / Distance sqrt b1.position b2.position ^ 2 *
        ((b2.position.x - b1.position.x) / Distance sqrt b1.position b2.position) ∧
    (ComputeForce G sqrt b1 b2).y =
      G * b1.mass * b2.mass / Distance sqrt b1.position b2.position ^ 2 *
        ((b2.position.y - b1.position.y) / Distance sqrt b1.position b2.position) ∧
    sqrt ((ComputeForce G sqrt b1 b2).x * (ComputeForce G sqrt b1 b2).x +
        (ComputeForce G sqrt b1 b2).y * (ComputeForce G sqrt b1 b2).y) =
      G * b1.mass * b2.mass / Distance sqrt b1.position b2.position ^ 2 ∧
    ∃ c : K, 0 ≤ c ∧ (ComputeForce G sqrt b1 b2).x = c * (b2.position.x - b1.position.x) ∧
      (ComputeForce G sqrt b1 b2).y = c * (b2.position.y - b1.position.y) := by
  have hd := Distance_pos hs hne
  have hd2 := Distance_mul_self hs b1.position b2.position
  set d := Distance sqrt b1.position b2.position with hd_def
  have hF : 0 ≤ G * b1.mass * b2.mass / d ^ 2 :=
    div_nonneg (mul_nonneg (mul_nonneg hG hm1) hm2) (pow_nonneg hd.le 2)
  have hx : (ComputeForce G sqrt b1 b2).x =
      G * b1.mass * b2.mass / d ^ 2 * ((b2.position.x - b1.position.x) / d) := by
    simp only [ComputeForce, ← hd_def, pow_two]
  have hy : (ComputeForce G sqrt b1 b2).y =
      G * b1.mass * b2.mass / d ^ 2 * ((b2.position.y - b1.position.y) / d) := by
    simp only [ComputeForce, ← hd_def, pow_two]
  have hsq : d ^ 2 = (b2.position.x - b1.position.x) ^ 2 +
      (b2.position.y - b1.position.y) ^ 2 := by
    rw [pow_two, hd2]; ring
  refine ⟨hd, hsq, hx, hy, ?_, ?_⟩
  · rw [hx, hy]
    have hunit : ((b2.position.x - b1.position.x) / d) * ((b2.position.x - b1.position.x) / d) +
        ((b2.position.y - b1.position.y) / d) * ((b2.position.y - b1.position.y) / d) = 1 := by
      field_simp
      nlinarith [hsq]
    have hmag : G * b1.mass * b2.mass / d ^ 2 * ((b2.position.x - b1.position.x) / d) *
          (G * b1.mass * b2.mass / d ^ 2 * ((b2.position.x - b1.position.x) / d)) +
        G * b1.mass * b2.mass / d ^ 2 * ((b2.position.y - b1.position.y) / d) *
          (G * b1.mass * b2.mass / d ^ 2 * ((b2.position.y - b1.position.y) / d)) =
        (G * b1.mass * b2.mass / d ^ 2) * (G * b1.mass * b2.mass / d ^ 2) := by
      linear_combination
        (G * b1.mass * b2.mass / d ^ 2) * (G * b1.mass * b2.mass / d ^ 2) * hunit
    rw [hmag]
    exact hs.sqrt_mul_self hF
  · refine ⟨G * b1.mass * b2.mass / d ^ 2 / d, div_nonneg hF hd.le, ?_, ?_⟩
    · rw [hx]; ring
    · rw [hy]; ring

/-- Witness of C7: unit masses at `(0,0)` and `(3,4)` over the reals, distance 5. -/
theorem C7_force_law_witness :
    Real.sqrt
        ((ComputeForce 1 Real.sqrt (restStar (0 : ℝ) 0 1) (restStar 3 4 1)).x *
            (ComputeForce 1 Real.sqrt (restStar (0 : ℝ) 0 1) (restStar 3 4 1)).x +
          (ComputeForce 1 Real.sqrt (restStar (0 : ℝ) 0 1) (restStar 3 4 1)).y *
            (ComputeForce 1 Real.sqrt (restStar (0 : ℝ) 0 1) (restStar 3 4 1)).y) =
      1 * (restStar (0 : ℝ) 0 1).mass * (restStar (3 : ℝ) 4 1).mass /
        Distance Real.sqrt (restStar (0 : ℝ) 0 1).position (restStar (3 : ℝ) 4 1).position ^ 2 :=
  (C7_force_law 1 Real.sqrt isSqrt_real (restStar 0 0 1) (restStar 3 4 1)
    (by simp [restStar, mkStar]) zero_le_one (by simp [restStar, mkStar])
    (by simp [restStar, mkStar])).2.2.2.2.1

/-- C8 (as stated, refuted): over the reals, the force of the scenario on the body at the
origin has magnitude `1.6685e27`, which is `10^9` times the stated `1.6685e18` and not within
one unit of its last given digit. -/
theorem C8_force_scenario_magnitude_counterexample :
    Real.sqrt
        ((ComputeForce scenarioG Real.sqrt (scenarioBody1 (K := ℝ)) scenarioBody2).x *
            (ComputeForce scenarioG Real.sqrt (scenarioBody1 (K := ℝ)) scenarioBody2).x +
          (ComputeForce scenarioG Real.sqrt (scenarioBody1 (K := ℝ)) scenarioBody2).y *
            (ComputeForce scenarioG Real.sqrt (scenarioBody1 (K := ℝ)) scenarioBody2).y) =
      10 ^ 9 * (16685 * 10 ^ 14) ∧
    ¬ |Real.sqrt
        ((ComputeForce scenarioG Real.sqrt (scenarioBody1 (K := ℝ)) scenarioBody2).x *
            (ComputeForce scenarioG Real.sqrt (scenarioBody1 (K := ℝ)) scenarioBody2).x +
          (ComputeForce scenarioG Real.sqrt (scenarioBody1 (K := ℝ)) scenarioBody2).y *
            (ComputeForce scenarioG Real.sqrt (scenarioBody1 (K := ℝ)) scenarioBody2).y) -
        16685 * 10 ^ 14| ≤ 10 ^ 14 := by
  have h := (scenario_force (K := ℝ) isSqrt_real).1
  have hm : Real.sqrt
        ((ComputeForce scenarioG Real.sqrt (scenarioBody1 (K := ℝ)) scenarioBody2).x *
            (ComputeForce scenarioG Real.sqrt (scenarioBody1 (K := ℝ)) scenarioBody2).x +
          (ComputeForce scenarioG Real.sqrt (scenarioBody1 (K := ℝ)) scenarioBody2).y *
            (ComputeForce scenarioG Real.sqrt (scenarioBody1 (K := ℝ)) scenarioBody2).y) =
      10 ^ 9 * (16685 * 10 ^ 14) := by
    rw [h]
    simp only [mul_zero, add_zero]
    rw [isSqrt_real.sqrt_mul_self (by positivity)]
    norm_num
  refine ⟨hm, ?_⟩
  rw [hm, not_le]
  have h0 : (0 : ℝ) ≤ 10 ^ 9 * (16685 * 10 ^ 14) - 16685 * 10 ^ 14 := by norm_num
  rw [abs_of_nonneg h0]
  norm_num

/-- C8 (amended): with `G = 6.674e-11`, masses `5e24` at `(0,0)` and `(1e6,0)`, the force on
the first body is `(1.6685e27, 0)` and on the second `(-1.6685e27, 0)`: magnitude `1.6685e27`,
zero y component, each pointing along the x-axis toward the other body. -/
theorem C8_force_scenario (sqrt : K → K) (hs : IsSqrt sqrt) :
    ComputeForce scenarioG sqrt (scenarioBody1 (K := K)) scenarioBody2 =
      { x := 16685 * 10 ^ 23, y := 0 } ∧
    ComputeForce scenarioG sqrt (scenarioBody2 (K := K)) scenarioBody1 =
      { x := -(16685 * 10 ^ 23), y := 0 } ∧
    sqrt ((ComputeForce scenarioG sqrt (scenarioBody1 (K := K)) scenarioBody2).x *
          (ComputeForce scenarioG sqrt (scenarioBody1 (K := K)) scenarioBody2).x +
        (ComputeForce scenarioG sqrt (scenarioBody1 (K := K)) scenarioBody2).y *
          (ComputeForce scenarioG sqrt (scenarioBody1 (K := K)) scenarioBody2).y) =
      16685 * 10 ^ 23 ∧
    sqrt ((ComputeForce scenarioG sqrt (scenarioBody2 (K := K)) scenarioBody1).x *
          (ComputeForce scenarioG sqrt (scenarioBody2 (K := K)) scenarioBody1).x +
        (ComputeForce scenarioG sqrt (scenarioBody2 (K := K)) scenarioBody1).y *
          (ComputeForce scenarioG sqrt (scenarioBody2 (K := K)) scenarioBody1).y) =
      16685 * 10 ^ 23 := by
  obtain ⟨h12, h21⟩ := scenario_force (K := K) hs
  have hpos : (0 : K) ≤ 16685 * 10 ^ 23 := by positivity
  refine ⟨h12, h21, ?_, ?_⟩
  · rw [h12]
    simp only [mul_zero, add_zero]
    exact hs.sqrt_mul_self hpos
  · rw [h21]
    simp only [mul_zero, add_zero, neg_mul_neg]
    exact hs.sqrt_mul_self hpos

/-- Witness of C8 (amended): the real square root. -/
theorem C8_force_scenario_witness :
    ComputeForce scenarioG Real.sqrt (scenarioBody1 (K := ℝ)) scenarioBody2 =
      { x := 16685 * 10 ^ 23, y := 0 } :=
  (C8_force_scenario Real.sqrt isSqrt_real).1

/-- C9 (the code fails the claim): a nil star in the first slot, or after a single earlier
star, makes `GenerateQuadTree` dereference nil whatever the recursion budget; only a node that
is not a leaf skips a nil star (line 111). -/
theorem C9_nil_star_faults (fuel : Nat) (w : K) (a : Star K) :
    GenerateQuadTree fuel { stars := [none], width := w } = .error .nilDereference ∧
    GenerateQuadTree fuel { stars := [some a, none], width := w } = .error .nilDereference ∧
    (∀ (n : Node K) (quadrant : Quadrant K), IsLeaf n = false →
      InsertIntoQuadTree fuel n none quadrant = .ok n) := by
  refine ⟨rfl, rfl, ?_⟩
  intro n quadrant hn
  cases n with
  | nil => simp [IsLeaf] at hn
  | leaf st sec => simp [IsLeaf] at hn
  | branch st sec ch =>
    simp only [InsertIntoQuadTree, hn]
    rfl

/-- C10 (as stated, refuted): bodies of mass 1 at `(1,1)`, `(7,1)` and `(4,1)` in a universe
of width 8. The third body sits on the aggregate position of the root and is merged into it:
the root is Internal with aggregate mass 3 while its two leaves hold mass 2. -/
theorem C10_subtree_aggregate_counterexample :
    (GenerateQuadTree 2
        { stars := ([restStar 1 1 1, restStar 7 1 1, restStar 4 1 1] : List (Star ℚ)).map some,
          width := 8 }).toOption.map
      (fun q => (IsLeaf q.root, (rootStar q.root).map (fun a => a.mass),
        massSum (leafStars q.root), (leafStars q.root).length)) =
      some (false, some 3, 2, 2) := by
  decide!

/-- C10 (amended): in a tree produced by `GenerateQuadTree` from present, positive-mass,
in-region bodies in which no body was merged into the aggregate of an Internal node, that is,
whose leaves hold the whole mass of the universe, every Internal node's aggregate mass is the
sum of the masses of the bodies held in the leaves of its subtree and its aggregate position
is their mass-weighted centroid. -/
theorem C10_subtree_aggregate_invariant (width : K) (bodies : List (Star K))
    (_hw : 0 < width) (hmass : ∀ b ∈ bodies, 0 < b.mass)
    (_hin : ∀ b ∈ bodies, 0 ≤ b.position.x ∧ b.position.x ≤ width ∧
      0 ≤ b.position.y ∧ b.position.y ≤ width)
    (fuel : Nat) (q : QuadTree K)
    (hq : GenerateQuadTree fuel { stars := bodies.map some, width := width } = .ok q)
    (hleaves : massSum (leafStars q.root) = massSum bodies) :
    ∀ n ∈ subtrees q.root, IsLeaf n = false → ∀ a, rootStar n = some a →
      a.mass = massSum (leafStars n) ∧ a.position = centroid (leafStars n) := by
  intro n hn
  exact ((GenerateQuadTree_aggregateInvariant hmass hq).2.2 hleaves).subtrees n hn

/-- Witness of C10 (amended): four bodies, two of them coincident, no merge into an
aggregate. -/
theorem C10_subtree_aggregate_invariant_witness :
    ∃ q : QuadTree ℚ,
      GenerateQuadTree 3
        { stars := ([restStar 1 1 1, restStar 7 1 2, restStar 3 1 1, restStar 7 1 3] :
            List (Star ℚ)).map some, width := 8 } = .ok q ∧
      ∀ n ∈ subtrees q.root, IsLeaf n = false → ∀ a, rootStar n = some a →
        a.mass = massSum (leafStars n) ∧ a.position = centroid (leafStars n) := by
  obtain ⟨q, hq, hl⟩ := exists_ok_of_toOption_map
    (x := GenerateQuadTree 3
      { stars := ([restStar 1 1 1, restStar 7 1 2, restStar 3 1 1, restStar 7 1 3] :
          List (Star ℚ)).map some, width := 8 })
    (f := fun q => massSum (leafStars q.root))
    (b := massSum [restStar 1 1 1, restStar 7 1 2, restStar 3 1 1, restStar 7 1 3])
    (by decide!)
  exact ⟨q, hq, C10_subtree_aggregate_invariant 8
    [restStar 1 1 1, restStar 7 1 2, restStar 3 1 1, restStar 7 1 3]
    (by norm_num) (by decide!) (by decide!) 3 q hq hl⟩

/-- C11 (as stated, refuted): no constant bounds the depth and nothing is merged. In the unit
region the bodies at `(0,0)` and `(1/1024, 0)` give a tree of depth 12 with two leaves. In
exact arithmetic no `D` bounds the depth of the trees that insertion returns: the bodies at
`(0,0)` and `(1/2^D, 0)` give a tree of depth `D + 2`. With the rounding of `float64` the
bodies at `(0, 3 - 2^-51)` and `(0, 3)` in the region of width 3 would need a deeper
subdivision than the numbers can resolve; they are not merged, the subdivision goes on for
ever and no tree is returned. -/
theorem C11_bounded_depth_counterexample :
    (InsertAtLeaf 11 (restStar (0 : ℚ) 0 1) (restStar (1 / 1024) 0 1)
        { x := 0, y := 0, width := 1 }).toOption.map
      (fun t => (depth t, (leafStars t).length)) = some (12, 2) ∧
    (¬ ∃ D : Nat, ∀ (q : Quadrant ℚ) (a b : Star ℚ), a.position ≠ b.position →
      InRegion q a.position → InRegion q b.position →
      ∀ (fuel : Nat) (t1 t2 : Node ℚ), InsertIntoQuadTree fuel .nil (some a) q = .ok t1 →
        InsertIntoQuadTree fuel t1 (some b) q = .ok t2 → depth t2 ≤ D) ∧
    (closeBodyLow.position ≠ closeBodyHigh.position ∧
      InRegion ({ x := 0, y := 0, width := 3 } : Quadrant ℚ) closeBodyLow.position ∧
      InRegion ({ x := 0, y := 0, width := 3 } : Quadrant ℚ) closeBodyHigh.position ∧
      ∀ fuel : Nat,
        InsertAtLeafRounded roundFloat64 fuel closeBodyLow closeBodyHigh
          { x := 0, y := 0, width := 3 } = .error .fuelExhausted) := by
  refine ⟨by decide!, ?_, by decide!, by unfold InRegion; decide!, by unfold InRegion; decide!,
    fun fuel => by rw [← roundedSector_zero]; exact InsertAtLeafRounded_close 54 fuel 0 (by omega)⟩
  rintro ⟨D, h⟩
  obtain ⟨t, ht, hd⟩ := InsertAtLeaf_close D (1 : ℚ) one_pos
  have hpow : (0 : ℚ) < 1 / 2 ^ D := by positivity
  have hle : (1 : ℚ) / 2 ^ D ≤ 1 := by
    rw [div_le_one (by positivity)]
    exact one_le_pow₀ (by norm_num)
  have hne : (restStar (0 : ℚ) 0 1).position ≠ (restStar (1 / 2 ^ D) 0 1).position := by
    intro hc
    have := (position_eq_iff _ _).2 hc
    simp only [restStar, mkStar] at this
    linarith [this.1]
  have := h { x := 0, y := 0, width := 1 } (restStar 0 0 1) (restStar (1 / 2 ^ D) 0 1) hne
    (by simp [InRegion, restStar, mkStar])
    (by simp only [InRegion, restStar, mkStar, zero_add]; exact ⟨hpow.le, hle, le_rfl, by norm_num⟩)
    (D + 1) (newLeaf (restStar 0 0 1) { x := 0, y := 0, width := 1 }) t rfl
    (insert_of_Ins (Ins.leafSplit _ _ (Or.inl rfl) hne ht))
  omega

/-- C11 (amended): insertion imposes no maximum subdivision depth and has no merge fallback;
bodies are merged only when their positions are identical. For every region and two bodies at
distinct positions: the first body becomes a leaf, and whenever the insertion of the second
body returns, the tree is an Internal node in the shape `SplitChain`: nodes with one occupied
slot down to a deepest node that holds the two bodies as two leaves in different slots, so the
leaves of the tree are the two bodies, unmerged. The depth follows the distance of the bodies:
for every `D` up to 1000 the bodies at `(0,0)` and `(1/2^D, 0)` in the unit region give a tree
of depth `D + 2`, in exact arithmetic and with the rounding of `float64` alike. -/
theorem C11_subdivision_depth (fuel : Nat) (q : Quadrant K) (a s : Star K) (t : Node K)
    (hne : a.position ≠ s.position)
    (ht : InsertIntoQuadTree fuel (newLeaf a q) (some s) q = .ok t) :
    (InsertIntoQuadTree fuel .nil (some a) q = .ok (newLeaf a q) ∧
      IsLeaf t = false ∧ SplitChain a s q t ∧ (leafStars t).Perm [a, s]) ∧
    (∀ D : Nat, D ≤ 1000 → ∃ t' : Node K,
      InsertIntoQuadTree (D + 1)
        (newLeaf (restStar (0 : K) 0 1) ({ x := 0, y := 0, width := 1 } : Quadrant K))
        (some (restStar (1 / 2 ^ D) 0 1)) ({ x := 0, y := 0, width := 1 } : Quadrant K) =
          .ok t' ∧
      depth t' = D + 2 ∧ (leafStars t').length = 2) ∧
    (∀ D : Nat, D ≤ 1000 → ∃ t' : Node ℚ,
      InsertAtLeafRounded roundFloat64 (D + 1) (restStar 0 0 1) (restStar (1 / 2 ^ D) 0 1)
        { x := 0, y := 0, width := 1 } = .ok t' ∧
      depth t' = D + 2) := by
  refine ⟨?_, ?_, ?_⟩
  · have hat : InsertAtLeaf fuel a s q = .ok t := by
      simp only [InsertIntoQuadTree, newLeaf, copyStar_eq] at ht
      rwa [insertLeafCase_some, if_neg hne] at ht
    refine ⟨rfl, ?_, InsertAtLeaf_splitChain hat, InsertAtLeaf_leafStars hat⟩
    obtain ⟨children, rfl, hl⟩ := InsertAtLeaf_shape hat
    exact hl
  · intro D _
    obtain ⟨t', ht', hd⟩ := InsertAtLeaf_close D (1 : K) one_pos
    have hpow : (0 : K) < 1 / 2 ^ D := by positivity
    have hne' : (restStar (0 : K) 0 1).position ≠ (restStar (1 / 2 ^ D) 0 1).position := by
      intro hc
      have := (position_eq_iff _ _).2 hc
      simp only [restStar, mkStar] at this
      linarith [this.1]
    exact ⟨t', insert_of_Ins (Ins.leafSplit _ _ (Or.inl rfl) hne' ht'), hd,
      (InsertAtLeaf_leafStars ht').length_eq⟩
  · intro D hD
    have := InsertAtLeafRounded_dyadic D 0 (by omega)
    simpa using this

/-- Witness of C11 (amended): bodies at `(1,1)` and `(2,1)` in the region of width 8; the
insertion returns a tree of depth 4 whose leaves are the two bodies. -/
theorem C11_subdivision_depth_witness :
    ∃ t : Node ℚ,
      InsertIntoQuadTree 3
        (newLeaf (restStar (1 : ℚ) 1 1) ({ x := 0, y := 0, width := 8 } : Quadrant ℚ))
        (some (restStar (2 : ℚ) 1 1)) ({ x := 0, y := 0, width := 8 } : Quadrant ℚ) = .ok t ∧
      depth t = 4 ∧
      InsertIntoQuadTree 3 .nil (some (restStar (1 : ℚ) 1 1))
        ({ x := 0, y := 0, width := 8 } : Quadrant ℚ) =
        .ok (newLeaf (restStar (1 : ℚ) 1 1) ({ x := 0, y := 0, width := 8 } : Quadrant ℚ)) ∧
      IsLeaf t = false ∧
      SplitChain (restStar (1 : ℚ) 1 1) (restStar (2 : ℚ) 1 1)
        ({ x := 0, y := 0, width := 8 } : Quadrant ℚ) t ∧
      (leafStars t).Perm [restStar (1 : ℚ) 1 1, restStar (2 : ℚ) 1 1] := by
  obtain ⟨t, ht, hd⟩ := exists_ok_of_toOption_map
    (x := InsertIntoQuadTree 3
      (newLeaf (restStar (1 : ℚ) 1 1) ({ x := 0, y := 0, width := 8 } : Quadrant ℚ))
      (some (restStar (2 : ℚ) 1 1)) ({ x := 0, y := 0, width := 8 } : Quadrant ℚ))
    (f := depth) (b := 4) (by decide!)
  exact ⟨t, ht, hd, (C11_subdivision_depth 3 ({ x := 0, y := 0, width := 8 } : Quadrant ℚ)
    (restStar 1 1 1) (restStar 2 1 1) t (by decide!) ht).1⟩

/-- C12: `MergeStars` adds the masses, averages the velocities
and leaves position, radius, colour and acceleration as they were; and `GenerateQuadTree` on
two present bodies at one position returns a root that is a leaf carrying the merged body. -/
theorem C12_merge_coincident (fuel : Nat) (width : K) (a s : Star K)
    (hpos : a.position = s.position) :
    (MergeStars a s).mass = a.mass + s.mass ∧
    (MergeStars a s).velocity =
      { x := (a.velocity.x + s.velocity.x) / 2, y := (a.velocity.y + s.velocity.y) / 2 } ∧
    (MergeStars a s).position = a.position ∧
    (MergeStars a s).radius = a.radius ∧
    (MergeStars a s).red = a.red ∧ (MergeStars a s).green = a.green ∧
    (MergeStars a s).blue = a.blue ∧
    (MergeStars a s).acceleration = a.acceleration ∧
    ∃ q, GenerateQuadTree fuel { stars := [some a, some s], width := width } = .ok q ∧
      IsLeaf q.root = true ∧ rootStar q.root = some (MergeStars a s) ∧
      leafStars q.root = [MergeStars a s] := by
  refine ⟨rfl, rfl, rfl, rfl, rfl, rfl, rfl, rfl,
    { root := .branch (MergeStars a s) { x := 0, y := 0, width := width } emptyChildren },
    ?_, rfl, rfl, rfl⟩
  rw [GenerateQuadTree_eq_ok_iff]
  simp only [generateLoop, InsertIntoQuadTree, InitializeStartingQuadrant, newLeaf, copyStar_eq]
  rw [insertLeafCase_some, if_pos hpos]

/-- Witness of C12: masses 1 and 3 at `(2,2)` with velocities `(2,0)` and `(0,0)` merge into
mass 4 with velocity `(1,0)`. -/
theorem C12_merge_coincident_witness :
    (MergeStars (mkStar (2 : ℚ) 2 1 { x := 2, y := 0 } { x := 0, y := 0 })
        (mkStar (2 : ℚ) 2 3 { x := 0, y := 0 } { x := 0, y := 0 })).mass =
      (mkStar (2 : ℚ) 2 1 { x := 2, y := 0 } { x := 0, y := 0 }).mass +
        (mkStar (2 : ℚ) 2 3 { x := 0, y := 0 } { x := 0, y := 0 }).mass ∧
    MergeStars (mkStar (2 : ℚ) 2 1 { x := 2, y := 0 } { x := 0, y := 0 })
        (mkStar (2 : ℚ) 2 3 { x := 0, y := 0 } { x := 0, y := 0 }) =
      mkStar (2 : ℚ) 2 4 { x := 1, y := 0 } { x := 0, y := 0 } :=
  ⟨(C12_merge_coincident 0 (8 : ℚ) (mkStar 2 2 1 { x := 2, y := 0 } { x := 0, y := 0 })
      (mkStar 2 2 3 { x := 0, y := 0 } { x := 0, y := 0 }) rfl).1, by decide!⟩

/-- C13: with `dt = 0`, a present body that lies in `[0,width]x[0,width]` stays present with
its position and velocity, and its acceleration becomes
`CalculateNetForce(tree.root, body, theta)` divided by its mass. -/
theorem C13_zero_time_step (G : K) (sqrt : K → K) (u : Universe K) (q : QuadTree K) (theta : K)
    (i : Nat) (st : Star K) (hin : u.stars[i]? = some (some st))
    (hregion : 0 ≤ st.position.x ∧ st.position.x ≤ u.width ∧
      0 ≤ st.position.y ∧ st.position.y ≤ u.width) :
    ∃ st', (UpdateUniverse G sqrt u q 0 theta).stars[i]? = some (some st') ∧
      st'.position = st.position ∧ st'.velocity = st.velocity ∧
      st'.acceleration =
        { x := (CalculateNetForce G sqrt q.root st theta).x / st.mass,
          y := (CalculateNetForce G sqrt q.root st theta).y / st.mass } := by
  have hp : integratedPosition G sqrt q.root 0 theta st = st.position := by
    rw [← position_eq_iff]
    simp [integratedPosition, UpdatePosition, UpdateVelocity]
  have hsome : ∃ st', updateStar G sqrt q.root u.width 0 theta st = some st' := by
    rw [updateStar_isSome_iff, hp]
    exact hregion
  obtain ⟨st', hst'⟩ := hsome
  refine ⟨st', ?_, ?_, ?_, ?_⟩
  · rw [UpdateUniverse_getElem?, hin]
    simpa using hst'
  · rw [updateStar_eq_some hst']
    exact hp
  · rw [updateStar_eq_some hst', ← position_eq_iff]
    simp [UpdateVelocity]
  · rw [updateStar_eq_some hst']
    rfl

/-- Witness of C13: a moving body at `(1,1)` stepped with `dt = 0` against the leaf of a body
at `(3,1)`. -/
theorem C13_zero_time_step_witness :
    ∃ st', (UpdateUniverse 1 Rat.sqrt
          { stars := [some (mkStar 1 1 2 { x := 5, y := 7 } { x := 0, y := 0 })],
            width := (4 : ℚ) }
          { root := .leaf (restStar 3 1 4) { x := 0, y := 0, width := 4 } } 0 (1 / 2)).stars[0]? =
        some (some st') ∧
      st'.position = (mkStar (1 : ℚ) 1 2 { x := 5, y := 7 } { x := 0, y := 0 }).position ∧
      st'.velocity = (mkStar (1 : ℚ) 1 2 { x := 5, y := 7 } { x := 0, y := 0 }).velocity ∧
      st'.acceleration =
        { x := (CalculateNetForce 1 Rat.sqrt
              (.leaf (restStar 3 1 4) { x := 0, y := 0, width := 4 })
              (mkStar 1 1 2 { x := 5, y := 7 } { x := 0, y := 0 }) (1 / 2)).x /
            (mkStar (1 : ℚ) 1 2 { x := 5, y := 7 } { x := 0, y := 0 }).mass,
          y := (CalculateNetForce 1 Rat.sqrt
              (.leaf (restStar 3 1 4) { x := 0, y := 0, width := 4 })
              (mkStar 1 1 2 { x := 5, y := 7 } { x := 0, y := 0 }) (1 / 2)).y /
            (mkStar (1 : ℚ) 1 2 { x := 5, y := 7 } { x := 0, y := 0 }).mass } :=
  C13_zero_time_step 1 Rat.sqrt
    { stars := [some (mkStar 1 1 2 { x := 5, y := 7 } { x := 0, y := 0 })], width := (4 : ℚ) }
    { root := .leaf (restStar 3 1 4) { x := 0, y := 0, width := 4 } } (1 / 2) 0
    (mkStar 1 1 2 { x := 5, y := 7 } { x := 0, y := 0 }) rfl (by decide!)

/-- C14: `UpdateVelocity(s, t)` is `s.velocity + s.acceleration*t` and `UpdatePosition(s, t)`
is `s.position + s.velocity*t + 0.5*s.acceleration*t^2`, componentwise, from the values stored
in `s`; the body at `(0,0)` with velocity `(0,0)` and acceleration `(2,0)` gets velocity
`(2,0)` and position `(1,0)` for `t = 1`. -/
theorem C14_integration_helpers (s : Star K) (t : K) :
    UpdateVelocity s t =
      { x := s.velocity.x + s.acceleration.x * t, y := s.velocity.y + s.acceleration.y * t } ∧
    UpdatePosition s t =
      { x := s.position.x + s.velocity.x * t + (1 / 2) * s.acceleration.x * t ^ 2,
        y := s.position.y + s.velocity.y * t + (1 / 2) * s.acceleration.y * t ^ 2 } ∧
    UpdateVelocity scenarioStar 1 = { x := 2, y := 0 } ∧
    UpdatePosition scenarioStar 1 = { x := 1, y := 0 } := by
  refine ⟨rfl, ?_, by decide!, by decide!⟩
  rw [← position_eq_iff]
  simp only [UpdatePosition]
  constructor <;> ring

/-- C15: a present body retained by `UpdateUniverse` keeps its mass, radius and colour. -/
theorem C15_attributes_carried (G : K) (sqrt : K → K) (u : Universe K) (q : QuadTree K)
    (dt theta : K) (i : Nat) (st st' : Star K) (hin : u.stars[i]? = some (some st))
    (hout : (UpdateUniverse G sqrt u q dt theta).stars[i]? = some (some st')) :
    st'.mass = st.mass ∧ st'.radius = st.radius ∧ st'.red = st.red ∧ st'.green = st.green ∧
      st'.blue = st.blue := by
  rw [UpdateUniverse_getElem?, hin] at hout
  have h := updateStar_eq_some (Option.some.inj hout)
  subst h
  exact ⟨rfl, rfl, rfl, rfl, rfl⟩

/-- Witness of C15: a coloured body of radius 7 stepped against an empty tree. -/
theorem C15_attributes_carried_witness :
    ({ paintedStar with position := { x := 2, y := 2 }, acceleration := { x := 0, y := 0 } } :
        Star ℚ).mass = paintedStar.mass :=
  (C15_attributes_carried 1 Rat.sqrt { stars := [some paintedStar], width := (4 : ℚ) }
    { root := .nil } 1 (1 / 2) 0 paintedStar
    { paintedStar with position := { x := 2, y := 2 }, acceleration := { x := 0, y := 0 } }
    rfl (by decide!)).1

/-- C16 (the code fails the claim): a single body at `(1,1)` with velocity `(-2,0)` in a
universe of width 10, stepped with `dt = 1`. One generation returns the two universes, the
second with the slot absent; two generations dereference the nil star of that slot in
`GenerateQuadTree`, whatever the recursion budget. When `BarnesHut` does return, its result
has `numGens + 1` universes, the first the initial one and each later one the update of its
predecessor against the tree of its predecessor. -/
theorem C16_trajectory_faults_after_removal (fuel : Nat) :
    BarnesHut 1 Rat.sqrt fuel { stars := [some departingStar], width := (10 : ℚ) } 1 1 (1 / 2) =
      .ok [{ stars := [some departingStar], width := 10 }, { stars := [none], width := 10 }] ∧
    BarnesHut 1 Rat.sqrt fuel { stars := [some departingStar], width := (10 : ℚ) } 2 1 (1 / 2) =
      .error .nilDereference ∧
    (∀ (G : K) (sqrt : K → K) (initial : Universe K) (numGens : Nat) (time theta : K)
      (timePoints : List (Universe K)),
      BarnesHut G sqrt fuel initial numGens time theta = .ok timePoints →
      timePoints.length = numGens + 1 ∧ timePoints[0]? = some initial ∧
      ∀ i, i < numGens → ∃ q, GenerateQuadTree fuel (timePoints.getD i initial) = .ok q ∧
        timePoints.getD (i + 1) initial =
          UpdateUniverse G sqrt (timePoints.getD i initial) q time theta) := by
  have h1 : GenerateQuadTree fuel { stars := [some departingStar], width := (10 : ℚ) } =
      .ok { root := .leaf departingStar { x := 0, y := 0, width := 10 } } := rfl
  have h2 : UpdateUniverse 1 Rat.sqrt { stars := [some departingStar], width := (10 : ℚ) }
      { root := .leaf departingStar { x := 0, y := 0, width := 10 } } 1 (1 / 2) =
      { stars := [none], width := 10 } := by decide!
  have h3 : GenerateQuadTree fuel { stars := [none], width := (10 : ℚ) } =
      .error .nilDereference := rfl
  refine ⟨?_, ?_, ?_⟩
  · simp only [BarnesHut, timePointsFrom, h1, h2]
  · simp only [BarnesHut, timePointsFrom, h1, h2, h3]
  · intro G sqrt initial numGens time theta timePoints h
    unfold BarnesHut at h
    cases hr : timePointsFrom G sqrt fuel time theta numGens initial with
    | error e => rw [hr] at h; simp at h
    | ok rest =>
      rw [hr] at h
      simp only at h
      rw [← Except.ok.inj h]
      obtain ⟨hlen, hstep⟩ := timePointsFrom_ok hr
      exact ⟨by simp [hlen], by simp, hstep⟩

/-- C17: at an Internal node at non-zero distance `d` from the target, `CalculateNetForce` is
`ComputeForce(s, aggregate)` when `width/d <= theta` and otherwise the sum of
`CalculateNetForce` over the four children; at a leaf at non-zero distance it is
`ComputeForce(s, leaf body)`; at a leaf at distance zero and at the nil node it is the zero
vector. -/
theorem C17_opening_criterion (G : K) (sqrt : K → K) (theta : K) (s : Star K) :
    (∀ (a : Star K) (sector : Quadrant K) (children : Fin 4 → Node K),
      IsLeaf (.branch a sector children) = false →
      Distance sqrt s.position a.position ≠ 0 →
      (sector.width / Distance sqrt s.position a.position ≤ theta →
        CalculateNetForce G sqrt (.branch a sector children) s theta =
          ComputeForce G sqrt s a) ∧
      (¬ sector.width / Distance sqrt s.position a.position ≤ theta →
        CalculateNetForce G sqrt (.branch a sector children) s theta =
          { x := (CalculateNetForce G sqrt (children 0) s theta).x +
                (CalculateNetForce G sqrt (children 1) s theta).x +
                (CalculateNetForce G sqrt (children 2) s theta).x +
                (CalculateNetForce G sqrt (children 3) s theta).x,
            y := (CalculateNetForce G sqrt (children 0) s theta).y +
                (CalculateNetForce G sqrt (children 1) s theta).y +
                (CalculateNetForce G sqrt (children 2) s theta).y +
                (CalculateNetForce G sqrt (children 3) s theta).y })) ∧
    (∀ (n : Node K) (a : Star K) (sector : Quadrant K), HoldsLeaf n a sector →
      (Distance sqrt s.position a.position ≠ 0 →
        CalculateNetForce G sqrt n s theta = ComputeForce G sqrt s a) ∧
      (Distance sqrt s.position a.position = 0 →
        CalculateNetForce G sqrt n s theta = { x := 0, y := 0 })) ∧
    CalculateNetForce G sqrt .nil s theta = { x := 0, y := 0 } := by
  have hadd : ∀ F : OrderedPair K,
      AddOrderedPairs ({ x := 0, y := 0 } : OrderedPair K) F = F := by
    intro F
    rw [← position_eq_iff]
    simp [AddOrderedPairs]
  have h4 : List.finRange 4 = [0, 1, 2, 3] := by decide
  refine ⟨?_, ?_, rfl⟩
  · intro a sector children hl hd
    constructor
    · intro hr
      rw [CalculateNetForce]
      simp only [hl, hd, ne_eq, not_false_eq_true, if_true, Bool.false_eq_true, if_false, hr]
      exact hadd _
    · intro hr
      rw [CalculateNetForce]
      simp only [hl, hd, ne_eq, not_false_eq_true, if_true, Bool.false_eq_true, if_false, hr,
        h4, List.foldl_cons, List.foldl_nil]
      rw [← position_eq_iff]
      simp only [AddOrderedPairs, zero_add]
      trivial
  · intro n a sector hn
    rcases hn with rfl | ⟨children, rfl, hl⟩
    · constructor
      · intro hd
        simp only [CalculateNetForce, hd, ne_eq, not_false_eq_true, if_true]
        exact hadd _
      · intro hd
        simp only [CalculateNetForce, hd, ne_eq, not_true_eq_false, if_false]
    · constructor
      · intro hd
        rw [CalculateNetForce]
        simp only [hl, hd, ne_eq, not_false_eq_true, if_true]
        exact hadd _
      · intro hd
        rw [CalculateNetForce]
        simp only [hd, ne_eq, not_true_eq_false, if_false]

/-- C18: `DetermineQuadrant` returns an index in `{0,1,2,3}` and a square of half the width:
West exactly when `bx <= x + w/2`, North exactly when `by >= y + w/2`, NW = 0 at
`(x, y + w/2)`, NE = 1 at `(x + w/2, y + w/2)`, SW = 2 at `(x, y)`, SE = 3 at `(x + w/2, y)`. -/
theorem C18_quadrant_determination (sector : Quadrant K) (s : Star K) :
    (DetermineQuadrant sector s).2.val < 4 ∧
    (DetermineQuadrant sector s).1.width = sector.width / 2 ∧
    (((DetermineQuadrant sector s).2 = 0 ∨ (DetermineQuadrant sector s).2 = 2) ↔
      s.position.x ≤ sector.x + sector.width / 2) ∧
    (((DetermineQuadrant sector s).2 = 1 ∨ (DetermineQuadrant sector s).2 = 3) ↔
      ¬ s.position.x ≤ sector.x + sector.width / 2) ∧
    (((DetermineQuadrant sector s).2 = 0 ∨ (DetermineQuadrant sector s).2 = 1) ↔
      s.position.y ≥ sector.y + sector.width / 2) ∧
    (((DetermineQuadrant sector s).2 = 2 ∨ (DetermineQuadrant sector s).2 = 3) ↔
      ¬ s.position.y ≥ sector.y + sector.width / 2) ∧
    ((DetermineQuadrant sector s).2 = 0 → (DetermineQuadrant sector s).1 =
      { x := sector.x, y := sector.y + sector.width / 2, width := sector.width / 2 }) ∧
    ((DetermineQuadrant sector s).2 = 1 → (DetermineQuadrant sector s).1 =
      { x := sector.x + sector.width / 2, y := sector.y + sector.width / 2,
        width := sector.width / 2 }) ∧
    ((DetermineQuadrant sector s).2 = 2 → (DetermineQuadrant sector s).1 =
      { x := sector.x, y := sector.y, width := sector.width / 2 }) ∧
    ((DetermineQuadrant sector s).2 = 3 → (DetermineQuadrant sector s).1 =
      { x := sector.x + sector.width / 2, y := sector.y, width := sector.width / 2 }) ∧
    (∀ i : Fin 4, (subQuadrant sector i).width = sector.width / 2) := by
  refine ⟨(DetermineQuadrant sector s).2.isLt, ?_, ?_, ?_, ?_, ?_, ?_, ?_, ?_, ?_,
    subQuadrant_width sector⟩
  all_goals
    unfold DetermineQuadrant
    split <;> split <;> rename_i hx hy <;> simp [hx, hy]

/-- C19 (as stated, refuted): in the region at the origin of width 2, the body at the midpoint
`(1,1)` is assigned to NW, index 0, with sub-region origin `(0,1)`, not to SW (index 2). -/
theorem C19_midpoint_tie_counterexample :
    DetermineQuadrant ({ x := 0, y := 0, width := 2 } : Quadrant ℚ) (restStar 1 1 1) =
      ({ x := 0, y := 1, width := 1 }, 0) ∧
    (DetermineQuadrant ({ x := 0, y := 0, width := 2 } : Quadrant ℚ) (restStar 1 1 1)).2 ≠ 2 := by
  constructor <;> decide!

/-- C19 (amended): midpoint ties resolve toward West and North. A body whose x-coordinate is
`x + w/2` is placed in a West quadrant (index 0 or 2), a body whose y-coordinate is `y + w/2`
is placed in a North quadrant (index 0 or 1), and a body exactly at the midpoint is assigned
to NW, index 0, with sub-region origin `(x, y + w/2)`. -/
theorem C19_midpoint_tie (sector : Quadrant K) (s : Star K) :
    (s.position.x = sector.x + sector.width / 2 →
      (DetermineQuadrant sector s).2 = 0 ∨ (DetermineQuadrant sector s).2 = 2) ∧
    (s.position.y = sector.y + sector.width / 2 →
      (DetermineQuadrant sector s).2 = 0 ∨ (DetermineQuadrant sector s).2 = 1) ∧
    (s.position.x = sector.x + sector.width / 2 → s.position.y = sector.y + sector.width / 2 →
      DetermineQuadrant sector s =
        ({ x := sector.x, y := sector.y + sector.width / 2, width := sector.width / 2 }, 0)) := by
  refine ⟨?_, ?_, ?_⟩
  · intro hx
    unfold DetermineQuadrant
    rw [if_pos hx.le]
    split <;> simp
  · intro hy
    unfold DetermineQuadrant
    split <;> rw [if_pos hy.ge] <;> simp
  · intro hx hy
    unfold DetermineQuadrant
    rw [if_pos hx.le, if_pos hy.ge]

/-- C20 (the code departs from it): with the rounding of `float64` the subdivision does not
terminate for the bodies at `(0, 3 - 2^-51)` and `(0, 3)` in the region of width 3. The width
is positive, the positions are distinct, both lie in the closed square, and every coordinate
is a value of `float64`; yet `DetermineQuadrant` gives both bodies the north-west quadrant at
every level, because the midpoint of level 52 rounds onto the lower body and every later one
is absorbed by it, so the recursion of `InsertAtLeaf` exhausts every budget and no node is
returned. -/
theorem C20_split_rounded_no_return :
    (0 : ℚ) < 3 ∧
    closeBodyLow.position ≠ closeBodyHigh.position ∧
    InRegion ({ x := 0, y := 0, width := 3 } : Quadrant ℚ) closeBodyLow.position ∧
    InRegion ({ x := 0, y := 0, width := 3 } : Quadrant ℚ) closeBodyHigh.position ∧
    closeBodyLow.position = { x := 0, y := 3 - 1 / 2 ^ 51 } ∧
    closeBodyHigh.position = { x := 0, y := 3 } ∧
    roundFloat64 0 = 0 ∧ roundFloat64 3 = 3 ∧
    roundFloat64 (3 - 1 / 2 ^ 51) = 3 - 1 / 2 ^ 51 ∧
    (∀ k : Nat, k ≤ 53 →
      DetermineQuadrantRounded roundFloat64 (roundedSector k) closeBodyLow =
          (roundedSector (k + 1), 0) ∧
        DetermineQuadrantRounded roundFloat64 (roundedSector k) closeBodyHigh =
          (roundedSector (k + 1), 0)) ∧
    ∀ fuel : Nat,
      InsertAtLeafRounded roundFloat64 fuel closeBodyLow closeBodyHigh
        { x := 0, y := 0, width := 3 } = .error .fuelExhausted := by
  refine ⟨by norm_num, by decide!, by unfold InRegion; decide!, by unfold InRegion; decide!,
    rfl, rfl, roundFloat64_closeBodies.1, roundFloat64_closeBodies.2.1,
    roundFloat64_closeBodies.2.2, DetermineQuadrantRounded_close, fun fuel => ?_⟩
  rw [← roundedSector_zero]
  exact InsertAtLeafRounded_close 54 fuel 0 (by omega)

/-- C21: for two bodies at distinct positions, `ComputeForce b1 b2` is the componentwise
negation of `ComputeForce b2 b1`. -/
theorem C21_newton_third_law (G : K) (sqrt : K → K) (b1 b2 : Star K)
    (_hne : b1.position ≠ b2.position) :
    ComputeForce G sqrt b1 b2 =
      { x := -(ComputeForce G sqrt b2 b1).x, y := -(ComputeForce G sqrt b2 b1).y } := by
  rw [← position_eq_iff]
  simp only [ComputeForce, Distance_comm sqrt b2.position b1.position]
  constructor <;> ring

/-- Witness of C21: masses 2 and 5 at `(0,0)` and `(3,4)`, distance 5, `G = 1`; the force on
the first body is `(6/25, 8/25)`. -/
theorem C21_newton_third_law_witness :
    ComputeForce 1 Rat.sqrt (restStar (0 : ℚ) 0 2) (restStar (3 : ℚ) 4 5) =
        { x := -(ComputeForce 1 Rat.sqrt (restStar (3 : ℚ) 4 5) (restStar (0 : ℚ) 0 2)).x,
          y := -(ComputeForce 1 Rat.sqrt (restStar (3 : ℚ) 4 5) (restStar (0 : ℚ) 0 2)).y } ∧
    ComputeForce 1 Rat.sqrt (restStar (0 : ℚ) 0 2) (restStar (3 : ℚ) 4 5) =
        { x := 6 / 25, y := 8 / 25 } ∧
    ComputeForce 1 Rat.sqrt (restStar (3 : ℚ) 4 5) (restStar (0 : ℚ) 0 2) =
        { x := -6 / 25, y := -8 / 25 } :=
  ⟨C21_newton_third_law 1 Rat.sqrt (restStar 0 0 2) (restStar 3 4 5) (by decide!),
    by decide!, by decide!⟩

end Claims

end BarnesHut
